import Mathlib

/-!
# a64 multicolor encoder (`libavcodec/a64multienc.c`)

A shallow embedding of the block extractor `to_meta_with_crop`, the charset
renderer `render_charset` and the batching entry point
`a64multi_encode_frame`, followed by the properties proved about them.

Conventions of the embedding:

* a C array or pointer target is a function `Nat → α` from index to content
  together with, where the code moves a pointer, a `Nat` offset;
* a store to a `uint8_t` location truncates with `% 256`;
* a C `for` loop whose counter only grows is `forLoop start stop step body`;
* the character loop of `render_charset`, which may repeat a character, takes the
  number of passes it may execute and returns `none` when that is not enough;
* what the file uses from headers outside the sources at hand is either a parameter
  (the table `multi_dither_patterns`, the quantizer of `elbg.h`) or a constant with
  its origin noted (`C64XRES`, `C64YRES`, `FF_I_TYPE`, `AVERROR(EINVAL)`).

The definitions come first, the properties after them; the statements that settle
the claims of the specification are at the end.
-/

namespace A64


/-! ## Memory and loops -/

/-- Store `v` at index `i` of the array `m`. -/
def store {α : Type} (m : Nat → α) (i : Nat) (v : α) : Nat → α :=
  fun j => if j = i then v else m j

/-- Worker of `forLoop`: `fuel` bounds the number of iterations still allowed. -/
def forLoopAux {σ : Type} (stop step : Nat) (body : Nat → σ → σ) : Nat → Nat → σ → σ
  | 0, _, s => s
  | fuel + 1, i, s =>
    if i < stop then forLoopAux stop step body fuel (i + step) (body i s) else s

/-- The loop `for (i = start; i < stop; i += step) body`, acting on a state `s`.
The fuel `stop - start` is never exhausted when `step ≥ 1`
(`forLoop_lt`, `forLoop_ge`). -/
def forLoop {σ : Type} (start stop step : Nat) (body : Nat → σ → σ) (s : σ) : σ :=
  forLoopAux stop step body (stop - start) start s

/-- The macro `FFMIN(a,b) ((a) > (b) ? (b) : (a))` of `libavutil/common.h`. -/
def FFMIN {α : Type} [LT α] [DecidableRel (fun a b : α => a > b)] (a b : α) : α :=
  if a > b then b else a

/-- The macro `FFMAX(a,b) ((a) > (b) ? (a) : (b))` of `libavutil/common.h`. -/
def FFMAX {α : Type} [LT α] [DecidableRel (fun a b : α => a > b)] (a b : α) : α :=
  if a > b then a else b

/-! ## Constants -/

/-- `#define DITHERSTEPS 8`. -/
def DITHERSTEPS : Nat := 8

/-- `#define CHARSET_CHARS 256`. -/
def CHARSET_CHARS : Nat := 256

/-- Modelled from the spec: `C64XRES` is defined in `a64enc.h`, which is not part of
the sources at hand.  The canvas is 40 character cells of 8 pixels in a row. -/
def C64XRES : Nat := 320

/-- Modelled from the spec: `C64YRES` is defined in `a64enc.h`, which is not part of
the sources at hand.  The canvas is 25 character cells of 8 pixels in a column. -/
def C64YRES : Nat := 200

/-- `FF_I_TYPE` of `avcodec.h`. -/
def FF_I_TYPE : Nat := 1

/-- `AVERROR(EINVAL)`: the negated errno value `EINVAL = 22`. -/
def AVERROR_EINVAL : Int := -22

/-! ## Frames and the block extractor -/

/-- The fields of `AVFrame` the encoder touches: plane 0, its stride, and the two
flags the encoder sets on its private copy. -/
structure AVFrame where
  data0 : Nat → Nat
  linesize0 : Nat
  pict_type : Nat
  key_frame : Nat

/-- The fields of `AVCodecContext` the encoder reads. -/
structure AVCodecContext where
  width : Nat
  height : Nat

/-- Read of the `uint8_t` at index `i` of a byte plane. -/
def px (src : Nat → Nat) (i : Nat) : Nat := src i % 256

/-- The innermost statement of `to_meta_with_crop` for the sample at `(x, y)`:
the guarded store through `dest`, then `dest++`.  The state is the running
`dest` pointer and the memory it points into. -/
def meta_sample (width : Nat) (p : AVFrame) (y x : Nat)
    (st : Nat × (Nat → Int)) : Nat × (Nat → Int) :=
  let st1 : Nat × (Nat → Int) :=
    if x < width then
      /- build average over 2 pixels -/
      let luma : Nat := (px p.data0 (x + 0 + y * p.linesize0) +
                         px p.data0 (x + 1 + y * p.linesize0)) / 2
      (st.1, store st.2 st.1 (luma : Int))
    else st
  (st1.1 + 1, st1.2)

/-- The loop nest of `to_meta_with_crop`, started with the pointer `dest` into `mem`. -/
def to_meta_loops (avctx : AVCodecContext) (p : AVFrame)
    (st : Nat × (Nat → Int)) : Nat × (Nat → Int) :=
  let height := FFMIN avctx.height C64YRES
  let width := FFMIN avctx.width C64XRES
  forLoop 0 height 8 (fun blocky st =>
    forLoop 0 C64XRES 8 (fun blockx st =>
      forLoop blocky (min (blocky + 8) height) 1 (fun y st =>
        forLoop blockx (min (blockx + 8) C64XRES) 2 (fun x st =>
          meta_sample width p y x st) st) st) st) st

/-- The function `to_meta_with_crop(avctx, p, dest)`; `dest` is the offset of the
first slot within `mem`.  Returns the memory afterwards. -/
def to_meta_with_crop (avctx : AVCodecContext) (p : AVFrame)
    (mem : Nat → Int) (dest : Nat) : Nat → Int :=
  (to_meta_loops avctx p (dest, mem)).2

/-! ## The charset renderer -/

/-- The function-static lookup arrays `index1`, `index2` and `dither` of
`render_charset`.  Being `static`, they keep their content between calls. -/
structure Tables where
  index1 : Nat → Nat
  index2 : Nat → Nat
  dither : Nat → Nat

/-- The inner loop of the table generation:
`for (b = 0; b <= distance; b++) dither[mc_luma_vals[i]+b] = b * (DITHERSTEPS - 1) / distance;`
with `distance = mc_luma_vals[i+1] - mc_luma_vals[i]` computed as an `int`. -/
def dither_ramp (L : Nat → Nat) (i : Nat) (dither : Nat → Nat) : Nat → Nat :=
  let distance : Int := (L (i + 1) : Int) - (L i : Int)
  forLoop 0 (distance + 1).toNat 1 (fun b dither =>
    store dither (L i + b) ((((b : Int) * ((DITHERSTEPS : Int) - 1) / distance) % 256).toNat))
    dither

/-- One iteration (value `a`) of the table generation loop; the state is the
running level `i` and the three tables. -/
def table_step (L : Nat → Nat) (a : Nat) (st : Nat × Tables) : Nat × Tables :=
  let st1 : Nat × Tables :=
    if st.1 < 4 ∧ a = L (st.1 + 1) then
      (st.1 + 1, { st.2 with dither := dither_ramp L st.1 st.2.dither })
    else st
  let t2 : Tables :=
    if st1.1 ≥ 4 then { st1.2 with dither := store st1.2.dither a 0 } else st1.2
  (st1.1, { t2 with index1 := store t2.index1 a (st1.1 % 256),
                    index2 := store t2.index2 a (FFMIN (st1.1 + 1) 4 % 256) })

/-- The first loop of `render_charset`: generate lookup-tables for dither and index. -/
def build_tables (L : Nat → Nat) (t : Tables) : Tables :=
  (forLoop 0 256 1 (table_step L) (0, t)).2

/-- The body of the `x` loop of `render_charset` for the pixel `(x, y)` of the
character at `best_cb`.  The state is `(lowdiff, highdiff, row1)`;
`pat` is the table `multi_dither_patterns` of `a64tables.h`. -/
def render_pixel (pat : Nat → Nat → Nat → Nat) (L : Nat → Nat) (t : Tables)
    (mem_cb : Nat → Int) (best_cb y x : Nat) (st : Int × Int × Nat) : Int × Int × Nat :=
  let pix : Nat := (mem_cb (best_cb + (y * 4 + x)) % 256).toNat
  /- accumulate error for brightest/darkest color -/
  let highdiff : Int :=
    if t.index1 pix ≥ 3 then st.2.1 + ((pix : Int) - (L 3 : Int)) else st.2.1
  let lowdiff : Int :=
    if t.index1 pix < 1 then st.1 + ((L 1 : Int) - (pix : Int)) else st.1
  let row1 : Nat := (st.2.2 <<< 2) % 256
  let row1 : Nat :=
    if pat (t.dither pix) (y &&& 3) (x &&& 3) ≠ 0 then
      (row1 ||| (3 - (t.index2 pix &&& 3))) % 256
    else
      (row1 ||| (3 - (t.index1 pix &&& 3))) % 256
  (lowdiff, highdiff, row1)

/-- The body of the `y` loop: render row `y` and store it at `charset[y]`.
The state is `(lowdiff, highdiff, memory behind charset)`. -/
def render_row (pat : Nat → Nat → Nat → Nat) (L : Nat → Nat) (t : Tables)
    (mem_cb : Nat → Int) (best_cb charset y : Nat)
    (st : Int × Int × (Nat → Nat)) : Int × Int × (Nat → Nat) :=
  let r := forLoop 0 4 1 (render_pixel pat L t mem_cb best_cb y) (st.1, st.2.1, 0)
  (r.1, r.2.1, store st.2.2 (charset + y + 0x000) r.2.2)

/-- One pass of the character loop up to the adjustment test: both error sums
start at zero and the eight rows are rendered.  Returns
`(lowdiff, highdiff, memory behind charset)`. -/
def char_pass (pat : Nat → Nat → Nat → Nat) (L : Nat → Nat) (t : Tables)
    (mem_cb : Nat → Int) (best_cb : Nat) (mem_cs : Nat → Nat) (charset : Nat) :
    Int × Int × (Nat → Nat) :=
  forLoop 0 8 1 (render_row pat L t mem_cb best_cb charset) (0, 0, mem_cs)

/-- `for (x = 0; x < 32; x++) best_cb[x] = FFMIN(c->mc_luma_vals[3], best_cb[x]);` -/
def clamp_high (L : Nat → Nat) (best_cb : Nat) (mem_cb : Nat → Int) : Nat → Int :=
  forLoop 0 32 1 (fun x m => store m (best_cb + x) (FFMIN (L 3 : Int) (m (best_cb + x)))) mem_cb

/-- `for (x = 0; x < 32; x++) best_cb[x] = FFMAX(c->mc_luma_vals[1], best_cb[x]);` -/
def clamp_low (L : Nat → Nat) (best_cb : Nat) (mem_cb : Nat → Int) : Nat → Int :=
  forLoop 0 32 1 (fun x m => store m (best_cb + x) (FFMAX (L 1 : Int) (m (best_cb + x)))) mem_cb

/-- The variables the character loop of `render_charset` changes: the codebook
memory and the local pointer `best_cb` into it, the output memory and the local
pointer `charset` into it, and `colrammap`.  `passes` is a ghost record, read by
no code: the value of `charpos` at every executed pass, latest first. -/
structure RenderState where
  mem_cb : Nat → Int
  best_cb : Nat
  mem_cs : Nat → Nat
  charset : Nat
  colrammap : Nat → Nat
  passes : List Nat

/-- The character loop `for (charpos = 0; charpos < CHARSET_CHARS; charpos++)`.
A pass that adjusts the character executes `charpos--`, which the loop increment
undoes, so the next pass has the same `charpos`.  The loop has no bound in the
source: `fuel` is the number of passes allowed, and `none` means that more were
needed. -/
def char_loop (pat : Nat → Nat → Nat → Nat) (L : Nat → Nat) (t : Tables) :
    Nat → Nat → RenderState → Option RenderState
  | 0, charpos, s => if charpos < CHARSET_CHARS then none else some s
  | fuel + 1, charpos, s =>
    if charpos < CHARSET_CHARS then
      let r := char_pass pat L t s.mem_cb s.best_cb s.mem_cs s.charset
      let lowdiff := r.1
      let highdiff := r.2.1
      /- do we need to adjust pixels? -/
      if highdiff > 0 ∧ lowdiff > 0 then
        let cb := if lowdiff > highdiff then clamp_high L s.best_cb s.mem_cb
                  else clamp_low L s.best_cb s.mem_cb
        /- redo now adjusted char -/
        char_loop pat L t fuel charpos
          { s with mem_cb := cb, mem_cs := r.2.2, passes := charpos :: s.passes }
      else
        /- no adjustment needed, all fine: advance pointers, remember colorram value -/
        char_loop pat L t fuel (charpos + 1)
          { s with best_cb := s.best_cb + 32, charset := s.charset + 8, mem_cs := r.2.2,
                   colrammap := store s.colrammap charpos
                     (((if highdiff > 0 then 1 else 0) + 8) % 256),
                   passes := charpos :: s.passes }
    else some s

/-- The function `render_charset(avctx, charset, colrammap)`: `mem_cb` is the
codebook `c->mc_best_cb`, `L` is `c->mc_luma_vals`, `mem_cs` with offset `charset`
is the output, `t0` the content of the static tables on entry.  Returns the
tables and the final loop state, or `none` when `fuel` passes do not suffice. -/
def render_charset (pat : Nat → Nat → Nat → Nat) (L : Nat → Nat) (fuel : Nat) (t0 : Tables)
    (mem_cb : Nat → Int) (mem_cs : Nat → Nat) (charset : Nat) (colrammap : Nat → Nat) :
    Option (Tables × RenderState) :=
  let t := build_tables L t0
  (char_loop pat L t fuel 0
    { mem_cb := mem_cb, best_cb := 0, mem_cs := mem_cs, charset := charset,
      colrammap := colrammap, passes := [] }).map (fun s => (t, s))

/-! ## The encoder state and `a64multi_encode_frame` -/

/-- The fields of `A64Context` the multicolor encoder uses.  The counters are
`int` in the source and never negative: `mc_frame_counter` starts at 0 and only
counts up or is reset, `mc_lifetime` is 4 or a quotient of a positive quality. -/
structure A64Context where
  picture : AVFrame
  randctx : Nat
  mc_lifetime : Nat
  mc_use_5col : Bool
  mc_frame_counter : Nat
  mc_meta_charset : Nat → Int
  mc_best_cb : Nat → Int
  mc_charmap : Nat → Int
  mc_luma_vals : Nat → Nat

/-- Everything that persists between two calls of `a64multi_encode_frame`: the
private context and the static tables of `render_charset`. -/
structure EncState where
  c : A64Context
  lut : Tables

/-- The type shared by `ff_init_elbg` and `ff_do_elbg` (`elbg.h`): from
`(points, dim, numpoints, codebook, numCB, max_steps, closest_cb, rand_state)` to
the new content of `codebook`, `closest_cb` and `rand_state`. -/
abbrev ElbgFn : Type :=
  (Nat → Int) → Nat → Nat → (Nat → Int) → Nat → Nat → (Nat → Int) → Nat →
    (Nat → Int) × (Nat → Int) × Nat

/-- The external vector quantizer: the two entry points of `elbg.c`, which is
not part of the sources at hand and is taken as a parameter. -/
structure Elbg where
  init_elbg : ElbgFn
  do_elbg : ElbgFn

/-- What a call of `a64multi_encode_frame` leaves behind: the returned `int`, the
persistent state and the output buffer.  `colrammap` is the content the local array
of that name has when the call returns; the caller cannot see it, it is kept to state
what the color bytes of the payload are. -/
structure EncodeResult where
  ret : Int
  st : EncState
  buf : Nat → Nat
  colrammap : Nat → Nat

/-- The body of the loop over `a` that packs one frame: the screen byte and, in
5-color mode, the color byte of cell `a`.  `bufp` and `cmp` are the offsets the
moving pointers `buf` and `charmap` have reached. -/
def pack_cell (use_5col : Bool) (colrammap : Nat → Nat) (charmap : Nat → Int)
    (bufp cmp a : Nat) (mem : Nat → Nat) : Nat → Nat :=
  let mem1 := store mem (bufp + 0x800 + a) ((charmap (cmp + a) % 256).toNat)
  if use_5col then
    store mem1 (bufp + 0xc00 + a) (colrammap ((charmap (cmp + a)).toNat) % 256)
  else mem1

/-- The body of the loop over `frame`; the state is `(memory, buf, charmap)` with
both pointers as offsets. -/
def pack_frame (use_5col : Bool) (frm_size : Nat) (colrammap : Nat → Nat)
    (charmap : Nat → Int) (_frame : Nat) (st : (Nat → Nat) × Nat × Nat) :
    (Nat → Nat) × Nat × Nat :=
  (forLoop 0 1000 1 (pack_cell use_5col colrammap charmap st.2.1 st.2.2) st.1,
   st.2.1 + frm_size, st.2.2 + 1000)

/-- The function `a64multi_encode_frame(avctx, buf, buf_size, data)`; `data` is
`none` for the null pointer that signals the end of the stream.  `q` is the
quantizer, `pat` the dither pattern table, `fuel` the number of passes granted
to the character loop of `render_charset`; the result is `none` only when that
loop needs more passes.  The local array `colrammap` is not initialised in the
source; it is taken as zeroed.  The `int` values `frm_size` and `req_size` are computed
exactly: they are the values of the source whenever `0x800 + frm_size * mc_lifetime` is
below `2^31`, the range of an `int`. -/
def a64multi_encode_frame (q : Elbg) (pat : Nat → Nat → Nat → Nat) (fuel : Nat)
    (avctx : AVCodecContext) (st : EncState) (buf : Nat → Nat) (buf_size : Nat)
    (data : Option AVFrame) : Option EncodeResult :=
  let frm_size : Nat := 0x400 + 0x400 * st.c.mc_use_5col.toNat
  /- it is the last frame so prepare to flush -/
  let c : A64Context :=
    match data with
    | none => { st.c with mc_lifetime := st.c.mc_frame_counter }
    | some _ => st.c
  let req_size : Nat := 0x800 + frm_size * c.mc_lifetime
  if req_size > buf_size then
    some { ret := AVERROR_EINVAL, st := { st with c := c }, buf := buf,
           colrammap := fun _ => 0 }
  /- fill up mc_meta_charset with framedata until lifetime exceeds -/
  else if c.mc_frame_counter < c.mc_lifetime then
    match data with
    | some pict =>
      let p : AVFrame := { pict with pict_type := FF_I_TYPE, key_frame := 1 }
      let meta := to_meta_with_crop avctx p c.mc_meta_charset (32000 * c.mc_frame_counter)
      /- lifetime is not reached -/
      some { ret := 0,
             st := { st with c := { c with picture := p, mc_meta_charset := meta,
                                           mc_frame_counter := c.mc_frame_counter + 1 } },
             buf := buf, colrammap := fun _ => 0 }
    | none =>
      /- not reachable: a null `data` has set `mc_lifetime = mc_frame_counter` above -/
      some { ret := 0, st := { st with c := c }, buf := buf, colrammap := fun _ => 0 }
  /- lifetime exceeded so now convert X frames at once -/
  else if c.mc_frame_counter = c.mc_lifetime ∧ c.mc_lifetime > 0 then
    let e1 := q.init_elbg c.mc_meta_charset 32 (1000 * c.mc_lifetime) c.mc_best_cb
                CHARSET_CHARS 5 c.mc_charmap c.randctx
    let e2 := q.do_elbg c.mc_meta_charset 32 (1000 * c.mc_lifetime) e1.1
                CHARSET_CHARS 5 e1.2.1 e1.2.2
    match render_charset pat c.mc_luma_vals fuel st.lut e2.1 buf 0 (fun _ => 0) with
    | none => none
    | some r =>
      let packed := forLoop 0 c.mc_lifetime 1
        (pack_frame c.mc_use_5col frm_size r.2.colrammap e2.2.1) (r.2.mem_cs, 0, 0)
      some { ret := (req_size : Int),
             st := { c := { c with mc_frame_counter := 0, mc_best_cb := r.2.mem_cb,
                                   mc_charmap := e2.2.1, randctx := e2.2.2 },
                     lut := r.1 },
             buf := packed.1, colrammap := r.2.colrammap }
  else
    some { ret := 0, st := { st with c := c }, buf := buf, colrammap := fun _ => 0 }

/-- Feed the inputs of `xs` to `a64multi_encode_frame` one call after the other,
each with the buffer the previous call left; returns the values the calls
returned, in order, with the final state and buffer. -/
def encode_all (q : Elbg) (pat : Nat → Nat → Nat → Nat) (fuel : Nat)
    (avctx : AVCodecContext) (buf_size : Nat) :
    List (Option AVFrame) → EncState → (Nat → Nat) → Option (List Int × EncState × (Nat → Nat))
  | [], st, buf => some ([], st, buf)
  | x :: xs, st, buf =>
    match a64multi_encode_frame q pat fuel avctx st buf buf_size x with
    | none => none
    | some r =>
      match encode_all q pat fuel avctx buf_size xs r.st r.buf with
      | none => none
      | some rest => some (r.ret :: rest.1, rest.2.1, rest.2.2)

/-! ## Definitions used to state the properties -/

/-- A transformer of (pointer, memory) that advances the pointer by `N` and, for each
`r < N`, stores `v` in slot `pointer + r` when `g r = some v` and leaves that slot as
it was when `g r = none`; all memory outside the `N` slots is left as it was. -/
def Writes (f : Nat × (Nat → Int) → Nat × (Nat → Int)) (N : Nat) (g : Nat → Option Int) : Prop :=
  ∀ d m, f (d, m) =
    (d + N, fun i => if d ≤ i ∧ i < d + N then (g (i - d)).getD (m i) else m i)

/-- The value `to_meta_with_crop` stores for the sample at `(x, y)`, if it stores one:
the truncated mean of the two pixels at `x` and `x + 1` of row `y`. -/
def sample_value (width : Nat) (p : AVFrame) (y x : Nat) : Option Int :=
  if x < width then
    some (((px p.data0 (x + y * p.linesize0) +
            px p.data0 (x + 1 + y * p.linesize0)) / 2 : Nat) : Int)
  else none

/-- The reference level a sample value `a` has reached: the number of the levels
`L 1 .. L 4` that are at most `a`. -/
def level_of (L : Nat → Nat) (a : Nat) : Nat :=
  if a < L 1 then 0 else if a < L 2 then 1 else if a < L 3 then 2 else if a < L 4 then 3 else 4

/-- The levels `L 1 .. L 4` strictly increase. -/
def Ascending (L : Nat → Nat) : Prop := L 1 < L 2 ∧ L 2 < L 3 ∧ L 3 < L 4

/-- The level the table loop has reached before it handles `a`: the number of the
levels `L 1 .. L 4` that are below `a`. -/
def level_below (L : Nat → Nat) (a : Nat) : Nat :=
  if a ≤ L 1 then 0 else if a ≤ L 2 then 1 else if a ≤ L 3 then 2 else if a ≤ L 4 then 3 else 4

/-- The `uint8_t pix` the renderer reads from slot `k` of the codebook. -/
def cb_pix (mem_cb : Nat → Int) (k : Nat) : Nat := (mem_cb k % 256).toNat

/-- What one pixel adds to `highdiff`. -/
def high_term (L : Nat → Nat) (t : Tables) (pix : Nat) : Int :=
  if t.index1 pix ≥ 3 then (pix : Int) - (L 3 : Int) else 0

/-- What one pixel adds to `lowdiff`. -/
def low_term (L : Nat → Nat) (t : Tables) (pix : Nat) : Int :=
  if t.index1 pix < 1 then (L 1 : Int) - (pix : Int) else 0

/-- The sum `highdiff` of the 32 pixels of the character stored at `b`; `char_pass_eq`
shows that a pass computes it. -/
def highdiff_of (L : Nat → Nat) (t : Tables) (mem_cb : Nat → Int) (b : Nat) : Int :=
  ∑ k in Finset.range 32, high_term L t (cb_pix mem_cb (b + k))

/-- The sum `lowdiff` of the 32 pixels of the character stored at `b`; `char_pass_eq`
shows that a pass computes it. -/
def lowdiff_of (L : Nat → Nat) (t : Tables) (mem_cb : Nat → Int) (b : Nat) : Int :=
  ∑ k in Finset.range 32, low_term L t (cb_pix mem_cb (b + k))

/-- The 2-bit color of a pixel of value `pix` at column `x` of row `y`, in the words of
the specification: `3 - (upper_index mod 4)` if the entry of the ordered-dither table
at `(dither_level, row mod 4, column mod 4)` is set, `3 - (lower_index mod 4)`
otherwise.  `render_pixel_eq` relates it to what the code shifts into `row1`. -/
def pixel_code (pat : Nat → Nat → Nat → Nat) (t : Tables) (y x pix : Nat) : Nat :=
  if pat (t.dither pix) (y % 4) (x % 4) ≠ 0 then 3 - (t.index2 pix % 4)
  else 3 - (t.index1 pix % 4)

/-- Row `y` of the character stored at `b` in the words of the specification: its four
pixel colors packed MSB-first into one byte.  `render_row_eq` relates it to the byte
the code stores. -/
def row_byte (pat : Nat → Nat → Nat → Nat) (t : Tables) (mem_cb : Nat → Int) (b y : Nat) : Nat :=
  pixel_code pat t y 0 (cb_pix mem_cb (b + (4 * y + 0))) * 64 +
  pixel_code pat t y 1 (cb_pix mem_cb (b + (4 * y + 1))) * 16 +
  pixel_code pat t y 2 (cb_pix mem_cb (b + (4 * y + 2))) * 4 +
  pixel_code pat t y 3 (cb_pix mem_cb (b + (4 * y + 3)))

/-- The value `(highdiff > 0) + 8` stored in `colrammap`. -/
def colram_value (highdiff : Int) : Nat := (if highdiff > 0 then 1 else 0) + 8

/-- What the character loop, entered at `charpos` in state `s`, has established when it
leaves in state `r`. -/
def CharLoopPost (pat : Nat → Nat → Nat → Nat) (L : Nat → Nat) (t : Tables)
    (charpos : Nat) (s r : RenderState) : Prop :=
  (∀ d, charpos + d < 256 →
    ¬ (highdiff_of L t r.mem_cb (s.best_cb + 32 * d) > 0 ∧
       lowdiff_of L t r.mem_cb (s.best_cb + 32 * d) > 0) ∧
    (∀ y, y < 8 → r.mem_cs (s.charset + 8 * d + y) =
      row_byte pat t r.mem_cb (s.best_cb + 32 * d) y) ∧
    r.colrammap (charpos + d) = colram_value (highdiff_of L t r.mem_cb (s.best_cb + 32 * d))) ∧
  (∀ j, (j < s.charset ∨ s.charset + 8 * (256 - charpos) ≤ j) → r.mem_cs j = s.mem_cs j) ∧
  (∀ k, (k < s.best_cb ∨ s.best_cb + 32 * (256 - charpos) ≤ k) → r.mem_cb k = s.mem_cb k) ∧
  (∀ c, (c < charpos ∨ 256 ≤ c) → r.colrammap c = s.colrammap c)

/-- The property of the index table the error sums rely on: a pixel counts towards
`highdiff` exactly when it is at least `L 3`, towards `lowdiff` exactly when below `L 1`. -/
def TableOK (L : Nat → Nat) (t : Tables) : Prop :=
  ∀ pix, pix < 256 → (3 ≤ t.index1 pix ↔ L 3 ≤ pix) ∧ (t.index1 pix < 1 ↔ pix < L 1)

/-- A codebook value that is a sample value. -/
def InRange (v : Int) : Prop := 0 ≤ v ∧ v ≤ 255

/-- The byte `buf[0x800 + a] = charmap[a]` stores for slot `k` of the assignment map. -/
def screen_byte (charmap : Nat → Int) (k : Nat) : Nat := (charmap k % 256).toNat

/-- The byte `buf[0xc00 + a] = colrammap[charmap[a]]` stores for slot `k` of the
assignment map. -/
def color_byte (colrammap : Nat → Nat) (charmap : Nat → Int) (k : Nat) : Nat :=
  colrammap ((charmap k).toNat) % 256

/-- The output buffer `out` is the buffer `m0` with `n` frame blocks of size `frm`
packed behind the charset: the 1000 screen bytes of each frame at the start of its
block, in 5-color mode the 1000 color bytes at offset `0x400` of the block, and
every other byte as in `m0`. -/
def Packed (use_5col : Bool) (frm : Nat) (colrammap : Nat → Nat) (charmap : Nat → Int)
    (m0 out : Nat → Nat) (n : Nat) : Prop :=
  (∀ i a, i < n → a < 1000 →
    out (0x800 + i * frm + a) = screen_byte charmap (i * 1000 + a)) ∧
  (use_5col = true → ∀ i a, i < n → a < 1000 →
    out (0x800 + i * frm + 0x400 + a) = color_byte colrammap charmap (i * 1000 + a)) ∧
  (∀ j, (∀ i a, i < n → a < 1000 → j ≠ 0x800 + i * frm + a) →
    (use_5col = true → ∀ i a, i < n → a < 1000 → j ≠ 0x800 + i * frm + 0x400 + a) →
    out j = m0 j)

/-- The frame block size `frm_size` of a context. -/
def frm_size_of (c : A64Context) : Nat := 0x400 + 0x400 * c.mc_use_5col.toNat

/-- The context after the statement `if (!data) c->mc_lifetime = c->mc_frame_counter;`. -/
def flushed (c : A64Context) (data : Option AVFrame) : A64Context :=
  match data with
  | none => { c with mc_lifetime := c.mc_frame_counter }
  | some _ => c

/-- The size `req_size` a call computes. -/
def req_size_of (c : A64Context) (data : Option AVFrame) : Nat :=
  0x800 + frm_size_of c * (flushed c data).mc_lifetime

/-- The quantizer run of a batch: `ff_init_elbg` followed by `ff_do_elbg`; returns the
new content of the codebook, of the assignment map and of the random state. -/
def quantize (q : Elbg) (c : A64Context) : (Nat → Int) × (Nat → Int) × Nat :=
  q.do_elbg c.mc_meta_charset 32 (1000 * c.mc_lifetime)
    (q.init_elbg c.mc_meta_charset 32 (1000 * c.mc_lifetime) c.mc_best_cb
      CHARSET_CHARS 5 c.mc_charmap c.randctx).1
    CHARSET_CHARS 5
    (q.init_elbg c.mc_meta_charset 32 (1000 * c.mc_lifetime) c.mc_best_cb
      CHARSET_CHARS 5 c.mc_charmap c.randctx).2.1
    (q.init_elbg c.mc_meta_charset 32 (1000 * c.mc_lifetime) c.mc_best_cb
      CHARSET_CHARS 5 c.mc_charmap c.randctx).2.2

/-- The result of a call that runs a batch, given what `render_charset` returned. -/
def batch_result (q : Elbg) (st : EncState) (data : Option AVFrame)
    (r : Tables × RenderState) : EncodeResult :=
  { ret := (req_size_of st.c data : Int),
    st := { c := { flushed st.c data with
                   mc_frame_counter := 0, mc_best_cb := r.2.mem_cb,
                   mc_charmap := (quantize q (flushed st.c data)).2.1,
                   randctx := (quantize q (flushed st.c data)).2.2 },
            lut := r.1 },
    buf := (forLoop 0 (flushed st.c data).mc_lifetime 1
      (pack_frame st.c.mc_use_5col (frm_size_of st.c) r.2.colrammap
        (quantize q (flushed st.c data)).2.1) (r.2.mem_cs, 0, 0)).1,
    colrammap := r.2.colrammap }

/-- Sample reference levels: the lumas of the five greys of the C64 palette. -/
def sample_luma : Nat → Nat := fun i => if i = 0 then 0 else if i = 1 then 51 else
  if i = 2 then 119 else if i = 3 then 187 else 255

/-- A sample dither pattern table. -/
def sample_pat : Nat → Nat → Nat → Nat := fun d y x => if (y * 4 + x) * 2 < d * 5 then 1 else 0

/-- Sample initial content of the static tables: zeroed. -/
def zero_tables : Tables := ⟨fun _ => 0, fun _ => 0, fun _ => 0⟩

/-- A sample codebook: each value is its index modulo 256. -/
def sample_cb : Nat → Int := fun k => ((k % 256 : Nat) : Int)

/-- The reference levels are strictly ascending bytes. -/
def LumaOK (L : Nat → Nat) : Prop :=
  L 0 < L 1 ∧ L 1 < L 2 ∧ L 2 < L 3 ∧ L 3 < L 4 ∧ L 4 ≤ 255

/-- The contract of the quantizer the renderer relies on: every centroid value
`ff_do_elbg` leaves in the codebook is a sample value. -/
def ElbgOK (q : Elbg) : Prop :=
  ∀ (points : Nat → Int) (dim numpoints : Nat) (cb : Nat → Int) (numCB steps : Nat)
    (closest : Nat → Int) (rand : Nat) (k : Nat), k < numCB * dim →
    InRange ((q.do_elbg points dim numpoints cb numCB steps closest rand).1 k)

/-- A sample assignment map: each cell gets its position modulo 256. -/
def sample_cm : Nat → Int := fun k => ((k % 256 : Nat) : Int)

/-- A sample quantizer: whatever it is given, it returns `sample_cb` and `sample_cm`. -/
def sample_q : Elbg :=
  { init_elbg := fun _ _ _ cb _ _ cm r => (cb, cm, r),
    do_elbg := fun _ _ _ _ _ _ _ r => (sample_cb, sample_cm, r) }

/-- A sample frame: 320 bytes a line, byte `i` of the plane holding `i mod 256`. -/
def sample_frame : AVFrame :=
  { data0 := fun i => i, linesize0 := 320, pict_type := 0, key_frame := 0 }

/-- A frame that is black except for the two pixels 8 and 9 of line 0, which hold 200:
the only non-zero sample is the first one of the second cell. -/
def bar_frame : AVFrame :=
  { data0 := fun i => if i = 8 ∨ i = 9 then 200 else 0, linesize0 := 320,
    pict_type := 0, key_frame := 0 }

/-- A sample encoder state with the given lifetime, frame counter and color mode, and
zeroed buffers. -/
def sample_state (lifetime counter : Nat) (five : Bool) : EncState :=
  { c := { picture := sample_frame, randctx := 1, mc_lifetime := lifetime, mc_use_5col := five,
           mc_frame_counter := counter, mc_meta_charset := fun _ => 0, mc_best_cb := fun _ => 0,
           mc_charmap := fun _ => 0, mc_luma_vals := sample_luma },
    lut := zero_tables }

/-- The dither levels of the values from `L j` up to, not including, `L (j + 1)` are the
ramp `floor ((v - L j) * 7 / (L (j + 1) - L j))`. -/
def RampDone (L : Nat → Nat) (j : Nat) (d : Nat → Nat) : Prop :=
  ∀ v, L j ≤ v → v < L (j + 1) → d v = (v - L j) * 7 / (L (j + 1) - L j)

/-- What the table loop has established for `dither` before it handles `a`: the ramps
below every level already passed, and zero from `L 4` on. -/
def DitherInv (L : Nat → Nat) (a : Nat) (d : Nat → Nat) : Prop :=
  (L 1 < a → RampDone L 0 d) ∧ (L 2 < a → RampDone L 1 d) ∧
  (L 3 < a → RampDone L 2 d) ∧ (L 4 < a → RampDone L 3 d) ∧
  (∀ v, L 4 ≤ v → v < a → d v = 0)

/-- The codebook value the character loop leaves in slot `k` of the character stored at
`b`, in terms of the codebook `m` the loop found: clamped from above by `L 3` or from below
by `L 1` when both error sums are positive, as it was otherwise. -/
def settled (L : Nat → Nat) (t : Tables) (m : Nat → Int) (b k : Nat) : Int :=
  if highdiff_of L t m b > 0 ∧ lowdiff_of L t m b > 0 then
    if lowdiff_of L t m b > highdiff_of L t m b then min (L 3 : Int) (m k)
    else max (L 1 : Int) (m k)
  else m k

/-- The sum `highdiff` in the words of the specification, for a vector `w` of 32 values:
the sum of `v - L 3` over the values `v >= L 3`. -/
def high_sum (L : Nat → Nat) (w : Nat → Int) : Int :=
  ∑ k in Finset.range 32, if (L 3 : Int) ≤ w k then w k - (L 3 : Int) else 0

/-- The sum `lowdiff` in the words of the specification, for a vector `w` of 32 values:
the sum of `L 1 - v` over the values `v < L 1`. -/
def low_sum (L : Nat → Nat) (w : Nat → Int) : Int :=
  ∑ k in Finset.range 32, if w k < (L 1 : Int) then (L 1 : Int) - w k else 0

/-- The reference level the renderer selects for a pixel of value `pix` at column `x` of
row `y`: `index2[pix]` when the entry `[dither[pix]][y & 3][x & 3]` of the dither pattern
table is set, `index1[pix]` otherwise.  The pixel gets the 2-bit code `3 - (level & 3)`. -/
def selected_level (pat : Nat → Nat → Nat → Nat) (t : Tables) (y x pix : Nat) : Nat :=
  if pat (t.dither pix) (y &&& 3) (x &&& 3) ≠ 0 then t.index2 pix else t.index1 pix

/-- A quantizer that returns the all-white codebook: every centroid value is 255. -/
def white_q : Elbg :=
  { init_elbg := fun _ _ _ cb _ _ cm r => (cb, cm, r),
    do_elbg := fun _ _ _ _ _ _ _ r => (fun _ => 255, sample_cm, r) }

/-! # Properties -/

/-! ## Loops -/

/-- More fuel than `stop - i` changes nothing: the loop has left by its own test. -/
theorem forLoopAux_fuel {σ : Type} (stop step : Nat) (hstep : 0 < step) (body : Nat → σ → σ) :
    ∀ (fuel i : Nat) (s : σ), stop - i ≤ fuel →
      forLoopAux stop step body fuel i s = forLoopAux stop step body (stop - i) i s := by
  intro fuel
  induction fuel using Nat.strong_induction_on with
  | _ fuel ih =>
    intro i s h
    by_cases hi : i < stop
    · obtain ⟨m, hm⟩ : ∃ m, stop - i = m + 1 := ⟨stop - i - 1, by omega⟩
      obtain ⟨n, hn⟩ : ∃ n, fuel = n + 1 := ⟨fuel - 1, by omega⟩
      subst hn
      rw [hm]
      simp only [forLoopAux, hi, if_true]
      rw [ih n (by omega) (i + step) (body i s) (by omega),
        ih m (by omega) (i + step) (body i s) (by omega)]
    · have h0 : stop - i = 0 := by omega
      rw [h0]
      cases fuel with
      | zero => rfl
      | succ n => simp [forLoopAux, hi]

/-- A loop whose test holds runs its body once and continues from the next index. -/
theorem forLoop_lt {σ : Type} {start stop step : Nat} (hstep : 0 < step) (h : start < stop)
    (body : Nat → σ → σ) (s : σ) :
    forLoop start stop step body s = forLoop (start + step) stop step body (body start s) := by
  unfold forLoop
  obtain ⟨m, hm⟩ : ∃ m, stop - start = m + 1 := ⟨stop - start - 1, by omega⟩
  rw [hm]
  simp only [forLoopAux, h, if_true]
  exact forLoopAux_fuel stop step hstep body m (start + step) (body start s) (by omega)

/-- A loop whose test fails at once leaves the state as it is. -/
theorem forLoop_ge {σ : Type} {start stop : Nat} (step : Nat) (h : stop ≤ start)
    (body : Nat → σ → σ) (s : σ) : forLoop start stop step body s = s := by
  unfold forLoop
  have h0 : stop - start = 0 := by omega
  rw [h0]
  rfl

/-- Invariant rule for a loop that counts up by one. -/
theorem forLoop_inv {σ : Type} (P : Nat → σ → Prop) (stop : Nat) (body : Nat → σ → σ)
    (hbody : ∀ i s, i < stop → P i s → P (i + 1) (body i s)) :
    ∀ (n start : Nat) (s : σ), start + n = stop → P start s →
      P stop (forLoop start stop 1 body s) := by
  intro n
  induction n with
  | zero =>
    intro start s h hP
    rw [forLoop_ge 1 (by omega)]
    have : start = stop := by omega
    exact this ▸ hP
  | succ n ih =>
    intro start s h hP
    rw [forLoop_lt Nat.one_pos (by omega)]
    exact ih (start + 1) (body start s) (by omega) (hbody start s (by omega) hP)

/-- A loop of `n` iterations whose body writes `N` slots writes `n * N` slots, the
`k`-th iteration filling the `k`-th group of `N`. -/
theorem forLoop_writes (step N : Nat) (hstep : 0 < step) (hN : 0 < N)
    (body : Nat → Nat × (Nat → Int) → Nat × (Nat → Int)) (g : Nat → Nat → Option Int) :
    ∀ (n start : Nat),
      (∀ k, k < n → Writes (body (start + k * step)) N (g (start + k * step))) →
      Writes (forLoop start (start + n * step) step body) (n * N)
        (fun r => g (start + (r / N) * step) (r % N)) := by
  intro n
  induction n with
  | zero =>
    intro start _ d m
    rw [forLoop_ge step (by omega)]
    refine Prod.ext (by simp) ?_
    funext i
    have : ¬ (d ≤ i ∧ i < d) := by omega
    simp [this]
  | succ n ih =>
    intro start h d m
    have hmul : (n + 1) * step = n * step + step := Nat.succ_mul n step
    have hmulN : (n + 1) * N = n * N + N := Nat.succ_mul n N
    rw [forLoop_lt hstep (by omega)]
    have h0 := h 0 (Nat.succ_pos n) d m
    simp only [Nat.zero_mul, Nat.add_zero] at h0
    rw [h0]
    have hstop : start + (n + 1) * step = (start + step) + n * step := by omega
    rw [hstop]
    have hrest : ∀ k, k < n →
        Writes (body (start + step + k * step)) N (g (start + step + k * step)) := by
      intro k hk
      have := h (k + 1) (by omega)
      have e : start + (k + 1) * step = start + step + k * step := by
        rw [Nat.succ_mul]; omega
      rw [e] at this
      exact this
    rw [ih (start + step) hrest (d + N)]
    refine Prod.ext (by simp only; omega) ?_
    funext i
    simp only
    by_cases h1 : i < d
    · have a1 : ¬ (d + N ≤ i ∧ i < d + N + n * N) := by omega
      have a2 : ¬ (d ≤ i ∧ i < d + N) := by omega
      have a3 : ¬ (d ≤ i ∧ i < d + (n + 1) * N) := by omega
      simp only [a1, a2, a3, if_false]
    · by_cases h2 : i < d + N
      · have a1 : ¬ (d + N ≤ i ∧ i < d + N + n * N) := by omega
        have a2 : (d ≤ i ∧ i < d + N) := by omega
        have a3 : (d ≤ i ∧ i < d + (n + 1) * N) := by omega
        have e1 : (i - d) / N = 0 := Nat.div_eq_of_lt (by omega)
        have e2 : (i - d) % N = i - d := Nat.mod_eq_of_lt (by omega)
        simp only [a1, a2, a3, if_false, if_true, e1, e2, Nat.zero_mul, Nat.add_zero]
      · by_cases h3 : i < d + (n + 1) * N
        · have a1 : (d + N ≤ i ∧ i < d + N + n * N) := by omega
          have a2 : ¬ (d ≤ i ∧ i < d + N) := by omega
          have a3 : (d ≤ i ∧ i < d + (n + 1) * N) := by omega
          have e0 : i - d = (i - (d + N)) + N := by omega
          have e1 : (i - d) / N = (i - (d + N)) / N + 1 := by
            rw [e0, Nat.add_div_right _ hN]
          have e2 : (i - d) % N = (i - (d + N)) % N := by
            rw [e0, Nat.add_mod_right]
          have e3 : start + ((i - (d + N)) / N + 1) * step
              = start + step + (i - (d + N)) / N * step := by
            rw [Nat.succ_mul]; omega
          rw [if_pos a1, if_neg a2, if_pos a3, e1, e2, e3]
        · have a1 : ¬ (d + N ≤ i ∧ i < d + N + n * N) := by omega
          have a2 : ¬ (d ≤ i ∧ i < d + N) := by omega
          have a3 : ¬ (d ≤ i ∧ i < d + (n + 1) * N) := by omega
          simp only [a1, a2, a3, if_false]

/-! ## The block extractor -/

/-- The innermost statement fills one slot with the sample, or skips it. -/
theorem meta_sample_writes (width : Nat) (p : AVFrame) (y x : Nat) :
    Writes (meta_sample width p y x) 1 (fun _ => sample_value width p y x) := by
  intro d m
  unfold meta_sample sample_value
  by_cases hx : x < width
  · simp only [hx, if_true, Nat.add_zero]
    refine Prod.ext rfl ?_
    funext i
    unfold store
    by_cases hi : i = d
    · subst hi; simp
    · have : ¬ (d ≤ i ∧ i < d + 1) := by omega
      simp [hi, this]
  · simp only [hx, if_false]
    refine Prod.ext rfl ?_
    funext i
    simp

/-- For a frame at least as high as the canvas the loop nest fills 32000 slots, slot
`s` with the sample of cell `s / 32` (row `s / 1280` of the grid, column
`s % 1280 / 32`), line `s % 32 / 4` and column pair `s % 4` of that cell. -/
theorem to_meta_loops_writes (avctx : AVCodecContext) (p : AVFrame)
    (hh : 200 ≤ avctx.height) :
    Writes (to_meta_loops avctx p) 32000 (fun s =>
      sample_value (FFMIN avctx.width C64XRES) p
        (0 + s / 1280 * 8 + s % 1280 % 32 / 4 * 1)
        (0 + s % 1280 / 32 * 8 + s % 1280 % 32 % 4 / 1 * 2)) := by
  have hheight : FFMIN avctx.height C64YRES = 0 + 25 * 8 := by
    unfold FFMIN C64YRES
    split <;> omega
  unfold to_meta_loops
  simp only [hheight]
  have hX : C64XRES = 0 + 40 * 8 := rfl
  refine forLoop_writes 8 1280 (by omega) (by omega) _
    (fun blocky r => sample_value (FFMIN avctx.width C64XRES) p
        (blocky + r % 32 / 4 * 1) (0 + r / 32 * 8 + r % 32 % 4 / 1 * 2)) 25 0 ?_
  intro cy _
  rw [hX]
  refine forLoop_writes 8 32 (by omega) (by omega) _
    (fun blockx r => sample_value (FFMIN avctx.width (0 + 40 * 8)) p
        (0 + cy * 8 + r / 4 * 1) (blockx + r % 4 / 1 * 2)) 40 0 ?_
  intro cx _
  have e1 : min (0 + cy * 8 + 8) (0 + 25 * 8) = (0 + cy * 8) + 8 * 1 := by omega
  rw [e1]
  refine forLoop_writes 1 4 (by omega) (by omega) _
    (fun y r => sample_value (FFMIN avctx.width (0 + 40 * 8)) p y (0 + cx * 8 + r / 1 * 2)) 8 _ ?_
  intro r _
  have e2 : min (0 + cx * 8 + 8) (0 + 40 * 8) = (0 + cx * 8) + 4 * 2 := by omega
  rw [e2]
  exact forLoop_writes 2 1 (by omega) (by omega)
    (meta_sample (FFMIN avctx.width (0 + 40 * 8)) p (0 + cy * 8 + r * 1))
    (fun x _ => sample_value (FFMIN avctx.width (0 + 40 * 8)) p (0 + cy * 8 + r * 1) x) 4
    (0 + cx * 8) (fun k _ => meta_sample_writes _ p _ _)

/-- For a frame 4 lines high the loop nest fills 640 slots only: each of the 40 cells
of the single, partial block row gets 16 consecutive slots (4 lines of 4 samples),
so slot `s` holds the sample of cell `s / 16`, line `s % 16 / 4`. -/
theorem to_meta_loops_writes_four_lines (w : Nat) (p : AVFrame) :
    Writes (to_meta_loops ⟨w, 4⟩ p) 640 (fun s =>
      sample_value (FFMIN w C64XRES) p (0 + s % 16 / 4 * 1) (0 + s / 16 * 8 + s % 16 % 4 / 1 * 2)) := by
  have hheight : FFMIN (4 : Nat) C64YRES = 4 := by decide
  unfold to_meta_loops
  simp only [hheight]
  intro d m
  beta_reduce
  rw [@forLoop_lt _ 0 4 8 (by omega) (by omega), @forLoop_ge _ (0 + 8) 4 8 (by omega)]
  have hX : C64XRES = 0 + 40 * 8 := rfl
  rw [hX]
  refine forLoop_writes 8 16 (by omega) (by omega) _
    (fun blockx r => sample_value (FFMIN w (0 + 40 * 8)) p
        (0 + r / 4 * 1) (blockx + r % 4 / 1 * 2)) 40 0 ?_ d m
  intro cx _
  have e1 : min (0 + 8) 4 = 0 + 4 * 1 := by omega
  rw [e1]
  refine forLoop_writes 1 4 (by omega) (by omega) _
    (fun y r => sample_value (FFMIN w (0 + 40 * 8)) p y (0 + cx * 8 + r / 1 * 2)) 4 _ ?_
  intro r _
  have e2 : min (0 + cx * 8 + 8) (0 + 40 * 8) = (0 + cx * 8) + 4 * 2 := by omega
  rw [e2]
  exact forLoop_writes 2 1 (by omega) (by omega)
    (meta_sample (FFMIN w (0 + 40 * 8)) p (0 + r * 1))
    (fun x _ => sample_value (FFMIN w (0 + 40 * 8)) p (0 + r * 1) x) 4
    (0 + cx * 8) (fun k _ => meta_sample_writes _ p _ _)

/-- On naturals `FFMIN` is the minimum. -/
theorem FFMIN_eq_min (a b : Nat) : FFMIN a b = min a b := by
  unfold FFMIN
  split <;> omega

/-- A pixel read is a byte. -/
theorem px_lt (src : Nat → Nat) (i : Nat) : px src i < 256 := by
  unfold px; omega

/-- On a frame 4 lines high, slot 16 receives the first sample of the second cell and
slot 32 the first sample of the third cell. -/
theorem to_meta_with_crop_four_lines_slots (p : AVFrame) (mem : Nat → Int) (dest : Nat) :
    to_meta_with_crop ⟨320, 4⟩ p mem dest (dest + 16) =
      (((px p.data0 (8 + 0 * p.linesize0) + px p.data0 (8 + 1 + 0 * p.linesize0)) / 2 : Nat) : Int) ∧
    to_meta_with_crop ⟨320, 4⟩ p mem dest (dest + 32) =
      (((px p.data0 (16 + 0 * p.linesize0) + px p.data0 (16 + 1 + 0 * p.linesize0)) / 2 : Nat) : Int) := by
  unfold to_meta_with_crop
  rw [to_meta_loops_writes_four_lines 320 p dest mem]
  have hw : FFMIN 320 C64XRES = 320 := by decide
  constructor
  · have hin : dest ≤ dest + 16 ∧ dest + 16 < dest + 640 := by omega
    have hy : 0 + (dest + 16 - dest) % 16 / 4 * 1 = 0 := by omega
    have hx : 0 + (dest + 16 - dest) / 16 * 8 + (dest + 16 - dest) % 16 % 4 / 1 * 2 = 8 := by omega
    simp only [hin, and_self, if_true, hy, hx, hw]
    simp [sample_value]
  · have hin : dest ≤ dest + 32 ∧ dest + 32 < dest + 640 := by omega
    have hy : 0 + (dest + 32 - dest) % 16 / 4 * 1 = 0 := by omega
    have hx : 0 + (dest + 32 - dest) / 16 * 8 + (dest + 32 - dest) % 16 % 4 / 1 * 2 = 16 := by omega
    simp only [hin, and_self, if_true, hy, hx, hw]
    simp [sample_value]

/-! ## The charset renderer -/

/-- The level after one step of the table loop: it advances when `a` is the next
reference level. -/
theorem table_step_fst (L : Nat → Nat) (a : Nat) (st : Nat × Tables) :
    (table_step L a st).1 = if st.1 < 4 ∧ a = L (st.1 + 1) then st.1 + 1 else st.1 := by
  unfold table_step
  split <;> rfl

/-- One step of the table loop stores the level it has reached in `index1[a]`. -/
theorem table_step_index1 (L : Nat → Nat) (a : Nat) (st : Nat × Tables) :
    (table_step L a st).2.index1 = store st.2.index1 a ((table_step L a st).1 % 256) := by
  unfold table_step
  simp only
  split <;> split <;> rfl

/-- One step of the table loop stores `FFMIN(i + 1, 4)` in `index2[a]`. -/
theorem table_step_index2 (L : Nat → Nat) (a : Nat) (st : Nat × Tables) :
    (table_step L a st).2.index2 =
      store st.2.index2 a (FFMIN ((table_step L a st).1 + 1) 4 % 256) := by
  unfold table_step
  simp only
  split <;> split <;> rfl

/-- Advancing the level at `a` turns the number of levels below `a` into the number of
levels at most `a`. -/
theorem level_step (L : Nat → Nat) (hL : Ascending L) (a : Nat) :
    (if level_below L a < 4 ∧ a = L (level_below L a + 1) then level_below L a + 1
      else level_below L a) = level_of L a := by
  obtain ⟨h12, h23, h34⟩ := hL
  have hb : (level_below L a = 0 ∧ a ≤ L 1) ∨ (level_below L a = 1 ∧ L 1 < a ∧ a ≤ L 2) ∨
      (level_below L a = 2 ∧ L 2 < a ∧ a ≤ L 3) ∨ (level_below L a = 3 ∧ L 3 < a ∧ a ≤ L 4) ∨
      (level_below L a = 4 ∧ L 4 < a) := by
    unfold level_below
    split_ifs <;> omega
  have ho : (level_of L a = 0 ∧ a < L 1) ∨ (level_of L a = 1 ∧ L 1 ≤ a ∧ a < L 2) ∨
      (level_of L a = 2 ∧ L 2 ≤ a ∧ a < L 3) ∨ (level_of L a = 3 ∧ L 3 ≤ a ∧ a < L 4) ∨
      (level_of L a = 4 ∧ L 4 ≤ a) := by
    unfold level_of
    split_ifs <;> omega
  rcases hb with ⟨e, h⟩ | ⟨e, h⟩ | ⟨e, h⟩ | ⟨e, h⟩ | ⟨e, h⟩ <;> rw [e] <;>
    simp only [Nat.reduceAdd] <;> split_ifs with c <;> omega

/-- The levels below `a + 1` are the levels at most `a`. -/
theorem level_below_succ (L : Nat → Nat) (a : Nat) : level_below L (a + 1) = level_of L a := by
  unfold level_below level_of
  simp only [Nat.succ_le_iff, Nat.add_one_le_iff]

/-- A level is at most 4. -/
theorem level_of_le (L : Nat → Nat) (a : Nat) : level_of L a ≤ 4 := by
  unfold level_of
  split_ifs <;> omega

/-- For ascending levels the index tables hold, for every byte `a`, the level `a` has
reached and its successor capped at 4. -/
theorem build_tables_index (L : Nat → Nat) (hL : Ascending L) (t0 : Tables) (a : Nat)
    (ha : a < 256) :
    (build_tables L t0).index1 a = level_of L a ∧
    (build_tables L t0).index2 a = min (level_of L a + 1) 4 := by
  have key := forLoop_inv
    (fun a (st : Nat × Tables) => st.1 = level_below L a ∧
      ∀ a', a' < a → st.2.index1 a' = level_of L a' ∧ st.2.index2 a' = min (level_of L a' + 1) 4)
    256 (table_step L) ?_ 256 0 (0, t0) (Nat.zero_add 256) ?_
  · unfold build_tables
    exact key.2 a ha
  · intro i st _ ⟨h1, h2⟩
    have hfst : (table_step L i st).1 = level_of L i := by
      rw [table_step_fst, h1]
      exact level_step L hL i
    refine ⟨by rw [hfst, level_below_succ], ?_⟩
    intro a' ha'
    rw [table_step_index1, table_step_index2, hfst]
    unfold store
    by_cases e : a' = i
    · subst e
      have := level_of_le L a'
      simp only [if_true]
      unfold FFMIN
      constructor
      · omega
      · split <;> omega
    · simp only [e, if_false]
      exact h2 a' (by omega)
  · refine ⟨?_, fun a' h => absurd h (Nat.not_lt_zero _)⟩
    simp [level_below]

/-- Masking with 3 is the remainder modulo 4. -/
theorem land_three (n : Nat) : n &&& 3 = n % 4 := by
  have := Nat.and_pow_two_sub_one_eq_mod n 2
  simpa using this

/-- A pixel code fits in two bits. -/
theorem pixel_code_le (pat : Nat → Nat → Nat → Nat) (t : Tables) (y x pix : Nat) :
    pixel_code pat t y x pix ≤ 3 := by
  unfold pixel_code
  split <;> omega

/-- The body of the `x` loop: both sums grow by the term of the pixel, and the pixel
code is shifted into `row1`. -/
theorem render_pixel_eq (pat : Nat → Nat → Nat → Nat) (L : Nat → Nat) (t : Tables)
    (mem_cb : Nat → Int) (b y x : Nat) (st : Int × Int × Nat) :
    render_pixel pat L t mem_cb b y x st =
      (st.1 + low_term L t (cb_pix mem_cb (b + (y * 4 + x))),
       st.2.1 + high_term L t (cb_pix mem_cb (b + (y * 4 + x))),
       ((st.2.2 <<< 2) % 256 ||| pixel_code pat t y x (cb_pix mem_cb (b + (y * 4 + x)))) % 256) := by
  unfold render_pixel low_term high_term pixel_code cb_pix
  simp only [land_three]
  refine Prod.ext ?_ (Prod.ext ?_ ?_)
  · simp only; split <;> simp
  · simp only; split <;> simp
  · simp only; split <;> rfl

/-- A loop of four iterations, unrolled. -/
theorem forLoop_four {σ : Type} (f : Nat → σ → σ) (s : σ) :
    forLoop 0 4 1 f s = f 3 (f 2 (f 1 (f 0 s))) := by
  rw [@forLoop_lt _ 0 4 1 (by omega) (by omega), @forLoop_lt _ (0 + 1) 4 1 (by omega) (by omega),
    @forLoop_lt _ (0 + 1 + 1) 4 1 (by omega) (by omega),
    @forLoop_lt _ (0 + 1 + 1 + 1) 4 1 (by omega) (by omega),
    @forLoop_ge _ (0 + 1 + 1 + 1 + 1) 4 1 (by omega)]

/-- Shifting four 2-bit codes into a byte packs them MSB-first. -/
theorem pack_four : ∀ c0, c0 < 4 → ∀ c1, c1 < 4 → ∀ c2, c2 < 4 → ∀ c3, c3 < 4 →
    ((((((((((((((((0 <<< 2) % 256) ||| c0) % 256) <<< 2) % 256) ||| c1) % 256) <<< 2) % 256) ||| c2) % 256) <<< 2) % 256) ||| c3) % 256) =
      c0 * 64 + c1 * 16 + c2 * 4 + c3 := by
  decide

/-- The body of the `y` loop: the sums grow by the terms of the four pixels of the row
and `charset[y]` receives the packed row. -/
theorem render_row_eq (pat : Nat → Nat → Nat → Nat) (L : Nat → Nat) (t : Tables)
    (mem_cb : Nat → Int) (b cs y : Nat) (st : Int × Int × (Nat → Nat)) :
    render_row pat L t mem_cb b cs y st =
      (st.1 + (low_term L t (cb_pix mem_cb (b + (4 * y + 0))) +
               low_term L t (cb_pix mem_cb (b + (4 * y + 1))) +
               low_term L t (cb_pix mem_cb (b + (4 * y + 2))) +
               low_term L t (cb_pix mem_cb (b + (4 * y + 3)))),
       st.2.1 + (high_term L t (cb_pix mem_cb (b + (4 * y + 0))) +
               high_term L t (cb_pix mem_cb (b + (4 * y + 1))) +
               high_term L t (cb_pix mem_cb (b + (4 * y + 2))) +
               high_term L t (cb_pix mem_cb (b + (4 * y + 3)))),
       store st.2.2 (cs + y) (row_byte pat t mem_cb b y)) := by
  unfold render_row
  rw [forLoop_four]
  simp only [render_pixel_eq, Nat.mul_comm y 4, Nat.add_zero]
  refine Prod.ext ?_ (Prod.ext ?_ ?_)
  · simp only; ring
  · simp only; ring
  · simp only
    unfold row_byte
    rw [pack_four _ (Nat.lt_succ_of_le (pixel_code_le _ _ _ _ _)) _
      (Nat.lt_succ_of_le (pixel_code_le _ _ _ _ _)) _
      (Nat.lt_succ_of_le (pixel_code_le _ _ _ _ _)) _
      (Nat.lt_succ_of_le (pixel_code_le _ _ _ _ _))]
    simp only [Nat.add_zero]

/-- One pass over a character computes the sums over its 32 pixels and writes its
eight rows. -/
theorem char_pass_eq (pat : Nat → Nat → Nat → Nat) (L : Nat → Nat) (t : Tables)
    (mem_cb : Nat → Int) (b : Nat) (m0 : Nat → Nat) (cs : Nat) :
    char_pass pat L t mem_cb b m0 cs =
      (lowdiff_of L t mem_cb b, highdiff_of L t mem_cb b,
       fun j => if cs ≤ j ∧ j < cs + 8 then row_byte pat t mem_cb b (j - cs) else m0 j) := by
  have key := forLoop_inv
    (fun y (st : Int × Int × (Nat → Nat)) =>
      st.1 = ∑ k in Finset.range (4 * y), low_term L t (cb_pix mem_cb (b + k)) ∧
      st.2.1 = ∑ k in Finset.range (4 * y), high_term L t (cb_pix mem_cb (b + k)) ∧
      st.2.2 = fun j => if cs ≤ j ∧ j < cs + y then row_byte pat t mem_cb b (j - cs) else m0 j)
    8 (render_row pat L t mem_cb b cs) ?_ 8 0 (0, 0, m0) (Nat.zero_add 8) ?_
  · unfold char_pass lowdiff_of highdiff_of
    exact Prod.ext key.1 (Prod.ext key.2.1 key.2.2)
  · intro y st _ ⟨h1, h2, h3⟩
    rw [render_row_eq]
    have e4 : 4 * (y + 1) = 4 * y + 1 + 1 + 1 + 1 := by ring
    refine ⟨?_, ?_, ?_⟩
    · simp only [e4, Finset.sum_range_succ, h1, Nat.add_zero]
      have a1 : 4 * y + 1 + 1 = 4 * y + 2 := rfl
      have a2 : 4 * y + 1 + 1 + 1 = 4 * y + 3 := rfl
      rw [a1, a2]
      ring
    · simp only [e4, Finset.sum_range_succ, h2, Nat.add_zero]
      have a1 : 4 * y + 1 + 1 = 4 * y + 2 := rfl
      have a2 : 4 * y + 1 + 1 + 1 = 4 * y + 3 := rfl
      rw [a1, a2]
      ring
    · simp only [h3]
      funext j
      unfold store
      by_cases e : j = cs + y
      · subst e
        have : cs ≤ cs + y ∧ cs + y < cs + (y + 1) := by omega
        simp [this]
      · by_cases c : cs ≤ j ∧ j < cs + y
        · have : cs ≤ j ∧ j < cs + (y + 1) := by omega
          simp [e, c, this]
        · have : ¬ (cs ≤ j ∧ j < cs + (y + 1)) := by omega
          simp [e, c, this]
  · refine ⟨by simp, by simp, ?_⟩
    funext j
    have : ¬ (cs ≤ j ∧ j < cs) := by omega
    simp [this]

/-- The first adjustment loop caps the 32 values of the character at `L 3`. -/
theorem clamp_high_eq (L : Nat → Nat) (b : Nat) (m : Nat → Int) :
    clamp_high L b m =
      fun k => if b ≤ k ∧ k < b + 32 then FFMIN (L 3 : Int) (m k) else m k := by
  have key := forLoop_inv
    (fun x (m' : Nat → Int) =>
      m' = fun k => if b ≤ k ∧ k < b + x then FFMIN (L 3 : Int) (m k) else m k)
    32 (fun x m => store m (b + x) (FFMIN (L 3 : Int) (m (b + x)))) ?_ 32 0 m
    (Nat.zero_add 32) ?_
  · unfold clamp_high
    exact key
  · intro x m' _ h
    simp only [h]
    funext k
    unfold store
    by_cases e : k = b + x
    · subst e
      have c1 : b ≤ b + x ∧ b + x < b + (x + 1) := by omega
      have c2 : ¬ (b ≤ b + x ∧ b + x < b + x) := by omega
      simp [c1, c2]
    · by_cases c : b ≤ k ∧ k < b + x
      · have : b ≤ k ∧ k < b + (x + 1) := by omega
        simp [e, c, this]
      · have : ¬ (b ≤ k ∧ k < b + (x + 1)) := by omega
        simp [e, c, this]
  · funext k
    have : ¬ (b ≤ k ∧ k < b) := by omega
    simp [this]

/-- The second adjustment loop raises the 32 values of the character to at least `L
1`. -/
theorem clamp_low_eq (L : Nat → Nat) (b : Nat) (m : Nat → Int) :
    clamp_low L b m =
      fun k => if b ≤ k ∧ k < b + 32 then FFMAX (L 1 : Int) (m k) else m k := by
  have key := forLoop_inv
    (fun x (m' : Nat → Int) =>
      m' = fun k => if b ≤ k ∧ k < b + x then FFMAX (L 1 : Int) (m k) else m k)
    32 (fun x m => store m (b + x) (FFMAX (L 1 : Int) (m (b + x)))) ?_ 32 0 m
    (Nat.zero_add 32) ?_
  · unfold clamp_low
    exact key
  · intro x m' _ h
    simp only [h]
    funext k
    unfold store
    by_cases e : k = b + x
    · subst e
      have c1 : b ≤ b + x ∧ b + x < b + (x + 1) := by omega
      have c2 : ¬ (b ≤ b + x ∧ b + x < b + x) := by omega
      simp [c1, c2]
    · by_cases c : b ≤ k ∧ k < b + x
      · have : b ≤ k ∧ k < b + (x + 1) := by omega
        simp [e, c, this]
      · have : ¬ (b ≤ k ∧ k < b + (x + 1)) := by omega
        simp [e, c, this]
  · funext k
    have : ¬ (b ≤ k ∧ k < b) := by omega
    simp [this]

/-- The sum `highdiff` depends on the 32 values of the character only. -/
theorem highdiff_of_congr (L : Nat → Nat) (t : Tables) (m m' : Nat → Int) (b : Nat)
    (h : ∀ k, b ≤ k → k < b + 32 → m' k = m k) :
    highdiff_of L t m' b = highdiff_of L t m b := by
  unfold highdiff_of
  refine Finset.sum_congr rfl (fun k hk => ?_)
  have hk' := Finset.mem_range.mp hk
  unfold cb_pix
  rw [h (b + k) (by omega) (by omega)]

/-- The sum `lowdiff` depends on the 32 values of the character only. -/
theorem lowdiff_of_congr (L : Nat → Nat) (t : Tables) (m m' : Nat → Int) (b : Nat)
    (h : ∀ k, b ≤ k → k < b + 32 → m' k = m k) :
    lowdiff_of L t m' b = lowdiff_of L t m b := by
  unfold lowdiff_of
  refine Finset.sum_congr rfl (fun k hk => ?_)
  have hk' := Finset.mem_range.mp hk
  unfold cb_pix
  rw [h (b + k) (by omega) (by omega)]

/-- A packed row depends on the 32 values of the character only. -/
theorem row_byte_congr (pat : Nat → Nat → Nat → Nat) (t : Tables) (m m' : Nat → Int)
    (b y : Nat) (hy : y < 8) (h : ∀ k, b ≤ k → k < b + 32 → m' k = m k) :
    row_byte pat t m' b y = row_byte pat t m b y := by
  unfold row_byte cb_pix
  rw [h (b + (4 * y + 0)) (by omega) (by omega), h (b + (4 * y + 1)) (by omega) (by omega),
    h (b + (4 * y + 2)) (by omega) (by omega), h (b + (4 * y + 3)) (by omega) (by omega)]

/-- A loop that is entered with `charpos` at the end establishes the postcondition
trivially. -/
theorem charLoopPost_done (pat : Nat → Nat → Nat → Nat) (L : Nat → Nat) (t : Tables)
    (charpos : Nat) (s : RenderState) (h : ¬ charpos < 256) :
    CharLoopPost pat L t charpos s s :=
  ⟨fun d hd => absurd (show charpos < 256 by omega) h, fun _ _ => rfl, fun _ _ => rfl,
    fun _ _ => rfl⟩

/-- The color selector is a byte. -/
theorem colram_value_mod (h : Int) : colram_value h % 256 = colram_value h := by
  unfold colram_value
  split <;> rfl

/-- One pass of the character loop, with the pass in closed form: either the character
is adjusted and passed over again, or the loop moves on. -/
theorem char_loop_succ (pat : Nat → Nat → Nat → Nat) (L : Nat → Nat) (t : Tables)
    (fuel charpos : Nat) (s : RenderState) (h : charpos < 256) :
    char_loop pat L t (fuel + 1) charpos s =
      if highdiff_of L t s.mem_cb s.best_cb > 0 ∧ lowdiff_of L t s.mem_cb s.best_cb > 0 then
        char_loop pat L t fuel charpos
          { s with
            mem_cb := if lowdiff_of L t s.mem_cb s.best_cb > highdiff_of L t s.mem_cb s.best_cb
                      then clamp_high L s.best_cb s.mem_cb else clamp_low L s.best_cb s.mem_cb,
            mem_cs := fun j => if s.charset ≤ j ∧ j < s.charset + 8 then
                        row_byte pat t s.mem_cb s.best_cb (j - s.charset) else s.mem_cs j,
            passes := charpos :: s.passes }
      else
        char_loop pat L t fuel (charpos + 1)
          { s with
            best_cb := s.best_cb + 32, charset := s.charset + 8,
            mem_cs := fun j => if s.charset ≤ j ∧ j < s.charset + 8 then
                        row_byte pat t s.mem_cb s.best_cb (j - s.charset) else s.mem_cs j,
            colrammap := store s.colrammap charpos
              (colram_value (highdiff_of L t s.mem_cb s.best_cb)),
            passes := charpos :: s.passes } := by
  have h' : charpos < CHARSET_CHARS := h
  rw [char_loop]
  simp only [h', if_true, char_pass_eq]
  split
  · rfl
  · rw [← colram_value_mod]
    rfl

/-- Without fuel the loop returns only if it is at its end. -/
theorem char_loop_zero (pat : Nat → Nat → Nat → Nat) (L : Nat → Nat) (t : Tables)
    (charpos : Nat) (s : RenderState) :
    char_loop pat L t 0 charpos s = if charpos < 256 then none else some s := by
  rw [char_loop]; rfl

/-- At its end the loop returns the state as it is. -/
theorem char_loop_done (pat : Nat → Nat → Nat → Nat) (L : Nat → Nat) (t : Tables)
    (fuel charpos : Nat) (s : RenderState) (h : ¬ charpos < 256) :
    char_loop pat L t fuel charpos s = some s := by
  have h' : ¬ charpos < CHARSET_CHARS := h
  cases fuel with
  | zero => rw [char_loop]; simp only [h', if_false]
  | succ n => rw [char_loop]; simp only [h', if_false]

/-- Partial correctness of the character loop: however many passes it took, on exit
every character from `charpos` on is settled. -/
theorem char_loop_post (pat : Nat → Nat → Nat → Nat) (L : Nat → Nat) (t : Tables) :
    ∀ (fuel charpos : Nat) (s r : RenderState),
      char_loop pat L t fuel charpos s = some r → CharLoopPost pat L t charpos s r := by
  intro fuel
  induction fuel with
  | zero =>
    intro charpos s r h
    rw [char_loop_zero] at h
    by_cases hc : charpos < 256
    · simp [hc] at h
    · simp only [hc, if_false, Option.some.injEq] at h
      subst h
      exact charLoopPost_done pat L t charpos s hc
  | succ n ih =>
    intro charpos s r h
    by_cases hc : charpos < 256
    · rw [char_loop_succ pat L t n charpos s hc] at h
      by_cases adj : highdiff_of L t s.mem_cb s.best_cb > 0 ∧ lowdiff_of L t s.mem_cb s.best_cb > 0
      · rw [if_pos adj] at h
        obtain ⟨h1, h2, h3, h4⟩ := ih charpos _ r h
        simp only at h1 h2 h3 h4
        refine ⟨h1, ?_, ?_, h4⟩
        · intro j hj
          rw [h2 j hj]
          have : ¬ (s.charset ≤ j ∧ j < s.charset + 8) := by omega
          simp only [this, if_false]
        · intro k hk
          rw [h3 k hk]
          have : ¬ (s.best_cb ≤ k ∧ k < s.best_cb + 32) := by omega
          split
          · rw [clamp_high_eq]; simp only [this, if_false]
          · rw [clamp_low_eq]; simp only [this, if_false]
      · rw [if_neg adj] at h
        obtain ⟨h1, h2, h3, h4⟩ := ih (charpos + 1) _ r h
        simp only at h1 h2 h3 h4
        have hcb : ∀ k, s.best_cb ≤ k → k < s.best_cb + 32 → r.mem_cb k = s.mem_cb k :=
          fun k _ hk => h3 k (Or.inl hk)
        refine ⟨?_, ?_, ?_, ?_⟩
        · intro d hd
          cases d with
          | zero =>
            simp only [Nat.mul_zero, Nat.add_zero]
            rw [highdiff_of_congr L t s.mem_cb r.mem_cb s.best_cb hcb,
              lowdiff_of_congr L t s.mem_cb r.mem_cb s.best_cb hcb]
            refine ⟨adj, ?_, ?_⟩
            · intro y hy
              rw [h2 (s.charset + y) (Or.inl (by omega)),
                row_byte_congr pat t s.mem_cb r.mem_cb s.best_cb y hy hcb]
              have : s.charset ≤ s.charset + y ∧ s.charset + y < s.charset + 8 := by omega
              simp only [this, and_self, if_true, Nat.add_sub_cancel_left]
            · rw [h4 charpos (Or.inl (by omega))]
              simp [store]
          | succ d =>
            have e1 : s.best_cb + 32 * (d + 1) = s.best_cb + 32 + 32 * d := by omega
            have e2 : s.charset + 8 * (d + 1) = s.charset + 8 + 8 * d := by omega
            have e3 : charpos + (d + 1) = charpos + 1 + d := by omega
            rw [e1, e2, e3]
            exact h1 d (by omega)
        · intro j hj
          rw [h2 j (by omega)]
          have : ¬ (s.charset ≤ j ∧ j < s.charset + 8) := by omega
          simp only [this, if_false]
        · intro k hk
          exact h3 k (by omega)
        · intro c hc'
          rw [h4 c (by omega)]
          have : c ≠ charpos := by omega
          simp [store, this]
    · rw [char_loop_done pat L t (n + 1) charpos s hc] at h
      simp only [Option.some.injEq] at h
      subst h
      exact charLoopPost_done pat L t charpos s hc

/-- For ascending levels the index table built by `render_charset` classifies pixels
as the error sums need. -/
theorem build_tables_ok (L : Nat → Nat) (hL : Ascending L) (t0 : Tables) :
    TableOK L (build_tables L t0) := by
  intro pix hpix
  obtain ⟨h12, h23, h34⟩ := hL
  rw [(build_tables_index L ⟨h12, h23, h34⟩ t0 pix hpix).1]
  unfold level_of
  constructor <;> split_ifs <;> omega

/-- A codebook read is a byte. -/
theorem cb_pix_lt (m : Nat → Int) (k : Nat) : cb_pix m k < 256 := by
  unfold cb_pix
  omega

/-- A sample-valued codebook entry is read unchanged. -/
theorem cb_pix_of_inRange (m : Nat → Int) (k : Nat) (h : InRange (m k)) :
    (cb_pix m k : Int) = m k := by
  unfold cb_pix
  obtain ⟨h0, h1⟩ := h
  omega

/-- No pixel lowers `highdiff`. -/
theorem high_term_nonneg (L : Nat → Nat) (t : Tables) (hT : TableOK L t) (pix : Nat)
    (hp : pix < 256) : 0 ≤ high_term L t pix := by
  unfold high_term
  split
  · rename_i h
    have := (hT pix hp).1.mp h
    omega
  · exact le_refl 0

/-- No pixel lowers `lowdiff`. -/
theorem low_term_nonneg (L : Nat → Nat) (t : Tables) (hT : TableOK L t) (pix : Nat)
    (hp : pix < 256) : 0 ≤ low_term L t pix := by
  unfold low_term
  split
  · rename_i h
    have := (hT pix hp).2.mp h
    omega
  · exact le_refl 0

/-- A pixel raises `highdiff` exactly when it is above `L 3`. -/
theorem high_term_pos_iff (L : Nat → Nat) (t : Tables) (hT : TableOK L t) (pix : Nat)
    (hp : pix < 256) : 0 < high_term L t pix ↔ L 3 < pix := by
  unfold high_term
  have := (hT pix hp).1
  split
  · rename_i h
    have := this.mp h
    omega
  · rename_i h
    have : ¬ L 3 ≤ pix := fun c => h (this.mpr c)
    constructor
    · intro c; exact absurd c (lt_irrefl 0)
    · intro c; omega

/-- A pixel raises `lowdiff` exactly when it is below `L 1`. -/
theorem low_term_pos_iff (L : Nat → Nat) (t : Tables) (hT : TableOK L t) (pix : Nat)
    (hp : pix < 256) : 0 < low_term L t pix ↔ pix < L 1 := by
  unfold low_term
  have := (hT pix hp).2
  split
  · rename_i h
    have := this.mp h
    omega
  · rename_i h
    have : ¬ pix < L 1 := fun c => h (this.mpr c)
    constructor
    · intro c; exact absurd c (lt_irrefl 0)
    · intro c; omega

/-- A sum of non-negative integers is positive exactly when one of them is. -/
theorem sum_range_pos_iff (n : Nat) (f : Nat → Int) (hf : ∀ k, k < n → 0 ≤ f k) :
    0 < ∑ k in Finset.range n, f k ↔ ∃ k, k < n ∧ 0 < f k := by
  constructor
  · intro h
    by_contra hne
    have hz : ∀ k ∈ Finset.range n, f k = 0 := by
      intro k hk
      have hk' := Finset.mem_range.mp hk
      have h1 := hf k hk'
      have h2 : ¬ 0 < f k := fun c => hne ⟨k, hk', c⟩
      omega
    rw [Finset.sum_eq_zero hz] at h
    exact lt_irrefl 0 h
  · rintro ⟨k, hk, h⟩
    exact Finset.sum_pos' (fun i hi => hf i (Finset.mem_range.mp hi))
      ⟨k, Finset.mem_range.mpr hk, h⟩

/-- The sum `highdiff` is positive exactly when some pixel of the character is above
`L 3`. -/
theorem highdiff_pos_iff (L : Nat → Nat) (t : Tables) (hT : TableOK L t) (m : Nat → Int)
    (b : Nat) : 0 < highdiff_of L t m b ↔ ∃ k, k < 32 ∧ L 3 < cb_pix m (b + k) := by
  unfold highdiff_of
  rw [sum_range_pos_iff 32 _
    (fun k _ => high_term_nonneg L t hT _ (cb_pix_lt m (b + k)))]
  constructor
  · rintro ⟨k, hk, h⟩
    exact ⟨k, hk, (high_term_pos_iff L t hT _ (cb_pix_lt m (b + k))).mp h⟩
  · rintro ⟨k, hk, h⟩
    exact ⟨k, hk, (high_term_pos_iff L t hT _ (cb_pix_lt m (b + k))).mpr h⟩

/-- The sum `lowdiff` is positive exactly when some pixel of the character is below `L
1`. -/
theorem lowdiff_pos_iff (L : Nat → Nat) (t : Tables) (hT : TableOK L t) (m : Nat → Int)
    (b : Nat) : 0 < lowdiff_of L t m b ↔ ∃ k, k < 32 ∧ cb_pix m (b + k) < L 1 := by
  unfold lowdiff_of
  rw [sum_range_pos_iff 32 _
    (fun k _ => low_term_nonneg L t hT _ (cb_pix_lt m (b + k)))]
  constructor
  · rintro ⟨k, hk, h⟩
    exact ⟨k, hk, (low_term_pos_iff L t hT _ (cb_pix_lt m (b + k))).mp h⟩
  · rintro ⟨k, hk, h⟩
    exact ⟨k, hk, (low_term_pos_iff L t hT _ (cb_pix_lt m (b + k))).mpr h⟩

/-- On integers `FFMIN` is the minimum. -/
theorem FFMIN_int (a b : Int) : FFMIN a b = min a b := by
  unfold FFMIN
  split <;> omega

/-- On integers `FFMAX` is the maximum. -/
theorem FFMAX_int (a b : Int) : FFMAX a b = max a b := by
  unfold FFMAX
  split <;> omega

/-- Capping at `L 3` keeps a sample value a sample value. -/
theorem clamp_high_inRange (L : Nat → Nat) (b : Nat) (m : Nat → Int) (k : Nat)
    (h : InRange (m k)) : InRange (clamp_high L b m k) := by
  rw [clamp_high_eq]
  obtain ⟨h0, h1⟩ := h
  unfold InRange
  simp only
  split
  · rw [FFMIN_int]; omega
  · exact ⟨h0, h1⟩

/-- Raising to `L 1` keeps a sample value a sample value. -/
theorem clamp_low_inRange (L : Nat → Nat) (hL1 : L 1 ≤ 255) (b : Nat) (m : Nat → Int) (k : Nat)
    (h : InRange (m k)) : InRange (clamp_low L b m k) := by
  rw [clamp_low_eq]
  obtain ⟨h0, h1⟩ := h
  unfold InRange
  simp only
  split
  · rw [FFMAX_int]; omega
  · exact ⟨h0, h1⟩

/-- After capping at `L 3` the character has no `highdiff`. -/
theorem highdiff_clamp_high (L : Nat → Nat) (t : Tables) (hT : TableOK L t) (b : Nat)
    (m : Nat → Int) (hm : ∀ k, b ≤ k → k < b + 32 → InRange (m k)) :
    ¬ 0 < highdiff_of L t (clamp_high L b m) b := by
  rw [highdiff_pos_iff L t hT]
  rintro ⟨k, hk, h⟩
  have hr := clamp_high_inRange L b m (b + k) (hm (b + k) (by omega) (by omega))
  have hp := cb_pix_of_inRange _ _ hr
  have hin : b ≤ b + k ∧ b + k < b + 32 := by omega
  have hv : clamp_high L b m (b + k) = min (L 3 : Int) (m (b + k)) := by
    rw [clamp_high_eq]
    simp only [hin, and_self, if_true, FFMIN_int]
  rw [hv] at hp
  have := min_le_left (L 3 : Int) (m (b + k))
  omega

/-- After raising to `L 1` the character has no `lowdiff`. -/
theorem lowdiff_clamp_low (L : Nat → Nat) (t : Tables) (hT : TableOK L t) (hL1 : L 1 ≤ 255)
    (b : Nat) (m : Nat → Int) (hm : ∀ k, b ≤ k → k < b + 32 → InRange (m k)) :
    ¬ 0 < lowdiff_of L t (clamp_low L b m) b := by
  rw [lowdiff_pos_iff L t hT]
  rintro ⟨k, hk, h⟩
  have hr := clamp_low_inRange L hL1 b m (b + k) (hm (b + k) (by omega) (by omega))
  have hp := cb_pix_of_inRange _ _ hr
  have hin : b ≤ b + k ∧ b + k < b + 32 := by omega
  have hv : clamp_low L b m (b + k) = max (L 1 : Int) (m (b + k)) := by
    rw [clamp_low_eq]
    simp only [hin, and_self, if_true, FFMAX_int]
  rw [hv] at hp
  have := le_max_left (L 1 : Int) (m (b + k))
  omega

/-- Total correctness of the character loop on sample-valued codebooks: two passes
per remaining character are enough, no character is passed over more than twice, and
the codebook stays sample-valued. -/
theorem char_loop_total (pat : Nat → Nat → Nat → Nat) (L : Nat → Nat) (t : Tables)
    (hT : TableOK L t) (hL1 : L 1 ≤ 255) :
    ∀ (n charpos fuel : Nat) (s : RenderState), charpos + n = 256 → 2 * n ≤ fuel →
      (∀ k, s.best_cb ≤ k → k < s.best_cb + 32 * n → InRange (s.mem_cb k)) →
      ∃ r extra, char_loop pat L t fuel charpos s = some r ∧
        r.passes = extra ++ s.passes ∧ extra.length ≤ 2 * n ∧
        (∀ c, extra.count c ≤ 2) ∧ (∀ c, c ∈ extra → charpos ≤ c) ∧
        (∀ k, s.best_cb ≤ k → k < s.best_cb + 32 * n → InRange (r.mem_cb k)) := by
  intro n
  induction n with
  | zero =>
    intro charpos fuel s hc _ _
    refine ⟨s, [], char_loop_done pat L t fuel charpos s (by omega), rfl, by simp, by simp,
      by simp, ?_⟩
    intro k h1 h2
    omega
  | succ n ih =>
    intro charpos fuel s hc hfuel hrange
    have hlt : charpos < 256 := by omega
    obtain ⟨f, rfl⟩ : ∃ f, fuel = f + 2 := ⟨fuel - 2, by omega⟩
    -- the state in which the loop moves on to the next character, and how it got there
    have hstep : ∃ s2 pre, char_loop pat L t (f + 2) charpos s
          = char_loop pat L t (f + 2 - pre.length) (charpos + 1) s2 ∧
        (pre = [charpos] ∨ pre = [charpos, charpos]) ∧
        s2.passes = pre ++ s.passes ∧ s2.best_cb = s.best_cb + 32 ∧
        (∀ k, s.best_cb ≤ k → k < s.best_cb + 32 * (n + 1) → InRange (s2.mem_cb k)) := by
      by_cases adj : highdiff_of L t s.mem_cb s.best_cb > 0 ∧ lowdiff_of L t s.mem_cb s.best_cb > 0
      · rw [char_loop_succ pat L t (f + 1) charpos s hlt, if_pos adj]
        -- the adjusted codebook is sample-valued and needs no second adjustment
        have hr1 : ∀ k, s.best_cb ≤ k → k < s.best_cb + 32 * (n + 1) →
            InRange ((if lowdiff_of L t s.mem_cb s.best_cb > highdiff_of L t s.mem_cb s.best_cb
              then clamp_high L s.best_cb s.mem_cb else clamp_low L s.best_cb s.mem_cb) k) := by
          intro k h1 h2
          split
          · exact clamp_high_inRange L _ _ _ (hrange k h1 h2)
          · exact clamp_low_inRange L hL1 _ _ _ (hrange k h1 h2)
        have hr0 : ∀ k, s.best_cb ≤ k → k < s.best_cb + 32 → InRange (s.mem_cb k) :=
          fun k h1 h2 => hrange k h1 (by omega)
        have nadj : ¬ (highdiff_of L t (if lowdiff_of L t s.mem_cb s.best_cb >
              highdiff_of L t s.mem_cb s.best_cb
              then clamp_high L s.best_cb s.mem_cb else clamp_low L s.best_cb s.mem_cb)
              s.best_cb > 0 ∧
            lowdiff_of L t (if lowdiff_of L t s.mem_cb s.best_cb >
              highdiff_of L t s.mem_cb s.best_cb
              then clamp_high L s.best_cb s.mem_cb else clamp_low L s.best_cb s.mem_cb)
              s.best_cb > 0) := by
          split
          · exact fun c => highdiff_clamp_high L t hT _ _ hr0 c.1
          · exact fun c => lowdiff_clamp_low L t hT hL1 _ _ hr0 c.2
        rw [char_loop_succ pat L t f charpos _ hlt, if_neg nadj]
        exact ⟨_, [charpos, charpos], rfl, Or.inr rfl, rfl, rfl, hr1⟩
      · rw [char_loop_succ pat L t (f + 1) charpos s hlt, if_neg adj]
        exact ⟨_, [charpos], rfl, Or.inl rfl, rfl, rfl, hrange⟩
    obtain ⟨s2, pre, hrun, hpre, hpasses, hb, hr2⟩ := hstep
    have hlen : pre.length ≤ 2 := by rcases hpre with h | h <;> simp [h]
    obtain ⟨r, extra, hr, hp, hl, hcnt, hmem, hrr⟩ :=
      ih (charpos + 1) (f + 2 - pre.length) s2 (by omega) (by omega)
        (fun k h1 h2 => hr2 k (by omega) (by omega))
    have hpost := char_loop_post pat L t _ _ _ _ hr
    refine ⟨r, extra ++ pre, by rw [hrun, hr], by rw [hp, hpasses, List.append_assoc], ?_, ?_,
      ?_, ?_⟩
    · rw [List.length_append]; omega
    · intro c
      rw [List.count_append]
      by_cases e : c = charpos
      · have h0 : extra.count c = 0 := by
          rw [List.count_eq_zero]
          intro hm
          have := hmem c hm
          omega
        have : pre.count c ≤ pre.length := List.count_le_length _ _
        omega
      · have h0 : pre.count c = 0 := by
          rw [List.count_eq_zero]
          intro hm
          rcases hpre with h | h <;> rw [h] at hm <;> simp at hm <;> exact e hm
        have := hcnt c
        omega
    · intro c hm
      rcases List.mem_append.mp hm with h | h
      · have := hmem c h
        omega
      · rcases hpre with h' | h' <;> rw [h'] at h <;> simp at h <;> omega
    · intro k h1 h2
      by_cases hk : k < s.best_cb + 32
      · rw [hpost.2.2.1 k (Or.inl (by omega))]
        exact hr2 k h1 h2
      · exact hrr k (by omega) (by omega)

/-- On a sample-valued codebook and ascending levels `render_charset` returns within
512 passes, passes over no character more than twice and leaves the codebook
sample-valued. -/
theorem render_charset_run (pat : Nat → Nat → Nat → Nat) (L : Nat → Nat) (t0 : Tables)
    (mem_cb : Nat → Int) (mem_cs : Nat → Nat) (charset : Nat) (colrammap : Nat → Nat)
    (fuel : Nat) (hL : Ascending L) (hL1 : L 1 ≤ 255)
    (hcb : ∀ k, k < 256 * 32 → InRange (mem_cb k)) (hfuel : 512 ≤ fuel) :
    ∃ r, render_charset pat L fuel t0 mem_cb mem_cs charset colrammap = some r ∧
      r.1 = build_tables L t0 ∧
      r.2.passes.length ≤ 512 ∧ (∀ c, r.2.passes.count c ≤ 2) ∧
      (∀ k, k < 256 * 32 → InRange (r.2.mem_cb k)) := by
  obtain ⟨r, extra, hr, hp, hl, hcnt, _, hrr⟩ :=
    char_loop_total pat L (build_tables L t0) (build_tables_ok L hL t0) hL1 256 0 fuel
      { mem_cb := mem_cb, best_cb := 0, mem_cs := mem_cs, charset := charset,
        colrammap := colrammap, passes := [] } (by omega) (by omega)
      (fun k _ h2 => hcb k (by simpa using h2))
  refine ⟨(build_tables L t0, r), ?_, ?_, ?_, ?_, ?_⟩
  · unfold render_charset
    simp only [hr, Option.map_some']
  · simp only
  · simp only [hp, List.append_nil]; omega
  · intro c
    simp only [hp, List.append_nil]
    exact hcnt c
  · intro k hk
    exact hrr k (Nat.zero_le k) (by simpa using hk)

/-- Whenever `render_charset` returns, it returns the tables it built and a state in
which every character is settled. -/
theorem render_charset_post (pat : Nat → Nat → Nat → Nat) (L : Nat → Nat) (t0 : Tables)
    (mem_cb : Nat → Int) (mem_cs : Nat → Nat) (charset : Nat) (colrammap : Nat → Nat)
    (fuel : Nat) (r : Tables × RenderState)
    (h : render_charset pat L fuel t0 mem_cb mem_cs charset colrammap = some r) :
    r.1 = build_tables L t0 ∧
    CharLoopPost pat L (build_tables L t0) 0
      { mem_cb := mem_cb, best_cb := 0, mem_cs := mem_cs, charset := charset,
        colrammap := colrammap, passes := [] } r.2 := by
  unfold render_charset at h
  simp only [Option.map_eq_some'] at h
  obtain ⟨s, hs, hr⟩ := h
  subst hr
  simp only [true_and]
  exact char_loop_post pat L _ _ _ _ _ hs

/-! ## Packing and the encoder entry point -/

/-- The loop over the 1000 cells of one frame block. -/
theorem pack_cells_eq (use_5col : Bool) (colrammap : Nat → Nat) (charmap : Nat → Int)
    (bufp cmp : Nat) (m : Nat → Nat) :
    forLoop 0 1000 1 (pack_cell use_5col colrammap charmap bufp cmp) m =
      fun j =>
        if bufp + 0x800 ≤ j ∧ j < bufp + 0x800 + 1000 then
          screen_byte charmap (cmp + (j - (bufp + 0x800)))
        else if use_5col = true ∧ bufp + 0xc00 ≤ j ∧ j < bufp + 0xc00 + 1000 then
          color_byte colrammap charmap (cmp + (j - (bufp + 0xc00)))
        else m j := by
  have key := forLoop_inv
    (fun x (m' : Nat → Nat) => m' = fun j =>
        if bufp + 0x800 ≤ j ∧ j < bufp + 0x800 + x then
          screen_byte charmap (cmp + (j - (bufp + 0x800)))
        else if use_5col = true ∧ bufp + 0xc00 ≤ j ∧ j < bufp + 0xc00 + x then
          color_byte colrammap charmap (cmp + (j - (bufp + 0xc00)))
        else m j)
    1000 (pack_cell use_5col colrammap charmap bufp cmp) ?_ 1000 0 m (Nat.zero_add 1000) ?_
  · exact key
  · intro x m' hx h
    subst h
    funext j
    unfold pack_cell store screen_byte color_byte
    cases use_5col
    · simp only [Bool.false_eq_true, if_false, false_and]
      by_cases e : j = bufp + 0x800 + x
      · subst e
        have c1 : bufp + 0x800 ≤ bufp + 0x800 + x ∧ bufp + 0x800 + x < bufp + 0x800 + (x + 1) := by
          omega
        simp [c1]
      · by_cases c : bufp + 0x800 ≤ j ∧ j < bufp + 0x800 + x
        · have c1 : bufp + 0x800 ≤ j ∧ j < bufp + 0x800 + (x + 1) := by omega
          simp [e, c, c1]
        · have c1 : ¬ (bufp + 0x800 ≤ j ∧ j < bufp + 0x800 + (x + 1)) := by omega
          simp [e, c, c1]
    · simp only [if_true, true_and]
      by_cases e : j = bufp + 0xc00 + x
      · subst e
        have c1 : ¬ (bufp + 0x800 ≤ bufp + 0xc00 + x ∧ bufp + 0xc00 + x < bufp + 0x800 + (x + 1)) := by
          omega
        have c2 : bufp + 0xc00 ≤ bufp + 0xc00 + x ∧ bufp + 0xc00 + x < bufp + 0xc00 + (x + 1) := by
          omega
        simp [c1, c2]
      · by_cases e' : j = bufp + 0x800 + x
        · subst e'
          have c1 : bufp + 0x800 ≤ bufp + 0x800 + x ∧ bufp + 0x800 + x < bufp + 0x800 + (x + 1) := by
            omega
          simp [e, c1]
        · by_cases c : bufp + 0x800 ≤ j ∧ j < bufp + 0x800 + x
          · have c1 : bufp + 0x800 ≤ j ∧ j < bufp + 0x800 + (x + 1) := by omega
            simp [e, e', c, c1]
          · have c1 : ¬ (bufp + 0x800 ≤ j ∧ j < bufp + 0x800 + (x + 1)) := by omega
            by_cases d : bufp + 0xc00 ≤ j ∧ j < bufp + 0xc00 + x
            · have d1 : bufp + 0xc00 ≤ j ∧ j < bufp + 0xc00 + (x + 1) := by omega
              simp [e, e', c, c1, d, d1]
            · have d1 : ¬ (bufp + 0xc00 ≤ j ∧ j < bufp + 0xc00 + (x + 1)) := by omega
              simp [e, e', c, c1, d, d1]
  · funext j
    have c1 : ¬ (bufp + 0x800 ≤ j ∧ j < bufp + 0x800 + 0) := by omega
    have c2 : ¬ (bufp + 0xc00 ≤ j ∧ j < bufp + 0xc00 + 0) := by omega
    simp only [c1, c2, and_false, if_false]

/-- The loop over the frames in 4-color mode. -/
theorem pack_frames_four (colrammap : Nat → Nat) (charmap : Nat → Int) (m0 : Nat → Nat)
    (n : Nat) :
    Packed false 0x400 colrammap charmap m0
      (forLoop 0 n 1 (pack_frame false 0x400 colrammap charmap) (m0, 0, 0)).1 n := by
  have key := forLoop_inv
    (fun f (st : (Nat → Nat) × Nat × Nat) =>
      st.2.1 = f * 0x400 ∧ st.2.2 = f * 1000 ∧ Packed false 0x400 colrammap charmap m0 st.1 f)
    n (pack_frame false 0x400 colrammap charmap) ?_ n 0 (m0, 0, 0) (Nat.zero_add n) ?_
  · exact key.2.2
  · intro f st _ ⟨hb, hc, h1, _, h3⟩
    unfold pack_frame
    rw [pack_cells_eq]
    refine ⟨by simp only; omega, by simp only; omega, ?_, ?_, ?_⟩
    · intro i a hi ha
      simp only [Bool.false_eq_true, false_and, if_false, hb, hc]
      by_cases e : i = f
      · subst e
        have c : i * 0x400 + 0x800 ≤ 0x800 + i * 0x400 + a ∧
            0x800 + i * 0x400 + a < i * 0x400 + 0x800 + 1000 := by omega
        have e2 : i * 1000 + (0x800 + i * 0x400 + a - (i * 0x400 + 0x800)) = i * 1000 + a := by
          omega
        rw [if_pos c, e2]
      · have c : ¬ (f * 0x400 + 0x800 ≤ 0x800 + i * 0x400 + a ∧
            0x800 + i * 0x400 + a < f * 0x400 + 0x800 + 1000) := by omega
        rw [if_neg c]
        exact h1 i a (by omega) ha
    · intro h
      exact absurd h (by decide)
    · intro j hj _
      simp only [Bool.false_eq_true, false_and, if_false, hb, hc]
      have c : ¬ (f * 0x400 + 0x800 ≤ j ∧ j < f * 0x400 + 0x800 + 1000) := by
        intro c
        exact hj f (j - (f * 0x400 + 0x800)) (Nat.lt_succ_self f) (by omega) (by omega)
      rw [if_neg c]
      exact h3 j (fun i a hi ha => hj i a (by omega) ha) (fun h => absurd h (by decide))
  · refine ⟨by simp, by simp, ?_, ?_, ?_⟩
    · intro i a hi; exact absurd hi (Nat.not_lt_zero i)
    · intro _ i a hi; exact absurd hi (Nat.not_lt_zero i)
    · intro j _ _; rfl

/-- The loop over the frames in 5-color mode. -/
theorem pack_frames_five (colrammap : Nat → Nat) (charmap : Nat → Int) (m0 : Nat → Nat)
    (n : Nat) :
    Packed true 0x800 colrammap charmap m0
      (forLoop 0 n 1 (pack_frame true 0x800 colrammap charmap) (m0, 0, 0)).1 n := by
  have key := forLoop_inv
    (fun f (st : (Nat → Nat) × Nat × Nat) =>
      st.2.1 = f * 0x800 ∧ st.2.2 = f * 1000 ∧ Packed true 0x800 colrammap charmap m0 st.1 f)
    n (pack_frame true 0x800 colrammap charmap) ?_ n 0 (m0, 0, 0) (Nat.zero_add n) ?_
  · exact key.2.2
  · intro f st _ ⟨hb, hc, h1, h2, h3⟩
    unfold pack_frame
    rw [pack_cells_eq]
    refine ⟨by simp only; omega, by simp only; omega, ?_, ?_, ?_⟩
    · intro i a hi ha
      simp only [true_and, hb, hc]
      by_cases e : i = f
      · subst e
        have c : i * 0x800 + 0x800 ≤ 0x800 + i * 0x800 + a ∧
            0x800 + i * 0x800 + a < i * 0x800 + 0x800 + 1000 := by omega
        have e2 : i * 1000 + (0x800 + i * 0x800 + a - (i * 0x800 + 0x800)) = i * 1000 + a := by
          omega
        rw [if_pos c, e2]
      · have c : ¬ (f * 0x800 + 0x800 ≤ 0x800 + i * 0x800 + a ∧
            0x800 + i * 0x800 + a < f * 0x800 + 0x800 + 1000) := by omega
        have d : ¬ (f * 0x800 + 0xc00 ≤ 0x800 + i * 0x800 + a ∧
            0x800 + i * 0x800 + a < f * 0x800 + 0xc00 + 1000) := by omega
        rw [if_neg c, if_neg d]
        exact h1 i a (by omega) ha
    · intro _ i a hi ha
      simp only [true_and, hb, hc]
      by_cases e : i = f
      · subst e
        have c : ¬ (i * 0x800 + 0x800 ≤ 0x800 + i * 0x800 + 0x400 + a ∧
            0x800 + i * 0x800 + 0x400 + a < i * 0x800 + 0x800 + 1000) := by omega
        have d : i * 0x800 + 0xc00 ≤ 0x800 + i * 0x800 + 0x400 + a ∧
            0x800 + i * 0x800 + 0x400 + a < i * 0x800 + 0xc00 + 1000 := by omega
        have e2 : i * 1000 + (0x800 + i * 0x800 + 0x400 + a - (i * 0x800 + 0xc00))
            = i * 1000 + a := by omega
        rw [if_neg c, if_pos d, e2]
      · have c : ¬ (f * 0x800 + 0x800 ≤ 0x800 + i * 0x800 + 0x400 + a ∧
            0x800 + i * 0x800 + 0x400 + a < f * 0x800 + 0x800 + 1000) := by omega
        have d : ¬ (f * 0x800 + 0xc00 ≤ 0x800 + i * 0x800 + 0x400 + a ∧
            0x800 + i * 0x800 + 0x400 + a < f * 0x800 + 0xc00 + 1000) := by omega
        rw [if_neg c, if_neg d]
        exact h2 rfl i a (by omega) ha
    · intro j hj hj'
      simp only [true_and, hb, hc]
      have c : ¬ (f * 0x800 + 0x800 ≤ j ∧ j < f * 0x800 + 0x800 + 1000) := by
        intro c
        exact hj f (j - (f * 0x800 + 0x800)) (Nat.lt_succ_self f) (by omega) (by omega)
      have d : ¬ (f * 0x800 + 0xc00 ≤ j ∧ j < f * 0x800 + 0xc00 + 1000) := by
        intro d
        exact hj' rfl f (j - (f * 0x800 + 0xc00)) (Nat.lt_succ_self f) (by omega) (by omega)
      rw [if_neg c, if_neg d]
      exact h3 j (fun i a hi ha => hj i a (by omega) ha)
        (fun _ i a hi ha => hj' rfl i a (by omega) ha)
  · refine ⟨by simp, by simp, ?_, ?_, ?_⟩
    · intro i a hi; exact absurd hi (Nat.not_lt_zero i)
    · intro _ i a hi; exact absurd hi (Nat.not_lt_zero i)
    · intro j _ _; rfl

/-- The loop over the frames packs `n` frame blocks behind the charset. -/
theorem pack_frames (use_5col : Bool) (colrammap : Nat → Nat) (charmap : Nat → Int)
    (m0 : Nat → Nat) (n : Nat) :
    Packed use_5col (0x400 + 0x400 * use_5col.toNat) colrammap charmap m0
      (forLoop 0 n 1 (pack_frame use_5col (0x400 + 0x400 * use_5col.toNat) colrammap charmap)
        (m0, 0, 0)).1 n := by
  cases use_5col
  · exact pack_frames_four colrammap charmap m0 n
  · exact pack_frames_five colrammap charmap m0 n

/-- Preparing the flush changes the lifetime only. -/
theorem flushed_fields (c : A64Context) (data : Option AVFrame) :
    (flushed c data).mc_frame_counter = c.mc_frame_counter ∧
    (flushed c data).mc_use_5col = c.mc_use_5col ∧
    (flushed c data).mc_luma_vals = c.mc_luma_vals ∧
    (flushed c data).mc_meta_charset = c.mc_meta_charset ∧
    (flushed c data).mc_best_cb = c.mc_best_cb ∧
    (flushed c data).mc_charmap = c.mc_charmap := by
  cases data <;> exact ⟨rfl, rfl, rfl, rfl, rfl, rfl⟩

/-- The call with a buffer that is too small. -/
theorem encode_error (q : Elbg) (pat : Nat → Nat → Nat → Nat) (fuel : Nat)
    (avctx : AVCodecContext) (st : EncState) (buf : Nat → Nat) (buf_size : Nat)
    (data : Option AVFrame) (h : req_size_of st.c data > buf_size) :
    a64multi_encode_frame q pat fuel avctx st buf buf_size data =
      some { ret := AVERROR_EINVAL, st := { st with c := flushed st.c data }, buf := buf,
             colrammap := fun _ => 0 } := by
  unfold req_size_of frm_size_of flushed at h
  unfold a64multi_encode_frame flushed
  cases data <;> simp only [h, if_true] at h ⊢

/-- The call that buffers a frame. -/
theorem encode_buffer (q : Elbg) (pat : Nat → Nat → Nat → Nat) (fuel : Nat)
    (avctx : AVCodecContext) (st : EncState) (buf : Nat → Nat) (buf_size : Nat)
    (pict : AVFrame) (h : req_size_of st.c (some pict) ≤ buf_size)
    (hlt : st.c.mc_frame_counter < st.c.mc_lifetime) :
    a64multi_encode_frame q pat fuel avctx st buf buf_size (some pict) =
      some { ret := 0,
             st := { st with c := { st.c with
                picture := { pict with pict_type := FF_I_TYPE, key_frame := 1 },
                mc_meta_charset := to_meta_with_crop avctx
                  { pict with pict_type := FF_I_TYPE, key_frame := 1 } st.c.mc_meta_charset
                  (32000 * st.c.mc_frame_counter),
                mc_frame_counter := st.c.mc_frame_counter + 1 } },
             buf := buf, colrammap := fun _ => 0 } := by
  unfold req_size_of frm_size_of flushed at h
  have h' := Nat.not_lt.mpr h
  unfold a64multi_encode_frame
  simp only [gt_iff_lt, h', if_false, hlt, if_true]

/-- The call that runs a batch: its result is that of `render_charset`, packed. -/
theorem encode_batch (q : Elbg) (pat : Nat → Nat → Nat → Nat) (fuel : Nat)
    (avctx : AVCodecContext) (st : EncState) (buf : Nat → Nat) (buf_size : Nat)
    (data : Option AVFrame) (h : req_size_of st.c data ≤ buf_size)
    (heq : (flushed st.c data).mc_frame_counter = (flushed st.c data).mc_lifetime)
    (hpos : 0 < (flushed st.c data).mc_lifetime) :
    a64multi_encode_frame q pat fuel avctx st buf buf_size data =
      (render_charset pat st.c.mc_luma_vals fuel st.lut (quantize q (flushed st.c data)).1
        buf 0 (fun _ => 0)).map (batch_result q st data) := by
  unfold req_size_of frm_size_of at h
  have h' := Nat.not_lt.mpr h
  have hnlt : ¬ (flushed st.c data).mc_frame_counter < (flushed st.c data).mc_lifetime := by
    omega
  unfold batch_result quantize req_size_of frm_size_of
  unfold flushed at h' hnlt heq hpos ⊢
  unfold a64multi_encode_frame
  cases data with
  | none =>
    simp only at h' hnlt heq hpos ⊢
    simp only [gt_iff_lt, h', if_false, hnlt, heq, hpos, and_self, if_true, lt_self_iff_false]
    cases render_charset pat st.c.mc_luma_vals fuel st.lut _ buf 0 (fun _ => 0) <;> rfl
  | some pict =>
    simp only at h' hnlt heq hpos ⊢
    simp only [gt_iff_lt, h', if_false, hnlt, heq, hpos, and_self, if_true, lt_self_iff_false]
    cases render_charset pat st.c.mc_luma_vals fuel st.lut _ buf 0 (fun _ => 0) <;> rfl

/-- The call that finds nothing to do. -/
theorem encode_idle (q : Elbg) (pat : Nat → Nat → Nat → Nat) (fuel : Nat)
    (avctx : AVCodecContext) (st : EncState) (buf : Nat → Nat) (buf_size : Nat)
    (data : Option AVFrame) (h : req_size_of st.c data ≤ buf_size)
    (hnlt : ¬ (flushed st.c data).mc_frame_counter < (flushed st.c data).mc_lifetime)
    (hn : ¬ ((flushed st.c data).mc_frame_counter = (flushed st.c data).mc_lifetime ∧
      0 < (flushed st.c data).mc_lifetime)) :
    a64multi_encode_frame q pat fuel avctx st buf buf_size data =
      some { ret := 0, st := { st with c := flushed st.c data }, buf := buf,
             colrammap := fun _ => 0 } := by
  unfold req_size_of frm_size_of at h
  have h' := Nat.not_lt.mpr h
  unfold flushed at h' hnlt hn ⊢
  unfold a64multi_encode_frame
  cases data with
  | none =>
    simp only at h' hnlt hn ⊢
    simp only [gt_iff_lt, h', if_false, hnlt, hn]
  | some pict =>
    simp only at h' hnlt hn ⊢
    simp only [gt_iff_lt, h', if_false, hnlt, hn]

/-- A well-formed quantizer leaves a sample-valued codebook. -/
theorem quantize_inRange (q : Elbg) (hq : ElbgOK q) (c : A64Context) (k : Nat)
    (hk : k < 256 * 32) : InRange ((quantize q c).1 k) := by
  unfold quantize
  exact hq _ _ _ _ _ _ _ _ k hk

/-- A call that returns a positive value has run a batch. -/
theorem encode_payload_inv (q : Elbg) (pat : Nat → Nat → Nat → Nat) (fuel : Nat)
    (avctx : AVCodecContext) (st : EncState) (buf : Nat → Nat) (buf_size : Nat)
    (data : Option AVFrame) (res : EncodeResult)
    (h : a64multi_encode_frame q pat fuel avctx st buf buf_size data = some res)
    (hpos : 0 < res.ret) :
    req_size_of st.c data ≤ buf_size ∧
    (flushed st.c data).mc_frame_counter = (flushed st.c data).mc_lifetime ∧
    0 < (flushed st.c data).mc_lifetime ∧
    ∃ r, render_charset pat st.c.mc_luma_vals fuel st.lut (quantize q (flushed st.c data)).1
        buf 0 (fun _ => 0) = some r ∧ res = batch_result q st data r := by
  by_cases h1 : req_size_of st.c data > buf_size
  · rw [encode_error q pat fuel avctx st buf buf_size data h1] at h
    simp only [Option.some.injEq] at h
    subst h
    have hp : (0 : Int) < AVERROR_EINVAL := hpos
    exact absurd hp (by decide)
  · have h1' : req_size_of st.c data ≤ buf_size := Nat.le_of_not_lt h1
    by_cases h2 : (flushed st.c data).mc_frame_counter < (flushed st.c data).mc_lifetime
    · cases data with
      | none => exact absurd h2 (Nat.lt_irrefl _)
      | some pict =>
        rw [encode_buffer q pat fuel avctx st buf buf_size pict h1' h2] at h
        simp only [Option.some.injEq] at h
        subst h
        exact absurd hpos (lt_irrefl 0)
    · by_cases h3 : (flushed st.c data).mc_frame_counter = (flushed st.c data).mc_lifetime ∧
          0 < (flushed st.c data).mc_lifetime
      · rw [encode_batch q pat fuel avctx st buf buf_size data h1' h3.1 h3.2] at h
        simp only [Option.map_eq_some'] at h
        obtain ⟨r, hr, he⟩ := h
        exact ⟨h1', h3.1, h3.2, r, hr, he.symm⟩
      · rw [encode_idle q pat fuel avctx st buf buf_size data h1' h2 h3] at h
        simp only [Option.some.injEq] at h
        subst h
        exact absurd hpos (lt_irrefl 0)

/-- A due batch runs to its end when the quantizer and the reference levels are
well-formed and the character loop is granted 512 passes. -/
theorem encode_batch_runs (q : Elbg) (pat : Nat → Nat → Nat → Nat) (fuel : Nat)
    (avctx : AVCodecContext) (st : EncState) (buf : Nat → Nat) (buf_size : Nat)
    (data : Option AVFrame) (hq : ElbgOK q) (hL : LumaOK st.c.mc_luma_vals)
    (hfuel : 512 ≤ fuel) (h : req_size_of st.c data ≤ buf_size)
    (heq : (flushed st.c data).mc_frame_counter = (flushed st.c data).mc_lifetime)
    (hpos : 0 < (flushed st.c data).mc_lifetime) :
    ∃ r, render_charset pat st.c.mc_luma_vals fuel st.lut (quantize q (flushed st.c data)).1
        buf 0 (fun _ => 0) = some r ∧
      a64multi_encode_frame q pat fuel avctx st buf buf_size data =
        some (batch_result q st data r) := by
  obtain ⟨_, h12, h23, h34, h4⟩ := hL
  obtain ⟨r, hr, _⟩ := render_charset_run pat st.c.mc_luma_vals st.lut
    (quantize q (flushed st.c data)).1 buf 0 (fun _ => 0) fuel ⟨h12, h23, h34⟩ (by omega)
    (fun k hk => quantize_inRange q hq _ k hk) hfuel
  refine ⟨r, hr, ?_⟩
  rw [encode_batch q pat fuel avctx st buf buf_size data h heq hpos, hr]
  rfl

/-- A sequence of calls followed by one more call. -/
theorem encode_all_snoc (q : Elbg) (pat : Nat → Nat → Nat → Nat) (fuel : Nat)
    (avctx : AVCodecContext) (buf_size : Nat) (x : Option AVFrame) :
    ∀ (xs : List (Option AVFrame)) (st : EncState) (buf : Nat → Nat) (rets : List Int)
      (st1 : EncState) (buf1 : Nat → Nat) (res : EncodeResult),
      encode_all q pat fuel avctx buf_size xs st buf = some (rets, st1, buf1) →
      a64multi_encode_frame q pat fuel avctx st1 buf1 buf_size x = some res →
      encode_all q pat fuel avctx buf_size (xs ++ [x]) st buf =
        some (rets ++ [res.ret], res.st, res.buf) := by
  intro xs
  induction xs with
  | nil =>
    intro st buf rets st1 buf1 res h1 h2
    simp only [encode_all, Option.some.injEq, Prod.mk.injEq] at h1
    obtain ⟨rfl, rfl, rfl⟩ := h1
    simp only [List.nil_append, encode_all, h2]
  | cons y ys ih =>
    intro st buf rets st1 buf1 res h1 h2
    simp only [encode_all] at h1
    cases hy : a64multi_encode_frame q pat fuel avctx st buf buf_size y with
    | none => simp [hy] at h1
    | some ry =>
      simp only [hy] at h1
      cases hys : encode_all q pat fuel avctx buf_size ys ry.st ry.buf with
      | none => simp [hys] at h1
      | some rest =>
        simp only [hys, Option.some.injEq, Prod.mk.injEq] at h1
        obtain ⟨rfl, rfl, rfl⟩ := h1
        have := ih ry.st ry.buf rest.1 rest.2.1 rest.2.2 res hys h2
        rw [List.cons_append, encode_all, hy]
        simp only
        rw [this]
        simp only [List.cons_append]

/-- Frames that fit below the lifetime are buffered, each call returning 0. -/
theorem encode_all_frames (q : Elbg) (pat : Nat → Nat → Nat → Nat) (fuel : Nat)
    (avctx : AVCodecContext) (buf_size : Nat) (buf : Nat → Nat) :
    ∀ (frames : List AVFrame) (st : EncState),
      st.c.mc_frame_counter + frames.length ≤ st.c.mc_lifetime →
      0x800 + frm_size_of st.c * st.c.mc_lifetime ≤ buf_size →
      ∃ st1, encode_all q pat fuel avctx buf_size (frames.map some) st buf =
          some (List.replicate frames.length 0, st1, buf) ∧
        st1.c.mc_frame_counter = st.c.mc_frame_counter + frames.length ∧
        st1.c.mc_lifetime = st.c.mc_lifetime ∧ st1.c.mc_use_5col = st.c.mc_use_5col ∧
        st1.c.mc_luma_vals = st.c.mc_luma_vals ∧ st1.lut = st.lut := by
  intro frames
  induction frames with
  | nil =>
    intro st _ _
    exact ⟨st, rfl, rfl, rfl, rfl, rfl, rfl⟩
  | cons p ps ih =>
    intro st hfit hbuf
    simp only [List.length_cons] at hfit
    have hstep := encode_buffer q pat fuel avctx st buf buf_size p hbuf (by omega)
    obtain ⟨st1, h1, h2, h3, h4, h5, h6⟩ := ih
      { st with c := { st.c with
          picture := { p with pict_type := FF_I_TYPE, key_frame := 1 },
          mc_meta_charset := to_meta_with_crop avctx
            { p with pict_type := FF_I_TYPE, key_frame := 1 } st.c.mc_meta_charset
            (32000 * st.c.mc_frame_counter),
          mc_frame_counter := st.c.mc_frame_counter + 1 } }
      (show (st.c.mc_frame_counter + 1) + ps.length ≤ st.c.mc_lifetime by omega) hbuf
    refine ⟨st1, ?_, ?_, h3, h4, h5, h6⟩
    · simp only [List.map_cons, encode_all, hstep, h1, List.length_cons, List.replicate_succ]
    · simp only at h2
      simp only [List.length_cons]
      omega

/-- The sample codebook is sample-valued. -/
theorem sample_cb_inRange : ∀ k, k < 256 * 32 → 0 ≤ sample_cb k ∧ sample_cb k ≤ 255 := by
  intro k _
  unfold sample_cb
  omega

/-- The sample quantizer is well-formed. -/
theorem sample_q_ok : ElbgOK sample_q := by
  intro _ _ _ _ _ _ _ _ k _
  show InRange (sample_cb k)
  unfold InRange sample_cb
  omega

/-- The sample reference levels are well-formed. -/
theorem sample_luma_ok : LumaOK sample_luma := by
  unfold LumaOK
  decide

/-- The flag `mc_use_5col` as a number. -/
theorem toNat_eq_ite (b : Bool) : b.toNat = if b then 1 else 0 := by
  cases b <;> rfl

/-- A list of zeros holds no positive value. -/
theorem countP_pos_replicate_zero (k : Nat) :
    (List.replicate k (0 : Int)).countP (fun v => decide (0 < v)) = 0 := by
  induction k with
  | zero => rfl
  | succ n ih => rw [List.replicate_succ, List.countP_cons, ih]; rfl

/-- What a call that returned a positive value has done: it rendered the quantized
codebook into the buffer and packed the frame blocks behind the charset. -/
theorem encode_payload_facts (q : Elbg) (pat : Nat → Nat → Nat → Nat) (fuel : Nat)
    (avctx : AVCodecContext) (st : EncState) (buf : Nat → Nat) (buf_size : Nat)
    (data : Option AVFrame) (res : EncodeResult)
    (h : a64multi_encode_frame q pat fuel avctx st buf buf_size data = some res)
    (hpos : 0 < res.ret) :
    ∃ r, res = batch_result q st data r ∧
      Packed st.c.mc_use_5col (0x400 + 0x400 * st.c.mc_use_5col.toNat) r.2.colrammap
        (quantize q (flushed st.c data)).2.1 r.2.mem_cs res.buf
        (flushed st.c data).mc_lifetime ∧
      CharLoopPost pat st.c.mc_luma_vals (build_tables st.c.mc_luma_vals st.lut) 0
        { mem_cb := (quantize q (flushed st.c data)).1, best_cb := 0, mem_cs := buf,
          charset := 0, colrammap := fun _ => 0, passes := [] } r.2 := by
  obtain ⟨_, _, _, r, hr, he⟩ := encode_payload_inv q pat fuel avctx st buf buf_size data res
    h hpos
  refine ⟨r, he, ?_, (render_charset_post pat _ _ _ _ _ _ _ r hr).2⟩
  subst he
  exact pack_frames st.c.mc_use_5col r.2.colrammap _ r.2.mem_cs _

/-- After the character loop every color selector is 8 or 9. -/
theorem colrammap_lt (pat : Nat → Nat → Nat → Nat) (L : Nat → Nat) (t : Tables)
    (s r : RenderState) (h : CharLoopPost pat L t 0 s r) (c : Nat) (hc : c < 256) :
    8 ≤ r.colrammap c ∧ r.colrammap c < 256 := by
  have := (h.1 c (by omega)).2.2
  rw [Nat.zero_add] at this
  rw [this]
  unfold colram_value
  split <;> omega

/-- The layout of the payload of a call that returned a positive value, in terms of
what the call returned: the frame blocks are packed over a buffer `m0` that agrees
with the caller's buffer from offset `0x800` on, and every color selector is 8 or 9. -/
theorem encode_payload_layout (q : Elbg) (pat : Nat → Nat → Nat → Nat) (fuel : Nat)
    (avctx : AVCodecContext) (st : EncState) (buf : Nat → Nat) (buf_size : Nat)
    (data : Option AVFrame) (res : EncodeResult)
    (h : a64multi_encode_frame q pat fuel avctx st buf buf_size data = some res)
    (hpos : 0 < res.ret) :
    ∃ m0, Packed res.st.c.mc_use_5col (if res.st.c.mc_use_5col then 0x800 else 0x400)
        res.colrammap res.st.c.mc_charmap m0 res.buf res.st.c.mc_lifetime ∧
      (∀ j, 0x800 ≤ j → m0 j = buf j) ∧
      (∀ c, c < 256 → 8 ≤ res.colrammap c ∧ res.colrammap c < 256) ∧
      res.st.c.mc_charmap = (quantize q (flushed st.c data)).2.1 := by
  obtain ⟨r, he, hp, hpost⟩ := encode_payload_facts q pat fuel avctx st buf buf_size data res
    h hpos
  subst he
  have e2 : (batch_result q st data r).st.c.mc_use_5col = st.c.mc_use_5col :=
    (flushed_fields st.c data).2.1
  have hfrm : (if st.c.mc_use_5col = true then 0x800 else 0x400) =
      0x400 + 0x400 * st.c.mc_use_5col.toNat := by
    cases st.c.mc_use_5col <;> rfl
  refine ⟨r.2.mem_cs, ?_, ?_, ?_, rfl⟩
  · rw [e2, hfrm]
    exact hp
  · intro j hj
    exact hpost.2.1 j (Or.inr (by simpa using hj))
  · intro c hc
    exact colrammap_lt pat _ _ _ _ hpost c hc

/-- A screen byte stored for an index in [0, 256) is that index. -/
theorem screen_byte_of_index (charmap : Nat → Int) (k : Nat)
    (h : 0 ≤ charmap k ∧ charmap k < 256) :
    ((screen_byte charmap k : Nat) : Int) = charmap k ∧
    screen_byte charmap k = (charmap k).toNat ∧ screen_byte charmap k < 256 := by
  unfold screen_byte
  obtain ⟨h0, h1⟩ := h
  omega

/-- In 5-color mode the byte right behind the 1000 screen bytes of the first frame
block is left as the caller's buffer had it, while every color selector is at least 8. -/
theorem encode_first_gap_byte (q : Elbg) (pat : Nat → Nat → Nat → Nat) (fuel : Nat)
    (avctx : AVCodecContext) (st : EncState) (buf : Nat → Nat) (buf_size : Nat)
    (data : Option AVFrame) (res : EncodeResult)
    (h : a64multi_encode_frame q pat fuel avctx st buf buf_size data = some res)
    (hpos : 0 < res.ret) (h5 : res.st.c.mc_use_5col = true)
    (hidx : 0 ≤ res.st.c.mc_charmap (0 * 1000 + 0) ∧ res.st.c.mc_charmap (0 * 1000 + 0) < 256)
    (hn : 0 < res.st.c.mc_lifetime) :
    res.buf (0x800 + 0 * 0x800 + 1000 + 0) = buf (0x800 + 0 * 0x800 + 1000 + 0) ∧
    8 ≤ res.colrammap (res.buf (0x800 + 0 * 0x800 + 0)) := by
  obtain ⟨m0, hp, hm0, hc, _⟩ := encode_payload_layout q pat fuel avctx st buf buf_size data res
    h hpos
  rw [h5] at hp
  simp only [if_true] at hp
  constructor
  · rw [hp.2.2 _ (fun i a _ ha => by omega) (fun _ i a _ ha => by omega)]
    exact hm0 _ (by omega)
  · have hs := screen_byte_of_index _ _ hidx
    rw [hp.1 0 0 hn (by omega)]
    exact (hc _ hs.2.2).1

/-! ## The encoder entry point: the counter invariant -/

/-- A call that returns leaves `mc_frame_counter <= mc_lifetime` if it found it so, and
leaves the lifetime the flush statement has set. -/
theorem encode_counter_le (q : Elbg) (pat : Nat → Nat → Nat → Nat) (fuel : Nat)
    (avctx : AVCodecContext) (st : EncState) (buf : Nat → Nat) (buf_size : Nat)
    (data : Option AVFrame) (res : EncodeResult)
    (h : a64multi_encode_frame q pat fuel avctx st buf buf_size data = some res)
    (hinv : st.c.mc_frame_counter ≤ st.c.mc_lifetime) :
    res.st.c.mc_frame_counter ≤ res.st.c.mc_lifetime ∧
    res.st.c.mc_lifetime = (flushed st.c data).mc_lifetime := by
  by_cases h1 : req_size_of st.c data > buf_size
  · rw [encode_error q pat fuel avctx st buf buf_size data h1] at h
    cases h
    cases data with
    | none => exact ⟨le_refl _, rfl⟩
    | some p => exact ⟨hinv, rfl⟩
  · have h1 : req_size_of st.c data ≤ buf_size := by omega
    by_cases h2 : (flushed st.c data).mc_frame_counter < (flushed st.c data).mc_lifetime
    · cases data with
      | none => exact absurd h2 (lt_irrefl _)
      | some p =>
        rw [encode_buffer q pat fuel avctx st buf buf_size p h1 h2] at h
        cases h
        exact ⟨h2, rfl⟩
    · by_cases h3 : (flushed st.c data).mc_frame_counter = (flushed st.c data).mc_lifetime ∧
          0 < (flushed st.c data).mc_lifetime
      · rw [encode_batch q pat fuel avctx st buf buf_size data h1 h3.1 h3.2] at h
        cases hr : render_charset pat st.c.mc_luma_vals fuel st.lut
            (quantize q (flushed st.c data)).1 buf 0 (fun _ => 0) with
        | none => rw [hr] at h; cases h
        | some r =>
          rw [hr] at h
          cases h
          exact ⟨Nat.zero_le _, rfl⟩
      · rw [encode_idle q pat fuel avctx st buf buf_size data h1 h2 h3] at h
        cases h
        cases data with
        | none => exact ⟨le_refl _, rfl⟩
        | some p => exact ⟨hinv, rfl⟩

/-- With a quantizer that yields sample values, ascending reference bytes and 512 passes
granted to the character loop, every call returns. -/
theorem encode_returns (q : Elbg) (pat : Nat → Nat → Nat → Nat) (fuel : Nat)
    (avctx : AVCodecContext) (st : EncState) (buf : Nat → Nat) (buf_size : Nat)
    (data : Option AVFrame) (hq : ElbgOK q) (hL : LumaOK st.c.mc_luma_vals)
    (hfuel : 512 ≤ fuel) :
    ∃ res, a64multi_encode_frame q pat fuel avctx st buf buf_size data = some res := by
  by_cases h1 : req_size_of st.c data > buf_size
  · exact ⟨_, encode_error q pat fuel avctx st buf buf_size data h1⟩
  · have h1 : req_size_of st.c data ≤ buf_size := by omega
    by_cases h2 : (flushed st.c data).mc_frame_counter < (flushed st.c data).mc_lifetime
    · cases data with
      | none => exact absurd h2 (lt_irrefl _)
      | some p => exact ⟨_, encode_buffer q pat fuel avctx st buf buf_size p h1 h2⟩
    · by_cases h3 : (flushed st.c data).mc_frame_counter = (flushed st.c data).mc_lifetime ∧
          0 < (flushed st.c data).mc_lifetime
      · obtain ⟨r, _, hr⟩ := encode_batch_runs q pat fuel avctx st buf buf_size data hq hL hfuel
          h1 h3.1 h3.2
        exact ⟨_, hr⟩
      · exact ⟨_, encode_idle q pat fuel avctx st buf buf_size data h1 h2 h3⟩

/-! ## The dither table -/

/-- The value `b * (DITHERSTEPS - 1) / distance` the ramp stores, as a natural number. -/
theorem dither_value (b dist x y : Nat) (hb : b ≤ dist) (h : x + dist = y) :
    ((((b : Int) * ((DITHERSTEPS : Int) - 1) / ((y : Int) - (x : Int))) % 256).toNat) =
      b * 7 / dist := by
  have e : (y : Int) - (x : Int) = ((dist : Nat) : Int) := by omega
  have e7 : ((DITHERSTEPS : Int) - 1) = ((7 : Nat) : Int) := by
    unfold DITHERSTEPS
    rfl
  rw [e, e7, ← Int.ofNat_mul, ← Int.ofNat_ediv]
  have hle : b * 7 / dist ≤ 7 := by
    apply Nat.div_le_of_le_mul
    nlinarith
  generalize b * 7 / dist = n at hle ⊢
  omega

/-- The ramp loop in closed form: it rewrites the entries from `L i` to `L (i + 1)`. -/
theorem dither_ramp_eq (L : Nat → Nat) (i : Nat) (d : Nat → Nat) (h : L i < L (i + 1)) :
    dither_ramp L i d =
      fun v => if L i ≤ v ∧ v ≤ L (i + 1) then (v - L i) * 7 / (L (i + 1) - L i) else d v := by
  unfold dither_ramp
  have hstop : (((L (i + 1) : Int) - (L i : Int)) + 1).toNat = L (i + 1) - L i + 1 := by omega
  simp only [hstop]
  have key := forLoop_inv
    (fun b (m : Nat → Nat) => ∀ v, m v =
      if L i ≤ v ∧ v < L i + b then (v - L i) * 7 / (L (i + 1) - L i) else d v)
    (L (i + 1) - L i + 1)
    (fun b dither =>
      store dither (L i + b)
        ((((b : Int) * ((DITHERSTEPS : Int) - 1) / ((L (i + 1) : Int) - (L i : Int))) % 256).toNat))
    (by
      intro b m hb hm v
      simp only [store]
      rw [dither_value b (L (i + 1) - L i) (L i) (L (i + 1)) (by omega) (by omega)]
      by_cases hv : v = L i + b
      · subst hv
        have a1 : L i ≤ L i + b ∧ L i + b < L i + (b + 1) := by omega
        rw [if_pos rfl, if_pos a1]
        congr 2
        omega
      · rw [if_neg hv, hm v]
        by_cases c : L i ≤ v ∧ v < L i + b
        · have c' : L i ≤ v ∧ v < L i + (b + 1) := by omega
          rw [if_pos c, if_pos c']
        · have c' : ¬ (L i ≤ v ∧ v < L i + (b + 1)) := by omega
          rw [if_neg c, if_neg c'])
    (L (i + 1) - L i + 1) 0 d (by omega)
    (by
      intro v
      have c : ¬ (L i ≤ v ∧ v < L i + 0) := by omega
      rw [if_neg c])
  funext v
  rw [key v]
  by_cases c : L i ≤ v ∧ v ≤ L (i + 1)
  · have c' : L i ≤ v ∧ v < L i + (L (i + 1) - L i + 1) := by omega
    rw [if_pos c, if_pos c']
  · have c' : ¬ (L i ≤ v ∧ v < L i + (L (i + 1) - L i + 1)) := by omega
    rw [if_neg c, if_neg c']

/-- What an iteration of the table loop does to `dither`. -/
theorem table_step_dither (L : Nat → Nat) (a : Nat) (st : Nat × Tables) :
    (table_step L a st).2.dither =
      if st.1 < 4 ∧ a = L (st.1 + 1) then
        (if st.1 + 1 ≥ 4 then store (dither_ramp L st.1 st.2.dither) a 0
         else dither_ramp L st.1 st.2.dither)
      else (if st.1 ≥ 4 then store st.2.dither a 0 else st.2.dither) := by
  unfold table_step
  by_cases c : st.1 < 4 ∧ a = L (st.1 + 1)
  · simp only [if_pos c]
    split_ifs <;> rfl
  · simp only [if_neg c]
    split_ifs <;> rfl

/-- An iteration below `L 4` that starts no ramp keeps the invariant of `dither`. -/
theorem ditherInv_keep (L : Nat → Nat) (a : Nat) (d : Nat → Nat) (h : DitherInv L a d)
    (h1 : a ≠ L 1) (h2 : a ≠ L 2) (h3 : a ≠ L 3) (h4 : a < L 4) : DitherInv L (a + 1) d := by
  obtain ⟨r0, r1, r2, r3, z⟩ := h
  exact ⟨fun c => r0 (by omega), fun c => r1 (by omega), fun c => r2 (by omega),
    fun c => r3 (by omega), fun v c1 c2 => z v c1 (by omega)⟩

/-- An iteration above `L 4` zeroes its entry and keeps the invariant of `dither`. -/
theorem ditherInv_zero (L : Nat → Nat) (hL : LumaOK L) (a : Nat) (d : Nat → Nat)
    (h : DitherInv L a d) (h4 : L 4 < a) : DitherInv L (a + 1) (store d a 0) := by
  obtain ⟨r0, r1, r2, r3, z⟩ := h
  obtain ⟨l0, l1, l2, l3, _⟩ := hL
  unfold DitherInv
  unfold RampDone at *
  simp only [Nat.reduceAdd] at *
  have keep : ∀ v, v < a → store d a 0 v = d v := by
    intro v hv
    unfold store
    rw [if_neg (by omega)]
  refine ⟨fun _ v c1 c2 => ?_, fun _ v c1 c2 => ?_, fun _ v c1 c2 => ?_, fun _ v c1 c2 => ?_,
    fun v c1 c2 => ?_⟩
  · rw [keep v (by omega)]; exact r0 (by omega) v c1 c2
  · rw [keep v (by omega)]; exact r1 (by omega) v c1 c2
  · rw [keep v (by omega)]; exact r2 (by omega) v c1 c2
  · rw [keep v (by omega)]; exact r3 (by omega) v c1 c2
  · by_cases e : v = a
    · subst e
      unfold store
      rw [if_pos rfl]
    · rw [keep v (by omega)]; exact z v c1 (by omega)

/-- The iteration at `L 1`, `L 2` or `L 3` writes its ramp and keeps the invariant. -/
theorem ditherInv_ramp (L : Nat → Nat) (hL : LumaOK L) (a : Nat) (d : Nat → Nat)
    (h : DitherInv L a d) (j : Nat) (hj : j < 3) (ha : a = L (j + 1)) :
    DitherInv L (a + 1) (dither_ramp L j d) := by
  obtain ⟨r0, r1, r2, r3, z⟩ := h
  obtain ⟨l0, l1, l2, l3, _⟩ := hL
  unfold DitherInv
  unfold RampDone at *
  simp only [Nat.reduceAdd] at r0 r1 r2 r3 ⊢
  have hj' : j = 0 ∨ j = 1 ∨ j = 2 := by omega
  rcases hj' with e | e | e <;> subst e <;> simp only [Nat.reduceAdd] at ha <;> subst ha
  · rw [dither_ramp_eq L 0 d l0]
    simp only [Nat.reduceAdd]
    refine ⟨fun _ v c1 c2 => ?_, fun c => ?_, fun c => ?_, fun c => ?_, fun v c1 c2 => ?_⟩
    · rw [if_pos (by omega)]
    · omega
    · omega
    · omega
    · omega
  · rw [dither_ramp_eq L 1 d l1]
    simp only [Nat.reduceAdd]
    refine ⟨fun _ v c1 c2 => ?_, fun _ v c1 c2 => ?_, fun c => ?_, fun c => ?_,
      fun v c1 c2 => ?_⟩
    · rw [if_neg (by omega)]; exact r0 (by omega) v c1 c2
    · rw [if_pos (by omega)]
    · omega
    · omega
    · omega
  · rw [dither_ramp_eq L 2 d l2]
    simp only [Nat.reduceAdd]
    refine ⟨fun _ v c1 c2 => ?_, fun _ v c1 c2 => ?_, fun _ v c1 c2 => ?_, fun c => ?_,
      fun v c1 c2 => ?_⟩
    · rw [if_neg (by omega)]; exact r0 (by omega) v c1 c2
    · rw [if_neg (by omega)]; exact r1 (by omega) v c1 c2
    · rw [if_pos (by omega)]
    · omega
    · omega

/-- The iteration at `L 4` writes the last ramp, zeroes the entry at `L 4` and keeps the
invariant. -/
theorem ditherInv_top (L : Nat → Nat) (hL : LumaOK L) (a : Nat) (d : Nat → Nat)
    (h : DitherInv L a d) (ha : a = L 4) :
    DitherInv L (a + 1) (store (dither_ramp L 3 d) a 0) := by
  obtain ⟨r0, r1, r2, r3, z⟩ := h
  obtain ⟨l0, l1, l2, l3, _⟩ := hL
  unfold DitherInv
  unfold RampDone at *
  simp only [Nat.reduceAdd] at r0 r1 r2 r3 ⊢
  subst ha
  rw [dither_ramp_eq L 3 d l3]
  simp only [Nat.reduceAdd, store]
  refine ⟨fun _ v c1 c2 => ?_, fun _ v c1 c2 => ?_, fun _ v c1 c2 => ?_, fun _ v c1 c2 => ?_,
    fun v c1 c2 => ?_⟩
  · rw [if_neg (by omega), if_neg (by omega)]; exact r0 (by omega) v c1 c2
  · rw [if_neg (by omega), if_neg (by omega)]; exact r1 (by omega) v c1 c2
  · rw [if_neg (by omega), if_neg (by omega)]; exact r2 (by omega) v c1 c2
  · rw [if_neg (by omega), if_pos (by omega)]
  · rw [if_pos (by omega)]

/-- Every iteration of the table loop keeps the invariant of level and `dither`. -/
theorem table_step_ditherInv (L : Nat → Nat) (hL : LumaOK L) (a : Nat) (st : Nat × Tables)
    (h1 : st.1 = level_below L a) (h2 : DitherInv L a st.2.dither) :
    (table_step L a st).1 = level_below L (a + 1) ∧
    DitherInv L (a + 1) (table_step L a st).2.dither := by
  have hA : Ascending L := ⟨hL.2.1, hL.2.2.1, hL.2.2.2.1⟩
  constructor
  · rw [table_step_fst, h1, level_step L hA a, level_below_succ]
  · rw [table_step_dither, h1]
    obtain ⟨l0, l1, l2, l3, l4⟩ := hL
    have hLok : LumaOK L := ⟨l0, l1, l2, l3, l4⟩
    generalize hk : level_below L a = k
    unfold level_below at hk
    split_ifs at hk <;> subst hk <;> simp only [Nat.reduceAdd] <;> split_ifs
    all_goals first
      | omega
      | exact ditherInv_keep L a _ h2 (by omega) (by omega) (by omega) (by omega)
      | exact ditherInv_zero L hLok a _ h2 (by omega)
      | exact ditherInv_top L hLok a _ h2 (by omega)
      | exact ditherInv_ramp L hLok a _ h2 0 (by omega) (by simp only [Nat.reduceAdd]; omega)
      | exact ditherInv_ramp L hLok a _ h2 1 (by omega) (by simp only [Nat.reduceAdd]; omega)
      | exact ditherInv_ramp L hLok a _ h2 2 (by omega) (by simp only [Nat.reduceAdd]; omega)

/-- The invariant of `dither` holds when the table loop is left. -/
theorem build_tables_dither (L : Nat → Nat) (hL : LumaOK L) (t0 : Tables) :
    DitherInv L 256 (build_tables L t0).dither := by
  unfold build_tables
  have key := forLoop_inv
    (fun a (st : Nat × Tables) => st.1 = level_below L a ∧ DitherInv L a st.2.dither)
    256 (table_step L)
    (fun a st _ h => table_step_ditherInv L hL a st h.1 h.2)
    256 0 (0, t0) (by omega)
    ⟨by unfold level_below; rw [if_pos (Nat.zero_le _)],
     fun c => absurd c (Nat.not_lt_zero _), fun c => absurd c (Nat.not_lt_zero _),
     fun c => absurd c (Nat.not_lt_zero _), fun c => absurd c (Nat.not_lt_zero _),
     fun v _ c => absurd c (Nat.not_lt_zero _)⟩
  exact key.2

/-- A ramp stays below 7 before the upper end of its interval. -/
theorem ramp_le (v lo hi : Nat) (h1 : lo ≤ v) (h2 : v < hi) : (v - lo) * 7 / (hi - lo) ≤ 6 := by
  have hlt : (v - lo) * 7 / (hi - lo) < 7 := by
    apply Nat.div_lt_of_lt_mul
    have : v - lo < hi - lo := by omega
    nlinarith
  omega

/-- The table `dither` after the table loop: the four ramps, zero from `L 4` on, zero at
every reference level, and at most 7 from `L 0` on. -/
theorem dither_table_closed (L : Nat → Nat) (hL : LumaOK L) (t0 : Tables) :
    (∀ i, i < 4 → ∀ v, L i ≤ v → v < L (i + 1) →
      (build_tables L t0).dither v = (v - L i) * 7 / (L (i + 1) - L i)) ∧
    (∀ v, L 4 ≤ v → v ≤ 255 → (build_tables L t0).dither v = 0) ∧
    (∀ i, i ≤ 4 → (build_tables L t0).dither (L i) = 0) ∧
    (∀ v, L 0 ≤ v → v ≤ 255 → (build_tables L t0).dither v ≤ 7) := by
  obtain ⟨r0, r1, r2, r3, z⟩ := build_tables_dither L hL t0
  obtain ⟨l0, l1, l2, l3, l4⟩ := hL
  have ramps : ∀ i, i < 4 → ∀ v, L i ≤ v → v < L (i + 1) →
      (build_tables L t0).dither v = (v - L i) * 7 / (L (i + 1) - L i) := by
    intro i hi
    have hi' : i = 0 ∨ i = 1 ∨ i = 2 ∨ i = 3 := by omega
    rcases hi' with e | e | e | e <;> subst e
    · exact r0 (by omega)
    · exact r1 (by omega)
    · exact r2 (by omega)
    · exact r3 (by omega)
  have zeros : ∀ v, L 4 ≤ v → v ≤ 255 → (build_tables L t0).dither v = 0 :=
    fun v c1 c2 => z v c1 (by omega)
  refine ⟨ramps, zeros, ?_, ?_⟩
  · intro i hi
    have hi' : i = 0 ∨ i = 1 ∨ i = 2 ∨ i = 3 ∨ i = 4 := by omega
    rcases hi' with e | e | e | e | e <;> subst e
    · rw [ramps 0 (by omega) (L 0) (le_refl _) l0, Nat.sub_self, Nat.zero_mul, Nat.zero_div]
    · rw [ramps 1 (by omega) (L 1) (le_refl _) l1, Nat.sub_self, Nat.zero_mul, Nat.zero_div]
    · rw [ramps 2 (by omega) (L 2) (le_refl _) l2, Nat.sub_self, Nat.zero_mul, Nat.zero_div]
    · rw [ramps 3 (by omega) (L 3) (le_refl _) l3, Nat.sub_self, Nat.zero_mul, Nat.zero_div]
    · exact zeros (L 4) (le_refl _) l4
  · intro v hv1 hv2
    by_cases c4 : L 4 ≤ v
    · rw [zeros v c4 hv2]; omega
    · by_cases c3 : L 3 ≤ v
      · rw [ramps 3 (by omega) v c3 (by simp only [Nat.reduceAdd]; omega)]
        have := ramp_le v (L 3) (L (3 + 1)) c3 (by simp only [Nat.reduceAdd]; omega)
        omega
      · by_cases c2 : L 2 ≤ v
        · rw [ramps 2 (by omega) v c2 (by simp only [Nat.reduceAdd]; omega)]
          have := ramp_le v (L 2) (L (2 + 1)) c2 (by simp only [Nat.reduceAdd]; omega)
          omega
        · by_cases c1 : L 1 ≤ v
          · rw [ramps 1 (by omega) v c1 (by simp only [Nat.reduceAdd]; omega)]
            have := ramp_le v (L 1) (L (1 + 1)) c1 (by simp only [Nat.reduceAdd]; omega)
            omega
          · rw [ramps 0 (by omega) v hv1 (by simp only [Nat.reduceAdd]; omega)]
            have := ramp_le v (L 0) (L (0 + 1)) hv1 (by simp only [Nat.reduceAdd]; omega)
            omega

/-! ## The codebook after the character loop -/

/-- The settled value only depends on the 32 slots of the character. -/
theorem settled_congr (L : Nat → Nat) (t : Tables) (m m' : Nat → Int) (b k : Nat)
    (hk : b ≤ k ∧ k < b + 32) (h : ∀ k, b ≤ k → k < b + 32 → m' k = m k) :
    settled L t m' b k = settled L t m b k := by
  unfold settled
  rw [highdiff_of_congr L t m m' b h, lowdiff_of_congr L t m m' b h, h k hk.1 hk.2]

/-- Whenever the character loop returns, every slot of every character it handled holds
the settled value of the codebook it found. -/
theorem char_loop_settled (pat : Nat → Nat → Nat → Nat) (L : Nat → Nat) (t : Tables)
    (hT : TableOK L t) (hL1 : L 1 ≤ 255) :
    ∀ (fuel charpos : Nat) (s r : RenderState),
      (∀ k, s.best_cb ≤ k → k < s.best_cb + 32 * (256 - charpos) → InRange (s.mem_cb k)) →
      char_loop pat L t fuel charpos s = some r →
      ∀ d, charpos + d < 256 → ∀ k, s.best_cb + 32 * d ≤ k → k < s.best_cb + 32 * d + 32 →
        r.mem_cb k = settled L t s.mem_cb (s.best_cb + 32 * d) k := by
  intro fuel
  induction fuel with
  | zero =>
    intro charpos s r _ h d hd
    rw [char_loop_zero, if_pos (by omega)] at h
    cases h
  | succ fuel ih =>
    intro charpos s r hin h d hd k hk1 hk2
    have hc : charpos < 256 := by omega
    rw [char_loop_succ pat L t fuel charpos s hc] at h
    by_cases hadj : highdiff_of L t s.mem_cb s.best_cb > 0 ∧ lowdiff_of L t s.mem_cb s.best_cb > 0
    · rw [if_pos hadj] at h
      by_cases hlow : lowdiff_of L t s.mem_cb s.best_cb > highdiff_of L t s.mem_cb s.best_cb
      · simp only [if_pos hlow] at h
        have hin' : ∀ k, s.best_cb ≤ k → k < s.best_cb + 32 * (256 - charpos) →
            InRange (clamp_high L s.best_cb s.mem_cb k) :=
          fun k c1 c2 => clamp_high_inRange L s.best_cb s.mem_cb k (hin k c1 c2)
        have hr := ih charpos _ r hin' h d hd k hk1 hk2
        simp only at hr
        rw [hr]
        by_cases hd0 : d = 0
        · subst hd0
          simp only [Nat.mul_zero, Nat.add_zero] at hk1 hk2 ⊢
          have hh := highdiff_clamp_high L t hT s.best_cb s.mem_cb
            (fun k c1 c2 => hin k c1 (by omega))
          unfold settled
          rw [if_neg (fun c => hh c.1), if_pos hadj, if_pos hlow, clamp_high_eq]
          simp only [FFMIN_int]
          rw [if_pos ⟨hk1, hk2⟩]
        · rw [settled_congr L t s.mem_cb (clamp_high L s.best_cb s.mem_cb) _ k ⟨hk1, hk2⟩]
          intro k' c1 c2
          rw [clamp_high_eq]
          simp only
          rw [if_neg (by omega)]
      · simp only [if_neg hlow] at h
        have hin' : ∀ k, s.best_cb ≤ k → k < s.best_cb + 32 * (256 - charpos) →
            InRange (clamp_low L s.best_cb s.mem_cb k) :=
          fun k c1 c2 => clamp_low_inRange L hL1 s.best_cb s.mem_cb k (hin k c1 c2)
        have hr := ih charpos _ r hin' h d hd k hk1 hk2
        simp only at hr
        rw [hr]
        by_cases hd0 : d = 0
        · subst hd0
          simp only [Nat.mul_zero, Nat.add_zero] at hk1 hk2 ⊢
          have hh := lowdiff_clamp_low L t hT hL1 s.best_cb s.mem_cb
            (fun k c1 c2 => hin k c1 (by omega))
          unfold settled
          rw [if_neg (fun c => hh c.2), if_pos hadj, if_neg hlow, clamp_low_eq]
          simp only [FFMAX_int]
          rw [if_pos ⟨hk1, hk2⟩]
        · rw [settled_congr L t s.mem_cb (clamp_low L s.best_cb s.mem_cb) _ k ⟨hk1, hk2⟩]
          intro k' c1 c2
          rw [clamp_low_eq]
          simp only
          rw [if_neg (by omega)]
    · rw [if_neg hadj] at h
      by_cases hd0 : d = 0
      · subst hd0
        simp only [Nat.mul_zero, Nat.add_zero] at hk1 hk2 ⊢
        have hpost := char_loop_post pat L t fuel (charpos + 1) _ r h
        have hfr := hpost.2.2.1 k (Or.inl (by simp only; omega))
        simp only at hfr
        rw [hfr]
        unfold settled
        rw [if_neg hadj]
      · obtain ⟨d', rfl⟩ : ∃ d', d = d' + 1 := ⟨d - 1, by omega⟩
        have hin' : ∀ k, s.best_cb + 32 ≤ k →
            k < s.best_cb + 32 + 32 * (256 - (charpos + 1)) → InRange (s.mem_cb k) :=
          fun k c1 c2 => hin k (by omega) (by omega)
        have hr := ih (charpos + 1) _ r hin' h d' (by omega) k (by simp only; omega)
          (by simp only; omega)
        simp only at hr
        rw [hr]
        congr 1
        omega

/-- On sample values the sum `highdiff` of a pass is the sum of the specification. -/
theorem highdiff_of_eq_sum (L : Nat → Nat) (t : Tables) (hT : TableOK L t) (m : Nat → Int)
    (b : Nat) (hm : ∀ k, k < 32 → InRange (m (b + k))) :
    highdiff_of L t m b = high_sum L (fun k => m (b + k)) := by
  unfold highdiff_of high_sum
  apply Finset.sum_congr rfl
  intro k hk
  have hk' : k < 32 := Finset.mem_range.mp hk
  have hp := cb_pix_lt m (b + k)
  have hc := cb_pix_of_inRange m (b + k) (hm k hk')
  have ht := hT (cb_pix m (b + k)) hp
  unfold high_term
  simp only
  split_ifs with c1 c2 c2
  · omega
  · exfalso
    have := ht.1.mp c1
    omega
  · exfalso
    apply c1
    apply ht.1.mpr
    omega
  · rfl

/-- On sample values the sum `lowdiff` of a pass is the sum of the specification. -/
theorem lowdiff_of_eq_sum (L : Nat → Nat) (t : Tables) (hT : TableOK L t) (m : Nat → Int)
    (b : Nat) (hm : ∀ k, k < 32 → InRange (m (b + k))) :
    lowdiff_of L t m b = low_sum L (fun k => m (b + k)) := by
  unfold lowdiff_of low_sum
  apply Finset.sum_congr rfl
  intro k hk
  have hk' : k < 32 := Finset.mem_range.mp hk
  have hp := cb_pix_lt m (b + k)
  have hc := cb_pix_of_inRange m (b + k) (hm k hk')
  have ht := hT (cb_pix m (b + k)) hp
  unfold low_term
  simp only
  split_ifs with c1 c2 c2
  · omega
  · exfalso
    have := ht.2.mp c1
    omega
  · exfalso
    apply c1
    apply ht.2.mpr
    omega
  · rfl

/-- Whenever `render_charset` returns, the codebook holds the settled values in the 256
characters and is unchanged behind them. -/
theorem render_charset_settled (pat : Nat → Nat → Nat → Nat) (L : Nat → Nat) (t0 : Tables)
    (mem_cb : Nat → Int) (mem_cs : Nat → Nat) (charset : Nat) (colrammap : Nat → Nat)
    (fuel : Nat) (r : Tables × RenderState) (hL : Ascending L) (hL1 : L 1 ≤ 255)
    (hcb : ∀ k, k < 256 * 32 → InRange (mem_cb k))
    (h : render_charset pat L fuel t0 mem_cb mem_cs charset colrammap = some r) :
    (∀ c, c < 256 → ∀ k, k < 32 →
      r.2.mem_cb (32 * c + k) = settled L (build_tables L t0) mem_cb (32 * c) (32 * c + k)) ∧
    (∀ k, 256 * 32 ≤ k → r.2.mem_cb k = mem_cb k) := by
  have hpost := (render_charset_post pat L t0 mem_cb mem_cs charset colrammap fuel r h).2
  unfold render_charset at h
  simp only [Option.map_eq_some'] at h
  obtain ⟨s, hs, hr⟩ := h
  subst hr
  constructor
  · intro c hc k hk
    have := char_loop_settled pat L (build_tables L t0) (build_tables_ok L hL t0) hL1 fuel 0 _ s
      (fun k _ c2 => hcb k (by simpa using c2)) hs c (by omega) (32 * c + k)
      (by simp only; omega) (by simp only; omega)
    simp only [Nat.zero_add] at this
    exact this
  · intro k hk
    have := hpost.2.2.1 k (Or.inr (by simp only; omega))
    simp only at this
    exact this

/-! ## The levels selected for the pixels -/

/-- The 2-bit code of a pixel is `3 - (level mod 4)` of the level selected for it. -/
theorem pixel_code_eq_level (pat : Nat → Nat → Nat → Nat) (t : Tables) (y x pix : Nat) :
    pixel_code pat t y x pix = 3 - (selected_level pat t y x pix % 4) := by
  unfold pixel_code selected_level
  rw [land_three, land_three]
  split_ifs <;> rfl

/-- If the pattern of dither level 0 has no entry set, level 4 is only selected for values
above `L 3`. -/
theorem selected_level_four (pat : Nat → Nat → Nat → Nat) (hpat : ∀ y x, pat 0 y x = 0)
    (L : Nat → Nat) (hL : LumaOK L) (t0 : Tables) (y x pix : Nat) (hp : pix < 256)
    (h : selected_level pat (build_tables L t0) y x pix = 4) : L 3 < pix := by
  have hd := (dither_table_closed L hL t0).2.2.1 3 (by omega)
  obtain ⟨l0, l1, l2, l3, l4⟩ := hL
  obtain ⟨e1, e2⟩ := build_tables_index L ⟨l1, l2, l3⟩ t0 pix hp
  unfold selected_level at h
  by_cases c : pat ((build_tables L t0).dither pix) (y &&& 3) (x &&& 3) ≠ 0
  · rw [if_pos c, e2] at h
    have hne : pix ≠ L 3 := by
      intro e
      apply c
      rw [e, hd]
      exact hpat _ _
    unfold level_of at h
    split_ifs at h <;> omega
  · rw [if_neg c, e1] at h
    unfold level_of at h
    split_ifs at h <;> omega

/-- Level 0 is only selected for values below `L 1`. -/
theorem selected_level_zero (pat : Nat → Nat → Nat → Nat) (L : Nat → Nat) (hL : Ascending L)
    (t0 : Tables) (y x pix : Nat) (hp : pix < 256)
    (h : selected_level pat (build_tables L t0) y x pix = 0) : pix < L 1 := by
  obtain ⟨e1, e2⟩ := build_tables_index L hL t0 pix hp
  unfold selected_level at h
  by_cases c : pat ((build_tables L t0).dither pix) (y &&& 3) (x &&& 3) ≠ 0
  · rw [if_pos c, e2] at h
    omega
  · rw [if_neg c, e1] at h
    unfold level_of at h
    split_ifs at h
    omega

/-- A value of at least `L 4` selects level 4 whatever the dither pattern. -/
theorem selected_level_top (pat : Nat → Nat → Nat → Nat) (L : Nat → Nat) (hL : Ascending L)
    (t0 : Tables) (y x pix : Nat) (hp : pix < 256) (h4 : L 4 ≤ pix) :
    selected_level pat (build_tables L t0) y x pix = 4 := by
  obtain ⟨e1, e2⟩ := build_tables_index L hL t0 pix hp
  obtain ⟨l1, l2, l3⟩ := hL
  have e : level_of L pix = 4 := by
    unfold level_of
    split_ifs <;> omega
  unfold selected_level
  rw [e1, e2, e]
  split_ifs <;> rfl

/-- The all-white quantizer yields sample values. -/
theorem white_q_ok : ElbgOK white_q := by
  intro points dim numpoints cb numCB steps closest rand k _
  show (0 : Int) ≤ 255 ∧ (255 : Int) ≤ 255
  decide

/-- A character with no value below `L 1` is left as it is. -/
theorem settled_of_no_low (L : Nat → Nat) (t : Tables) (hT : TableOK L t) (m : Nat → Int)
    (b k : Nat) (h : ∀ i, i < 32 → ¬ cb_pix m (b + i) < L 1) : settled L t m b k = m k := by
  unfold settled
  rw [if_neg]
  rintro ⟨_, hlow⟩
  obtain ⟨i, hi, hlt⟩ := (lowdiff_pos_iff L t hT m b).mp hlow
  exact h i hi hlt

/-- What a call that returned a positive value leaves of the rendering: the tables and
the codebook `render_charset` returned, and below offset `0x800` the charset it wrote. -/
theorem encode_payload_charset (q : Elbg) (pat : Nat → Nat → Nat → Nat) (fuel : Nat)
    (avctx : AVCodecContext) (st : EncState) (buf : Nat → Nat) (buf_size : Nat)
    (data : Option AVFrame) (res : EncodeResult)
    (h : a64multi_encode_frame q pat fuel avctx st buf buf_size data = some res)
    (hpos : 0 < res.ret) :
    ∃ r, render_charset pat st.c.mc_luma_vals fuel st.lut (quantize q (flushed st.c data)).1
        buf 0 (fun _ => 0) = some r ∧
      res.st.lut = r.1 ∧ res.st.c.mc_best_cb = r.2.mem_cb ∧ res.colrammap = r.2.colrammap ∧
      res.st.c.mc_use_5col = st.c.mc_use_5col ∧
      (∀ j, j < 0x800 → res.buf j = r.2.mem_cs j) := by
  obtain ⟨_, _, _, r, hr, he⟩ := encode_payload_inv q pat fuel avctx st buf buf_size data res
    h hpos
  have hp := pack_frames st.c.mc_use_5col r.2.colrammap (quantize q (flushed st.c data)).2.1
    r.2.mem_cs (flushed st.c data).mc_lifetime
  subst he
  refine ⟨r, hr, rfl, rfl, rfl, (flushed_fields st.c data).2.1, ?_⟩
  intro j hj
  exact hp.2.2 j (fun i a _ _ => by omega) (fun _ i a _ _ => by omega)

/-- A character whose values are all at least `L 4` is left as it is, every pixel of it
selects level 4, and every row byte of it is `0xFF` (four times the code 3). -/
theorem render_charset_top_char (pat : Nat → Nat → Nat → Nat) (L : Nat → Nat) (t0 : Tables)
    (mem_cb : Nat → Int) (mem_cs : Nat → Nat) (charset : Nat) (colrammap : Nat → Nat)
    (fuel : Nat) (r : Tables × RenderState) (hL : LumaOK L)
    (hcb : ∀ k, k < 256 * 32 → InRange (mem_cb k))
    (h : render_charset pat L fuel t0 mem_cb mem_cs charset colrammap = some r)
    (c : Nat) (hc : c < 256) (hw : ∀ k, k < 32 → (L 4 : Int) ≤ mem_cb (32 * c + k)) :
    (∀ k, k < 32 → r.2.mem_cb (32 * c + k) = mem_cb (32 * c + k)) ∧
    (∀ y x, y < 8 → x < 4 →
      selected_level pat r.1 y x (cb_pix r.2.mem_cb (32 * c + (y * 4 + x))) = 4) ∧
    (∀ y, y < 8 → r.2.mem_cs (charset + 8 * c + y) = 255) := by
  obtain ⟨l0, l1, l2, l3, l4⟩ := hL
  have hA : Ascending L := ⟨l1, l2, l3⟩
  have hT := build_tables_ok L hA t0
  obtain ⟨ht, hpost⟩ := render_charset_post pat L t0 mem_cb mem_cs charset colrammap fuel r h
  obtain ⟨hset, _⟩ := render_charset_settled pat L t0 mem_cb mem_cs charset colrammap fuel r hA
    (by omega) hcb h
  have hkeep : ∀ k, k < 32 → r.2.mem_cb (32 * c + k) = mem_cb (32 * c + k) := by
    intro k hk
    rw [hset c hc k hk]
    apply settled_of_no_low L _ hT
    intro i hi hlt
    have h1 := cb_pix_of_inRange mem_cb (32 * c + i) (hcb _ (by omega))
    have h2 := hw i hi
    omega
  have hpix : ∀ k, k < 32 → L 4 ≤ cb_pix r.2.mem_cb (32 * c + k) := by
    intro k hk
    have h0 := hcb (32 * c + k) (by omega)
    rw [← hkeep k hk] at h0
    have h1 := cb_pix_of_inRange r.2.mem_cb (32 * c + k) h0
    have h2 := hw k hk
    rw [← hkeep k hk] at h2
    omega
  refine ⟨hkeep, ?_, ?_⟩
  · intro y x hy hx
    rw [ht]
    exact selected_level_top pat L hA t0 y x _ (cb_pix_lt _ _) (hpix _ (by omega))
  · intro y hy
    have hb := (hpost.1 c (by omega)).2.1 y hy
    simp only [Nat.zero_add] at hb
    rw [hb]
    have hcode : ∀ x k, k < 32 →
        pixel_code pat (build_tables L t0) y x (cb_pix r.2.mem_cb (32 * c + k)) = 3 := by
      intro x k hk
      rw [pixel_code_eq_level, selected_level_top pat L hA t0 y x _ (cb_pix_lt _ _) (hpix k hk)]
    unfold row_byte
    rw [hcode 0 _ (by omega), hcode 1 _ (by omega), hcode 2 _ (by omega), hcode 3 _ (by omega)]

/-! ## The claims -/

/-- Claim C1.  For every codebook of 256 x 32 values in [0,255] and every strictly
ascending reference `L 0 < L 1 < L 2 < L 3 < L 4 <= 255`, `render_charset` returns when
its character loop is granted 512 passes (or more): it executes at most 512 passes,
no character is passed over more than twice (it is re-processed at most once), and
on return no character has both `highdiff > 0` and `lowdiff > 0`, as the pass computes
them on its final vector; equivalently no final vector holds both a value greater
than `L 3` and a value smaller than `L 1`. -/
theorem render_charset_terminates (pat : Nat → Nat → Nat → Nat) (L : Nat → Nat) (t0 : Tables)
    (mem_cb : Nat → Int) (mem_cs : Nat → Nat) (charset : Nat) (colrammap : Nat → Nat)
    (fuel : Nat)
    (hL : L 0 < L 1 ∧ L 1 < L 2 ∧ L 2 < L 3 ∧ L 3 < L 4 ∧ L 4 ≤ 255)
    (hcb : ∀ k, k < 256 * 32 → 0 ≤ mem_cb k ∧ mem_cb k ≤ 255)
    (hfuel : 512 ≤ fuel) :
    ∃ r, render_charset pat L fuel t0 mem_cb mem_cs charset colrammap = some r ∧
      r.2.passes.length ≤ 512 ∧ (∀ c, r.2.passes.count c ≤ 2) ∧
      ∀ c, c < 256 →
        ¬ ((char_pass pat L r.1 r.2.mem_cb (32 * c) mem_cs charset).2.1 > 0 ∧
           (char_pass pat L r.1 r.2.mem_cb (32 * c) mem_cs charset).1 > 0) ∧
        ¬ ((∃ k, k < 32 ∧ r.2.mem_cb (32 * c + k) > (L 3 : Int)) ∧
           (∃ k, k < 32 ∧ r.2.mem_cb (32 * c + k) < (L 1 : Int))) := by
  obtain ⟨h01, h12, h23, h34, h4⟩ := hL
  have hA : Ascending L := ⟨h12, h23, h34⟩
  obtain ⟨r, hr, ht, hlen, hcnt, hrange⟩ :=
    render_charset_run pat L t0 mem_cb mem_cs charset colrammap fuel hA (by omega) hcb hfuel
  obtain ⟨_, hpost⟩ := render_charset_post pat L t0 mem_cb mem_cs charset colrammap fuel r hr
  refine ⟨r, hr, hlen, hcnt, ?_⟩
  intro c hc
  have hconv := (hpost.1 c (by omega)).1
  simp only [Nat.zero_add] at hconv
  have hT := build_tables_ok L hA t0
  constructor
  · rw [char_pass_eq, ht]
    exact hconv
  · rintro ⟨⟨k, hk, hhi⟩, ⟨k', hk', hlo⟩⟩
    apply hconv
    constructor
    · refine (highdiff_pos_iff L _ hT _ _).mpr ⟨k, hk, ?_⟩
      have := cb_pix_of_inRange r.2.mem_cb (32 * c + k) (hrange _ (by omega))
      omega
    · refine (lowdiff_pos_iff L _ hT _ _).mpr ⟨k', hk', ?_⟩
      have := cb_pix_of_inRange r.2.mem_cb (32 * c + k') (hrange _ (by omega))
      omega

/-- Claim C1, at the sample reference levels and the sample codebook. -/
theorem render_charset_terminates_witness :
    (sample_luma 0 < sample_luma 1 ∧ sample_luma 1 < sample_luma 2 ∧
      sample_luma 2 < sample_luma 3 ∧ sample_luma 3 < sample_luma 4 ∧ sample_luma 4 ≤ 255) ∧
    (∀ k, k < 256 * 32 → 0 ≤ sample_cb k ∧ sample_cb k ≤ 255) ∧
    ∃ r, render_charset sample_pat sample_luma 512 zero_tables sample_cb (fun _ => 0) 0
        (fun _ => 0) = some r ∧
      r.2.passes.length ≤ 512 ∧ (∀ c, r.2.passes.count c ≤ 2) ∧
      ∀ c, c < 256 →
        ¬ ((char_pass sample_pat sample_luma r.1 r.2.mem_cb (32 * c) (fun _ => 0) 0).2.1 > 0 ∧
           (char_pass sample_pat sample_luma r.1 r.2.mem_cb (32 * c) (fun _ => 0) 0).1 > 0) ∧
        ¬ ((∃ k, k < 32 ∧ r.2.mem_cb (32 * c + k) > (sample_luma 3 : Int)) ∧
           (∃ k, k < 32 ∧ r.2.mem_cb (32 * c + k) < (sample_luma 1 : Int))) :=
  ⟨by decide, sample_cb_inRange,
   render_charset_terminates sample_pat sample_luma zero_tables sample_cb (fun _ => 0) 0
     (fun _ => 0) 512 (by decide) sample_cb_inRange (le_refl 512)⟩

/-- Claim C2.  For every codebook of 256 x 32 values in [0,255] and ascending reference
levels, `render_charset` returns (given 512 passes) with the tables `build_tables` made
in this call and a codebook of values in [0,255], and for every character `c < 256` and
row `y < 8` the byte at offset `8 * c + y` behind `charset` (an offset below `0x800`) is
`code 0 * 64 + code 1 * 16 + code 2 * 4 + code 3`, where `code x` is `pixel_code` of the
value in slot `32 * c + 4 * y + x` of the final codebook: `3 - index2 % 4` if the dither
pattern entry `[dither][y % 4][x % 4]` is set and `3 - index1 % 4` otherwise.  In the
encoder these are the payload bytes below `0x800`: after every call of
`a64multi_encode_frame` that returns a positive value, byte `8 * c + y` of the output
buffer is that packing for the codebook and the tables the call leaves in the state. -/
theorem render_charset_row_bytes (pat : Nat → Nat → Nat → Nat) (L : Nat → Nat) (t0 : Tables)
    (mem_cb : Nat → Int) (mem_cs : Nat → Nat) (charset : Nat) (colrammap : Nat → Nat)
    (fuel : Nat)
    (hL : L 0 < L 1 ∧ L 1 < L 2 ∧ L 2 < L 3 ∧ L 3 < L 4 ∧ L 4 ≤ 255)
    (hcb : ∀ k, k < 256 * 32 → 0 ≤ mem_cb k ∧ mem_cb k ≤ 255)
    (hfuel : 512 ≤ fuel) :
    (∃ r, render_charset pat L fuel t0 mem_cb mem_cs charset colrammap = some r ∧
      r.1 = build_tables L t0 ∧
      (∀ k, k < 256 * 32 → ((cb_pix r.2.mem_cb k : Nat) : Int) = r.2.mem_cb k) ∧
      ∀ c y, c < 256 → y < 8 →
        8 * c + y < 0x800 ∧
        r.2.mem_cs (charset + (8 * c + y)) =
          pixel_code pat r.1 y 0 (cb_pix r.2.mem_cb (32 * c + 4 * y + 0)) * 64 +
          pixel_code pat r.1 y 1 (cb_pix r.2.mem_cb (32 * c + 4 * y + 1)) * 16 +
          pixel_code pat r.1 y 2 (cb_pix r.2.mem_cb (32 * c + 4 * y + 2)) * 4 +
          pixel_code pat r.1 y 3 (cb_pix r.2.mem_cb (32 * c + 4 * y + 3))) ∧
    (∀ (q : Elbg) (avctx : AVCodecContext) (st : EncState) (buf : Nat → Nat) (buf_size : Nat)
        (data : Option AVFrame) (res : EncodeResult),
      a64multi_encode_frame q pat fuel avctx st buf buf_size data = some res → 0 < res.ret →
      ∀ c y, c < 256 → y < 8 →
        res.buf (8 * c + y) =
          pixel_code pat res.st.lut y 0 (cb_pix res.st.c.mc_best_cb (32 * c + 4 * y + 0)) * 64 +
          pixel_code pat res.st.lut y 1 (cb_pix res.st.c.mc_best_cb (32 * c + 4 * y + 1)) * 16 +
          pixel_code pat res.st.lut y 2 (cb_pix res.st.c.mc_best_cb (32 * c + 4 * y + 2)) * 4 +
          pixel_code pat res.st.lut y 3 (cb_pix res.st.c.mc_best_cb (32 * c + 4 * y + 3))) := by
  have hbytes : ∀ (t0 : Tables) (L : Nat → Nat) (mem_cb : Nat → Int) (mem_cs : Nat → Nat)
      (charset : Nat) (colrammap : Nat → Nat) (r : Tables × RenderState),
      render_charset pat L fuel t0 mem_cb mem_cs charset colrammap = some r →
      ∀ c y, c < 256 → y < 8 →
        r.2.mem_cs (charset + (8 * c + y)) =
          pixel_code pat r.1 y 0 (cb_pix r.2.mem_cb (32 * c + 4 * y + 0)) * 64 +
          pixel_code pat r.1 y 1 (cb_pix r.2.mem_cb (32 * c + 4 * y + 1)) * 16 +
          pixel_code pat r.1 y 2 (cb_pix r.2.mem_cb (32 * c + 4 * y + 2)) * 4 +
          pixel_code pat r.1 y 3 (cb_pix r.2.mem_cb (32 * c + 4 * y + 3)) := by
    intro t0 L mem_cb mem_cs charset colrammap r h c y hc hy
    obtain ⟨ht, hpost⟩ := render_charset_post pat L t0 mem_cb mem_cs charset colrammap fuel r h
    have hb := (hpost.1 c (by omega)).2.1 y hy
    simp only [Nat.zero_add] at hb
    rw [← Nat.add_assoc, hb, ht]
    unfold row_byte
    simp only [Nat.add_assoc]
  constructor
  · obtain ⟨h01, h12, h23, h34, h4⟩ := hL
    obtain ⟨r, hr, ht, _, _, hrange⟩ :=
      render_charset_run pat L t0 mem_cb mem_cs charset colrammap fuel ⟨h12, h23, h34⟩
        (by omega) hcb hfuel
    refine ⟨r, hr, ht, fun k hk => cb_pix_of_inRange r.2.mem_cb k (hrange k hk), ?_⟩
    intro c y hc hy
    exact ⟨by omega, hbytes t0 L mem_cb mem_cs charset colrammap r hr c y hc hy⟩
  · intro q avctx st buf buf_size data res h hpos c y hc hy
    obtain ⟨r, hr, hlut, hbest, _, _, hbuf⟩ := encode_payload_charset q pat fuel avctx st buf
      buf_size data res h hpos
    have := hbytes _ _ _ _ _ _ r hr c y hc hy
    rw [Nat.zero_add] at this
    rw [hbuf _ (by omega), hlut, hbest]
    exact this

/-- Claim C2, at the sample reference levels and the sample codebook. -/
theorem render_charset_row_bytes_witness :
    (sample_luma 0 < sample_luma 1 ∧ sample_luma 1 < sample_luma 2 ∧
      sample_luma 2 < sample_luma 3 ∧ sample_luma 3 < sample_luma 4 ∧ sample_luma 4 ≤ 255) ∧
    (∀ k, k < 256 * 32 → 0 ≤ sample_cb k ∧ sample_cb k ≤ 255) ∧
    (∃ r, render_charset sample_pat sample_luma 512 zero_tables sample_cb (fun _ => 0) 0
        (fun _ => 0) = some r ∧
      r.1 = build_tables sample_luma zero_tables ∧
      (∀ k, k < 256 * 32 → ((cb_pix r.2.mem_cb k : Nat) : Int) = r.2.mem_cb k) ∧
      ∀ c y, c < 256 → y < 8 →
        8 * c + y < 0x800 ∧
        r.2.mem_cs (0 + (8 * c + y)) =
          pixel_code sample_pat r.1 y 0 (cb_pix r.2.mem_cb (32 * c + 4 * y + 0)) * 64 +
          pixel_code sample_pat r.1 y 1 (cb_pix r.2.mem_cb (32 * c + 4 * y + 1)) * 16 +
          pixel_code sample_pat r.1 y 2 (cb_pix r.2.mem_cb (32 * c + 4 * y + 2)) * 4 +
          pixel_code sample_pat r.1 y 3 (cb_pix r.2.mem_cb (32 * c + 4 * y + 3))) :=
  ⟨by decide, sample_cb_inRange,
   (render_charset_row_bytes sample_pat sample_luma zero_tables sample_cb (fun _ => 0) 0
     (fun _ => 0) 512 (by decide) sample_cb_inRange (le_refl 512)).1⟩

/-- Claim C3.  For a frame at least 200 lines high and of any width, for every cell
`(cx, cy)` of the 40 x 25 grid, line `r < 8` and column pair `j < 4`, with
`x = 8 * cx + 2 * j` and `y = 8 * cy + r`: if `x` is below the width and the canvas width,
slot `(cy * 40 + cx) * 32 + r * 4 + j` behind `dest` holds the truncated mean of the two
bytes the plane `data[0]` holds at `x + y * linesize[0]` and `x + 1 + y * linesize[0]`
(a plane entry is read as a `uint8_t`, that is modulo 256, and is the entry itself when
it is a byte), a value of at most 255; otherwise the slot keeps the value it had. -/
theorem to_meta_with_crop_full_frame (avctx : AVCodecContext) (p : AVFrame)
    (mem : Nat → Int) (dest : Nat) (hh : 200 ≤ avctx.height)
    (cx cy r j : Nat) (hcx : cx < 40) (hcy : cy < 25) (hr : r < 8) (hj : j < 4) :
    (p.data0 (8 * cx + 2 * j + (8 * cy + r) * p.linesize0) % 256 +
      p.data0 (8 * cx + 2 * j + 1 + (8 * cy + r) * p.linesize0) % 256) / 2 ≤ 255 ∧
    to_meta_with_crop avctx p mem dest (dest + ((cy * 40 + cx) * 32 + r * 4 + j)) =
      (if 8 * cx + 2 * j < min avctx.width C64XRES then
        (((p.data0 (8 * cx + 2 * j + (8 * cy + r) * p.linesize0) % 256 +
           p.data0 (8 * cx + 2 * j + 1 + (8 * cy + r) * p.linesize0) % 256) / 2 : Nat) : Int)
      else mem (dest + ((cy * 40 + cx) * 32 + r * 4 + j))) ∧
    (p.data0 (8 * cx + 2 * j + (8 * cy + r) * p.linesize0) ≤ 255 →
      p.data0 (8 * cx + 2 * j + 1 + (8 * cy + r) * p.linesize0) ≤ 255 →
      8 * cx + 2 * j < min avctx.width C64XRES →
      to_meta_with_crop avctx p mem dest (dest + ((cy * 40 + cx) * 32 + r * 4 + j)) =
        (((p.data0 (8 * cx + 2 * j + (8 * cy + r) * p.linesize0) +
           p.data0 (8 * cx + 2 * j + 1 + (8 * cy + r) * p.linesize0)) / 2 : Nat) : Int)) := by
  have hmain : to_meta_with_crop avctx p mem dest (dest + ((cy * 40 + cx) * 32 + r * 4 + j)) =
      (if 8 * cx + 2 * j < min avctx.width C64XRES then
        (((p.data0 (8 * cx + 2 * j + (8 * cy + r) * p.linesize0) % 256 +
           p.data0 (8 * cx + 2 * j + 1 + (8 * cy + r) * p.linesize0) % 256) / 2 : Nat) : Int)
      else mem (dest + ((cy * 40 + cx) * 32 + r * 4 + j))) := by
    unfold to_meta_with_crop
    rw [to_meta_loops_writes avctx p hh dest mem]
    have hin : dest ≤ dest + ((cy * 40 + cx) * 32 + r * 4 + j) ∧
        dest + ((cy * 40 + cx) * 32 + r * 4 + j) < dest + 32000 := by omega
    have hy : 0 + (dest + ((cy * 40 + cx) * 32 + r * 4 + j) - dest) / 1280 * 8 +
        (dest + ((cy * 40 + cx) * 32 + r * 4 + j) - dest) % 1280 % 32 / 4 * 1 = 8 * cy + r := by
      omega
    have hx : 0 + (dest + ((cy * 40 + cx) * 32 + r * 4 + j) - dest) % 1280 / 32 * 8 +
        (dest + ((cy * 40 + cx) * 32 + r * 4 + j) - dest) % 1280 % 32 % 4 / 1 * 2
          = 8 * cx + 2 * j := by
      omega
    simp only [hin, and_self, if_true, hy, hx]
    unfold sample_value px
    rw [FFMIN_eq_min]
    split <;> rfl
  refine ⟨by omega, hmain, ?_⟩
  intro h1 h2 hx
  rw [hmain, if_pos hx, Nat.mod_eq_of_lt (by omega), Nat.mod_eq_of_lt (by omega)]

/-- Claim C3, at cell (1, 2), line 3, column pair 1 of a 320 x 200 frame whose plane
holds `i mod 256` at index `i`: the two bytes read are 202 and 203, the slot holds 202. -/
theorem to_meta_with_crop_full_frame_witness :
    200 ≤ (⟨320, 200⟩ : AVCodecContext).height ∧
    to_meta_with_crop ⟨320, 200⟩ ⟨fun i => i % 256, 320, 0, 0⟩ (fun _ => 0) 0
        (0 + ((2 * 40 + 1) * 32 + 3 * 4 + 1)) =
      ((((8 * 1 + 2 * 1 + (8 * 2 + 3) * 320) % 256 +
         (8 * 1 + 2 * 1 + 1 + (8 * 2 + 3) * 320) % 256) / 2 : Nat) : Int) ∧
    to_meta_with_crop ⟨320, 200⟩ ⟨fun i => i % 256, 320, 0, 0⟩ (fun _ => 0) 0
        (0 + ((2 * 40 + 1) * 32 + 3 * 4 + 1)) = 202 :=
  ⟨by decide,
   (to_meta_with_crop_full_frame ⟨320, 200⟩ ⟨fun i => i % 256, 320, 0, 0⟩ (fun _ => 0) 0
      (by decide) 1 2 3 1 (by decide) (by decide) (by decide) (by decide)).2.2
      (by decide) (by decide) (by decide),
   by
    have h := (to_meta_with_crop_full_frame ⟨320, 200⟩ ⟨fun i => i % 256, 320, 0, 0⟩
      (fun _ => 0) 0 (by decide) 1 2 3 1 (by decide) (by decide) (by decide) (by decide)).2.2
      (by decide) (by decide) (by decide)
    rw [h]
    decide⟩

/-- Claim C4, the code at a frame 4 lines high (`bar_frame`, zeroed destination).
The only non-zero sample, that of cell 1, line 0, column pair 0, belongs to slot
`32 * 1 + 4 * 0 + 0 = 32` in the fixed layout; the code stores it in slot 16, which
in that layout belongs to line 4 of cell 0, outside the frame, and slot 32 receives
the sample of cell 2. -/
theorem to_meta_with_crop_four_lines :
    to_meta_with_crop ⟨320, 4⟩ bar_frame (fun _ => 0) 0 16 = 200 ∧
    to_meta_with_crop ⟨320, 4⟩ bar_frame (fun _ => 0) 0 32 = 0 := by
  have h := to_meta_with_crop_four_lines_slots bar_frame (fun _ => 0) 0
  rw [Nat.zero_add, Nat.zero_add] at h
  rw [h.1, h.2]
  decide

/-- Claim C5 fails: with lifetime 2 and a buffer of the required size 4096, the
second of two submitted frames, the one that makes the frame counter reach the
lifetime, returns 0 and not the payload size `0x800 + 2 * 0x400`, and the frame
counter is 2 afterwards, not 0. -/
theorem lifetime_th_frame_returns_zero :
    ∃ st1 buf1,
      encode_all sample_q sample_pat 512 ⟨320, 200⟩ 4096
        [some sample_frame, some sample_frame] (sample_state 2 0 false) (fun _ => 0)
        = some ([0, 0], st1, buf1) ∧
      st1.c.mc_frame_counter = 2 ∧ (0 : Int) ≠ 0x800 + 2 * 0x400 := by
  obtain ⟨st1, h1, h2, _⟩ := encode_all_frames sample_q sample_pat 512 ⟨320, 200⟩ 4096
    (fun _ => 0) [sample_frame, sample_frame] (sample_state 2 0 false) (by decide) (by decide)
  exact ⟨st1, _, h1, h2, by decide⟩

/-- Claim C5 as amended.  Starting from frame counter 0 with lifetime `L >= 1`, a
well-formed quantizer and reference, and a buffer of at least the required size, each
of the `L` submitted frames returns 0 and the frame counter is `L` afterwards; the
call after them, whether it carries a frame or signals the end of the stream, runs
the batch and returns the size `0x800 + L * frame_block_size` with the frame counter
reset to 0. -/
theorem encode_fills_then_emits (q : Elbg) (pat : Nat → Nat → Nat → Nat)
    (fuel : Nat) (avctx : AVCodecContext) (st : EncState) (buf : Nat → Nat) (buf_size : Nat)
    (frames : List AVFrame) (x : Option AVFrame)
    (hq : ElbgOK q) (hL : LumaOK st.c.mc_luma_vals) (hfuel : 512 ≤ fuel)
    (h0 : st.c.mc_frame_counter = 0) (h1 : 1 ≤ st.c.mc_lifetime)
    (hlen : frames.length = st.c.mc_lifetime)
    (hbuf : 0x800 + st.c.mc_lifetime * (0x400 + 0x400 * (if st.c.mc_use_5col then 1 else 0))
      ≤ buf_size) :
    ∃ st1, encode_all q pat fuel avctx buf_size (frames.map some) st buf =
        some (List.replicate st.c.mc_lifetime 0, st1, buf) ∧
      st1.c.mc_frame_counter = st.c.mc_lifetime ∧
      ∃ res, a64multi_encode_frame q pat fuel avctx st1 buf buf_size x = some res ∧
        res.ret = ((0x800 + st.c.mc_lifetime *
          (0x400 + 0x400 * (if st.c.mc_use_5col then 1 else 0)) : Nat) : Int) ∧
        res.st.c.mc_frame_counter = 0 := by
  rw [← toNat_eq_ite] at hbuf ⊢
  have hbuf' : 0x800 + frm_size_of st.c * st.c.mc_lifetime ≤ buf_size := by
    unfold frm_size_of; rw [Nat.mul_comm]; exact hbuf
  obtain ⟨st1, e1, e2, e3, e4, e5, e6⟩ := encode_all_frames q pat fuel avctx buf_size buf
    frames st (by omega) hbuf'
  rw [hlen] at e1
  refine ⟨st1, e1, by omega, ?_⟩
  have hfc : (flushed st1.c x).mc_frame_counter = (flushed st1.c x).mc_lifetime := by
    cases x
    · rfl
    · show st1.c.mc_frame_counter = st1.c.mc_lifetime
      omega
  have hlt : (flushed st1.c x).mc_lifetime = st.c.mc_lifetime := by
    cases x
    · show st1.c.mc_frame_counter = st.c.mc_lifetime
      omega
    · exact e3
  have hreq : req_size_of st1.c x = 0x800 + st.c.mc_lifetime * (0x400 + 0x400 * st.c.mc_use_5col.toNat) := by
    unfold req_size_of frm_size_of
    rw [hlt, e4, Nat.mul_comm]
  obtain ⟨r, _, hres⟩ := encode_batch_runs q pat fuel avctx st1 buf buf_size x hq (e5 ▸ hL)
    hfuel (by rw [hreq]; exact hbuf) hfc (by omega)
  refine ⟨_, hres, ?_, rfl⟩
  show ((req_size_of st1.c x : Nat) : Int) = _
  rw [hreq]

/-- Claim C5 as amended, for lifetime 4 in 4-color mode. -/
theorem encode_fills_then_emits_witness :
    ∃ st1, encode_all sample_q sample_pat 512 ⟨320, 200⟩ 6144
        ([sample_frame, sample_frame, sample_frame, sample_frame].map some)
        (sample_state 4 0 false) (fun _ => 0) =
        some (List.replicate 4 0, st1, fun _ => 0) ∧
      st1.c.mc_frame_counter = 4 ∧
      ∃ res, a64multi_encode_frame sample_q sample_pat 512 ⟨320, 200⟩ st1 (fun _ => 0) 6144
          (some sample_frame) = some res ∧
        res.ret = ((0x800 + 4 * (0x400 + 0x400 * (if false then 1 else 0)) : Nat) : Int) ∧
        res.st.c.mc_frame_counter = 0 :=
  encode_fills_then_emits sample_q sample_pat 512 ⟨320, 200⟩ (sample_state 4 0 false)
    (fun _ => 0) 6144 [sample_frame, sample_frame, sample_frame, sample_frame]
    (some sample_frame) sample_q_ok sample_luma_ok (le_refl 512) rfl (by decide) rfl (by decide)

/-- Claim C6.  For every lifetime `L` and `k` frames with `1 <= k < L`, starting from
frame counter 0 with a buffer large enough for `L` frames: submitting the `k` frames
and then the end of the stream gives `k` times the return value 0 followed by the size
`0x800 + k * (0x400 + 0x400 * five_color)`, which is the only positive return value,
and afterwards the lifetime is `k` and the frame counter 0. -/
theorem encode_flush_before_lifetime (q : Elbg) (pat : Nat → Nat → Nat → Nat)
    (fuel : Nat) (avctx : AVCodecContext) (st : EncState) (buf : Nat → Nat) (buf_size : Nat)
    (frames : List AVFrame)
    (hq : ElbgOK q) (hL : LumaOK st.c.mc_luma_vals) (hfuel : 512 ≤ fuel)
    (h0 : st.c.mc_frame_counter = 0) (hk : 1 ≤ frames.length)
    (hkL : frames.length < st.c.mc_lifetime)
    (hbuf : 0x800 + st.c.mc_lifetime * (0x400 + 0x400 * (if st.c.mc_use_5col then 1 else 0))
      ≤ buf_size) :
    ∃ st1 buf1, encode_all q pat fuel avctx buf_size (frames.map some ++ [none]) st buf =
        some (List.replicate frames.length 0 ++
          [((0x800 + frames.length *
              (0x400 + 0x400 * (if st.c.mc_use_5col then 1 else 0)) : Nat) : Int)],
          st1, buf1) ∧
      (List.replicate frames.length (0 : Int) ++
          [((0x800 + frames.length *
              (0x400 + 0x400 * (if st.c.mc_use_5col then 1 else 0)) : Nat) : Int)]).countP
        (fun v => decide (0 < v)) = 1 ∧
      st1.c.mc_lifetime = frames.length ∧ st1.c.mc_frame_counter = 0 := by
  rw [← toNat_eq_ite] at hbuf ⊢
  have hbuf' : 0x800 + frm_size_of st.c * st.c.mc_lifetime ≤ buf_size := by
    unfold frm_size_of; rw [Nat.mul_comm]; exact hbuf
  obtain ⟨st1, e1, e2, e3, e4, e5, e6⟩ := encode_all_frames q pat fuel avctx buf_size buf
    frames st (by omega) hbuf'
  have hfc : (flushed st1.c none).mc_frame_counter = (flushed st1.c none).mc_lifetime := rfl
  have hlt : (flushed st1.c none).mc_lifetime = frames.length := by
    show st1.c.mc_frame_counter = frames.length
    omega
  have hreq : req_size_of st1.c none =
      0x800 + frames.length * (0x400 + 0x400 * st.c.mc_use_5col.toNat) := by
    unfold req_size_of frm_size_of
    rw [hlt, e4, Nat.mul_comm]
  have hmono : frames.length * (0x400 + 0x400 * st.c.mc_use_5col.toNat) ≤
      st.c.mc_lifetime * (0x400 + 0x400 * st.c.mc_use_5col.toNat) :=
    Nat.mul_le_mul_right _ (Nat.le_of_lt hkL)
  obtain ⟨r, _, hres⟩ := encode_batch_runs q pat fuel avctx st1 buf buf_size none hq (e5 ▸ hL)
    hfuel (by rw [hreq]; omega) hfc (by omega)
  have hall := encode_all_snoc q pat fuel avctx buf_size none (frames.map some) st buf _ _ _ _
    e1 hres
  refine ⟨(batch_result q st1 none r).st, (batch_result q st1 none r).buf, ?_, ?_, ?_, rfl⟩
  · rw [hall]
    show some (_ ++ [((req_size_of st1.c none : Nat) : Int)], _, _) = _
    rw [hreq]
  · rw [List.countP_append, countP_pos_replicate_zero]
    simp only [List.countP_cons, List.countP_nil, Nat.zero_add]
    have : (0 : Int) < ((0x800 + frames.length * (0x400 + 0x400 * st.c.mc_use_5col.toNat) : Nat) : Int) := by
      omega
    simp only [this, decide_True, if_true]
  · exact hlt

/-- Claim C6, for 3 frames and a configured lifetime of 10. -/
theorem encode_flush_before_lifetime_witness :
    ∃ st1 buf1, encode_all sample_q sample_pat 512 ⟨320, 200⟩ 22528
        ([sample_frame, sample_frame, sample_frame].map some ++ [none])
        (sample_state 10 0 true) (fun _ => 0) =
        some (List.replicate 3 0 ++
          [((0x800 + 3 * (0x400 + 0x400 * (if true then 1 else 0)) : Nat) : Int)],
          st1, buf1) ∧
      (List.replicate 3 (0 : Int) ++
          [((0x800 + 3 * (0x400 + 0x400 * (if true then 1 else 0)) : Nat) : Int)]).countP
        (fun v => decide (0 < v)) = 1 ∧
      st1.c.mc_lifetime = 3 ∧ st1.c.mc_frame_counter = 0 :=
  encode_flush_before_lifetime sample_q sample_pat 512 ⟨320, 200⟩ (sample_state 10 0 true)
    (fun _ => 0) 22528 [sample_frame, sample_frame, sample_frame]
    sample_q_ok sample_luma_ok (le_refl 512) rfl (by decide) (by decide) (by decide)

/-- Claim C7.  When a batch of `n >= 1` buffered frames is due (the stream ends, or the
lifetime equals the frame counter `n`), the call fails with `AVERROR(EINVAL)` if the
buffer is smaller than `0x800 + n * (0x400 + 0x400 * five_color)` and otherwise returns
exactly that size, `n` being the lifetime afterwards.  And whatever the state and the
input, a call that returns a positive value returns
`0x800 + lifetime * (0x400 + 0x400 * five_color)` for the lifetime it leaves, and the
buffer was at least that large. -/
theorem encode_required_size (q : Elbg) (pat : Nat → Nat → Nat → Nat)
    (fuel : Nat) (avctx : AVCodecContext) (st : EncState) (buf : Nat → Nat) (buf_size : Nat)
    (data : Option AVFrame)
    (hq : ElbgOK q) (hL : LumaOK st.c.mc_luma_vals) (hfuel : 512 ≤ fuel)
    (hdue : data = none ∨ st.c.mc_lifetime = st.c.mc_frame_counter)
    (hpos : 1 ≤ st.c.mc_frame_counter) :
    (buf_size < 0x800 + st.c.mc_frame_counter *
        (0x400 + 0x400 * (if st.c.mc_use_5col then 1 else 0)) →
      ∃ res, a64multi_encode_frame q pat fuel avctx st buf buf_size data = some res ∧
        res.ret = AVERROR_EINVAL) ∧
    (0x800 + st.c.mc_frame_counter *
        (0x400 + 0x400 * (if st.c.mc_use_5col then 1 else 0)) ≤ buf_size →
      ∃ res, a64multi_encode_frame q pat fuel avctx st buf buf_size data = some res ∧
        res.ret = ((0x800 + st.c.mc_frame_counter *
          (0x400 + 0x400 * (if st.c.mc_use_5col then 1 else 0)) : Nat) : Int) ∧
        res.st.c.mc_lifetime = st.c.mc_frame_counter) ∧
    (∀ res, a64multi_encode_frame q pat fuel avctx st buf buf_size data = some res →
      0 < res.ret →
      res.ret = ((0x800 + res.st.c.mc_lifetime *
          (0x400 + 0x400 * (if res.st.c.mc_use_5col then 1 else 0)) : Nat) : Int) ∧
      0x800 + res.st.c.mc_lifetime *
          (0x400 + 0x400 * (if res.st.c.mc_use_5col then 1 else 0)) ≤ buf_size) := by
  simp only [← toNat_eq_ite]
  have hlt : (flushed st.c data).mc_lifetime = st.c.mc_frame_counter := by
    rcases hdue with h | h
    · subst h; rfl
    · cases data
      · rfl
      · exact h
  have hfc : (flushed st.c data).mc_frame_counter = (flushed st.c data).mc_lifetime := by
    rw [hlt]; exact (flushed_fields st.c data).1
  have hreq : req_size_of st.c data =
      0x800 + st.c.mc_frame_counter * (0x400 + 0x400 * st.c.mc_use_5col.toNat) := by
    unfold req_size_of frm_size_of
    rw [hlt, Nat.mul_comm]
  refine ⟨?_, ?_, ?_⟩
  · intro h
    exact ⟨_, encode_error q pat fuel avctx st buf buf_size data (by rw [hreq]; exact h), rfl⟩
  · intro h
    obtain ⟨r, _, hres⟩ := encode_batch_runs q pat fuel avctx st buf buf_size data hq hL
      hfuel (by rw [hreq]; exact h) hfc (by omega)
    refine ⟨_, hres, ?_, hlt⟩
    show ((req_size_of st.c data : Nat) : Int) = _
    rw [hreq]
  · intro res hres hp
    obtain ⟨h1, _, _, r, _, he⟩ := encode_payload_inv q pat fuel avctx st buf buf_size data res
      hres hp
    subst he
    have e1 : (batch_result q st data r).st.c.mc_lifetime = (flushed st.c data).mc_lifetime := rfl
    have e2 : (batch_result q st data r).st.c.mc_use_5col = st.c.mc_use_5col :=
      (flushed_fields st.c data).2.1
    have e3 : (batch_result q st data r).ret = ((req_size_of st.c data : Nat) : Int) := rfl
    rw [e1, e2, e3, hlt, hreq]
    exact ⟨rfl, by rw [← hreq]; exact h1⟩

/-- Claim C7, for batches of 1, 4 and 10 frames in both color modes, and for a buffer
one byte short. -/
theorem encode_required_size_witness :
    (∃ res, a64multi_encode_frame sample_q sample_pat 512 ⟨320, 200⟩ (sample_state 1 1 false)
        (fun _ => 0) 3072 none = some res ∧ res.ret = 3072) ∧
    (∃ res, a64multi_encode_frame sample_q sample_pat 512 ⟨320, 200⟩ (sample_state 1 1 true)
        (fun _ => 0) 4096 none = some res ∧ res.ret = 4096) ∧
    (∃ res, a64multi_encode_frame sample_q sample_pat 512 ⟨320, 200⟩ (sample_state 4 4 false)
        (fun _ => 0) 6144 (some sample_frame) = some res ∧ res.ret = 6144) ∧
    (∃ res, a64multi_encode_frame sample_q sample_pat 512 ⟨320, 200⟩ (sample_state 4 4 true)
        (fun _ => 0) 10240 (some sample_frame) = some res ∧ res.ret = 10240) ∧
    (∃ res, a64multi_encode_frame sample_q sample_pat 512 ⟨320, 200⟩ (sample_state 10 10 false)
        (fun _ => 0) 12288 none = some res ∧ res.ret = 12288) ∧
    (∃ res, a64multi_encode_frame sample_q sample_pat 512 ⟨320, 200⟩ (sample_state 10 10 true)
        (fun _ => 0) 22528 none = some res ∧ res.ret = 22528) ∧
    (∃ res, a64multi_encode_frame sample_q sample_pat 512 ⟨320, 200⟩ (sample_state 10 10 true)
        (fun _ => 0) 22527 none = some res ∧ res.ret = AVERROR_EINVAL) :=
  ⟨((encode_required_size sample_q sample_pat 512 ⟨320, 200⟩ (sample_state 1 1 false)
      (fun _ => 0) 3072 none sample_q_ok sample_luma_ok (le_refl 512) (Or.inl rfl)
      (by decide)).2.1 (by decide)).imp (fun _ h => ⟨h.1, h.2.1⟩),
   ((encode_required_size sample_q sample_pat 512 ⟨320, 200⟩ (sample_state 1 1 true)
      (fun _ => 0) 4096 none sample_q_ok sample_luma_ok (le_refl 512) (Or.inl rfl)
      (by decide)).2.1 (by decide)).imp (fun _ h => ⟨h.1, h.2.1⟩),
   ((encode_required_size sample_q sample_pat 512 ⟨320, 200⟩ (sample_state 4 4 false)
      (fun _ => 0) 6144 (some sample_frame) sample_q_ok sample_luma_ok (le_refl 512)
      (Or.inr rfl) (by decide)).2.1 (by decide)).imp (fun _ h => ⟨h.1, h.2.1⟩),
   ((encode_required_size sample_q sample_pat 512 ⟨320, 200⟩ (sample_state 4 4 true)
      (fun _ => 0) 10240 (some sample_frame) sample_q_ok sample_luma_ok (le_refl 512)
      (Or.inr rfl) (by decide)).2.1 (by decide)).imp (fun _ h => ⟨h.1, h.2.1⟩),
   ((encode_required_size sample_q sample_pat 512 ⟨320, 200⟩ (sample_state 10 10 false)
      (fun _ => 0) 12288 none sample_q_ok sample_luma_ok (le_refl 512) (Or.inl rfl)
      (by decide)).2.1 (by decide)).imp (fun _ h => ⟨h.1, h.2.1⟩),
   ((encode_required_size sample_q sample_pat 512 ⟨320, 200⟩ (sample_state 10 10 true)
      (fun _ => 0) 22528 none sample_q_ok sample_luma_ok (le_refl 512) (Or.inl rfl)
      (by decide)).2.1 (by decide)).imp (fun _ h => ⟨h.1, h.2.1⟩),
   (encode_required_size sample_q sample_pat 512 ⟨320, 200⟩ (sample_state 10 10 true)
      (fun _ => 0) 22527 none sample_q_ok sample_luma_ok (le_refl 512) (Or.inl rfl)
      (by decide)).1 (by decide)⟩

/-- Claim C8 fails: with lifetime 10 and 3 buffered frames, an end-of-stream call
whose buffer is one byte short of the required `0x800 + 3 * 0x400` returns the error
and has changed the lifetime from 10 to 3. -/
theorem error_call_shortens_lifetime :
    ∃ res, a64multi_encode_frame sample_q sample_pat 512 ⟨320, 200⟩ (sample_state 10 3 false)
        (fun _ => 0) (0x800 + 3 * 0x400 - 1) none = some res ∧
      res.ret = AVERROR_EINVAL ∧
      (sample_state 10 3 false).c.mc_lifetime = 10 ∧ res.st.c.mc_lifetime = 3 :=
  ⟨_, encode_error sample_q sample_pat 512 ⟨320, 200⟩ (sample_state 10 3 false) (fun _ => 0)
    (0x800 + 3 * 0x400 - 1) none (by decide), rfl, rfl, rfl⟩

/-- Claim C8 as amended.  Let the required size `0x800 + frm_size * n`, with `n` the
frame counter at the end of the stream and the lifetime otherwise, be below `2^31`, so
that the `int` `req_size` of the source holds it.  If the buffer is smaller than that
size, the call returns `AVERROR(EINVAL)` and leaves the output buffer, the static
tables, the frame counter, the vector buffer, the codebook and the assignment map
unchanged; the lifetime is unchanged when the call carries a frame (the whole state is)
and is set to the frame counter when the call signals the end of the stream. -/
theorem encode_error_leaves_state (q : Elbg) (pat : Nat → Nat → Nat → Nat)
    (fuel : Nat) (avctx : AVCodecContext) (st : EncState) (buf : Nat → Nat) (buf_size : Nat)
    (data : Option AVFrame)
    (hsmall : buf_size < 0x800 + (0x400 + 0x400 * (if st.c.mc_use_5col then 1 else 0)) *
        (match data with
         | none => st.c.mc_frame_counter
         | some _ => st.c.mc_lifetime) ∧
      0x800 + (0x400 + 0x400 * (if st.c.mc_use_5col then 1 else 0)) *
        (match data with
         | none => st.c.mc_frame_counter
         | some _ => st.c.mc_lifetime) < 2 ^ 31) :
    ∃ res, a64multi_encode_frame q pat fuel avctx st buf buf_size data = some res ∧
      res.ret = AVERROR_EINVAL ∧ res.buf = buf ∧ res.st.lut = st.lut ∧
      res.st.c.mc_frame_counter = st.c.mc_frame_counter ∧
      res.st.c.mc_meta_charset = st.c.mc_meta_charset ∧
      res.st.c.mc_best_cb = st.c.mc_best_cb ∧
      res.st.c.mc_charmap = st.c.mc_charmap ∧
      res.st.c.mc_lifetime =
        (match data with
         | none => st.c.mc_frame_counter
         | some _ => st.c.mc_lifetime) ∧
      (data ≠ none → res.st = st) := by
  obtain ⟨hsmall, _⟩ := hsmall
  rw [← toNat_eq_ite] at hsmall
  have hreq : req_size_of st.c data > buf_size := by
    unfold req_size_of frm_size_of flushed
    cases data <;> exact hsmall
  refine ⟨_, encode_error q pat fuel avctx st buf buf_size data hreq, rfl, rfl, rfl, ?_, ?_, ?_,
    ?_, ?_, ?_⟩
  · exact (flushed_fields st.c data).1
  · exact (flushed_fields st.c data).2.2.2.1
  · exact (flushed_fields st.c data).2.2.2.2.1
  · exact (flushed_fields st.c data).2.2.2.2.2
  · cases data <;> rfl
  · intro hne
    cases data with
    | none => exact absurd rfl hne
    | some p => rfl

/-- Claim C8 as amended, for a frame submitted with a buffer one byte short. -/
theorem encode_error_leaves_state_witness :
    (10239 < 0x800 + (0x400 + 0x400 * (if (sample_state 4 2 true).c.mc_use_5col then 1 else 0)) *
        (sample_state 4 2 true).c.mc_lifetime ∧
      0x800 + (0x400 + 0x400 * (if (sample_state 4 2 true).c.mc_use_5col then 1 else 0)) *
        (sample_state 4 2 true).c.mc_lifetime < 2 ^ 31) ∧
    ∃ res, a64multi_encode_frame sample_q sample_pat 512 ⟨320, 200⟩ (sample_state 4 2 true)
        (fun _ => 7) 10239 (some sample_frame) = some res ∧
      res.ret = AVERROR_EINVAL ∧ res.buf = (fun _ => 7) ∧
      res.st.lut = (sample_state 4 2 true).lut ∧
      res.st.c.mc_frame_counter = 2 ∧
      res.st.c.mc_meta_charset = (sample_state 4 2 true).c.mc_meta_charset ∧
      res.st.c.mc_best_cb = (sample_state 4 2 true).c.mc_best_cb ∧
      res.st.c.mc_charmap = (sample_state 4 2 true).c.mc_charmap ∧
      res.st.c.mc_lifetime = 4 ∧
      (some sample_frame ≠ none → res.st = sample_state 4 2 true) :=
  ⟨by decide,
   encode_error_leaves_state sample_q sample_pat 512 ⟨320, 200⟩ (sample_state 4 2 true)
     (fun _ => 7) 10239 (some sample_frame) (by decide)⟩

/-- Claim C9.  For every call that returns a positive value, every frame `i` below the
batch length and every cell `a < 1000`, the payload byte at offset
`0x800 + i * frame_block_size + a` equals entry `i * 1000 + a` of the assignment map,
which is the one the quantizer returned, provided that entry is an index in
[0, 256). -/
theorem encode_screen_bytes (q : Elbg) (pat : Nat → Nat → Nat → Nat) (fuel : Nat)
    (avctx : AVCodecContext) (st : EncState) (buf : Nat → Nat) (buf_size : Nat)
    (data : Option AVFrame) (res : EncodeResult)
    (h : a64multi_encode_frame q pat fuel avctx st buf buf_size data = some res)
    (hpos : 0 < res.ret) (i a : Nat) (hi : i < res.st.c.mc_lifetime) (ha : a < 1000)
    (hidx : 0 ≤ res.st.c.mc_charmap (i * 1000 + a) ∧ res.st.c.mc_charmap (i * 1000 + a) < 256) :
    res.st.c.mc_charmap = (quantize q (flushed st.c data)).2.1 ∧
    ((res.buf (0x800 + i * (if res.st.c.mc_use_5col then 0x800 else 0x400) + a) : Nat) : Int)
      = res.st.c.mc_charmap (i * 1000 + a) := by
  obtain ⟨m0, hp, _, _, hq⟩ := encode_payload_layout q pat fuel avctx st buf buf_size data res
    h hpos
  refine ⟨hq, ?_⟩
  rw [hp.1 i a hi ha]
  exact (screen_byte_of_index _ _ hidx).1

/-- Claim C9, at frame 1, cell 7 of a batch of 2 frames in 5-color mode. -/
theorem encode_screen_bytes_witness :
    ∃ res, a64multi_encode_frame sample_q sample_pat 512 ⟨320, 200⟩ (sample_state 2 2 true)
        (fun _ => 0) 6144 (some sample_frame) = some res ∧ 0 < res.ret ∧
      res.st.c.mc_charmap = (quantize sample_q (flushed (sample_state 2 2 true).c
        (some sample_frame))).2.1 ∧
      ((res.buf (0x800 + 1 * (if res.st.c.mc_use_5col then 0x800 else 0x400) + 7) : Nat) : Int)
        = res.st.c.mc_charmap (1 * 1000 + 7) := by
  obtain ⟨r, _, hres⟩ := encode_batch_runs sample_q sample_pat 512 ⟨320, 200⟩
    (sample_state 2 2 true) (fun _ => 0) 6144 (some sample_frame) sample_q_ok sample_luma_ok
    (le_refl 512) (by decide) rfl (by decide)
  have hpos : 0 < (batch_result sample_q (sample_state 2 2 true) (some sample_frame) r).ret := by
    show (0 : Int) < ((req_size_of (sample_state 2 2 true).c (some sample_frame) : Nat) : Int)
    decide
  exact ⟨_, hres, hpos,
    encode_screen_bytes sample_q sample_pat 512 ⟨320, 200⟩ (sample_state 2 2 true) (fun _ => 0)
      6144 (some sample_frame) _ hres hpos 1 7 (by decide : 1 < 2) (by decide)
      (show 0 ≤ sample_cm (1 * 1000 + 7) ∧ sample_cm (1 * 1000 + 7) < 256 by decide)⟩

/-- Claim C10 fails: in a 5-color batch of one frame packed into a zeroed buffer, the
byte at offset `0x800 + 0 * 0x800 + 1000 + 0`, right behind the 1000 screen bytes, is
not the color selector of the character in cell 0. -/
theorem color_map_not_adjacent :
    ∃ res, a64multi_encode_frame sample_q sample_pat 512 ⟨320, 200⟩ (sample_state 1 1 true)
        (fun _ => 0) 4096 none = some res ∧ 0 < res.ret ∧
      res.st.c.mc_use_5col = true ∧
      res.buf (0x800 + 0 * 0x800 + 1000 + 0) ≠ res.colrammap (res.buf (0x800 + 0 * 0x800 + 0)) := by
  obtain ⟨r, _, hres⟩ := encode_batch_runs sample_q sample_pat 512 ⟨320, 200⟩
    (sample_state 1 1 true) (fun _ => 0) 4096 none sample_q_ok sample_luma_ok
    (le_refl 512) (by decide) rfl (by decide)
  have hpos : 0 < (batch_result sample_q (sample_state 1 1 true) none r).ret := by
    show (0 : Int) < ((req_size_of (sample_state 1 1 true).c none : Nat) : Int)
    decide
  obtain ⟨h1, h2⟩ := encode_first_gap_byte sample_q sample_pat 512 ⟨320, 200⟩
    (sample_state 1 1 true) (fun _ => 0) 4096 none _ hres hpos rfl
    (show 0 ≤ sample_cm (0 * 1000 + 0) ∧ sample_cm (0 * 1000 + 0) < 256 by decide)
    (by decide : 0 < 1)
  refine ⟨_, hres, hpos, rfl, ?_⟩
  rw [h1]
  intro e
  have e' : (batch_result sample_q (sample_state 1 1 true) none r).colrammap
      ((batch_result sample_q (sample_state 1 1 true) none r).buf (0x800 + 0 * 0x800 + 0)) = 0 :=
    e.symm
  rw [e'] at h2
  exact absurd h2 (by decide)

/-- Claim C10 as amended.  In 5-color mode, for every call that returns a positive
value, every frame `i` of the batch and every cell `a < 1000` whose assignment is an
index in [0, 256), the color byte of the cell is at offset `0x400` of the frame
block: the payload byte at `0x800 + i * 0x800 + 0x400 + a` equals `colrammap[s]` for
the screen byte `s` at `0x800 + i * 0x800 + a`. -/
theorem encode_color_bytes (q : Elbg) (pat : Nat → Nat → Nat → Nat) (fuel : Nat)
    (avctx : AVCodecContext) (st : EncState) (buf : Nat → Nat) (buf_size : Nat)
    (data : Option AVFrame) (res : EncodeResult)
    (h : a64multi_encode_frame q pat fuel avctx st buf buf_size data = some res)
    (hpos : 0 < res.ret) (h5 : res.st.c.mc_use_5col = true)
    (i a : Nat) (hi : i < res.st.c.mc_lifetime) (ha : a < 1000)
    (hidx : 0 ≤ res.st.c.mc_charmap (i * 1000 + a) ∧ res.st.c.mc_charmap (i * 1000 + a) < 256) :
    res.buf (0x800 + i * 0x800 + 0x400 + a) =
      res.colrammap (res.buf (0x800 + i * 0x800 + a)) := by
  obtain ⟨m0, hp, _, hc, _⟩ := encode_payload_layout q pat fuel avctx st buf buf_size data res
    h hpos
  rw [h5] at hp
  simp only [if_true] at hp
  have hs := screen_byte_of_index _ _ hidx
  rw [hp.1 i a hi ha, hp.2.1 rfl i a hi ha, hs.2.1]
  unfold color_byte
  exact Nat.mod_eq_of_lt (hc _ (by rw [← hs.2.1]; exact hs.2.2)).2

/-- Claim C10 as amended, at frame 1, cell 7 of a batch of 2 frames. -/
theorem encode_color_bytes_witness :
    ∃ res, a64multi_encode_frame sample_q sample_pat 512 ⟨320, 200⟩ (sample_state 2 2 true)
        (fun _ => 0) 6144 none = some res ∧ 0 < res.ret ∧
      res.buf (0x800 + 1 * 0x800 + 0x400 + 7) = res.colrammap (res.buf (0x800 + 1 * 0x800 + 7)) := by
  obtain ⟨r, _, hres⟩ := encode_batch_runs sample_q sample_pat 512 ⟨320, 200⟩
    (sample_state 2 2 true) (fun _ => 0) 6144 none sample_q_ok sample_luma_ok
    (le_refl 512) (by decide) rfl (by decide)
  have hpos : 0 < (batch_result sample_q (sample_state 2 2 true) none r).ret := by
    show (0 : Int) < ((req_size_of (sample_state 2 2 true).c none : Nat) : Int)
    decide
  exact ⟨_, hres, hpos,
    encode_color_bytes sample_q sample_pat 512 ⟨320, 200⟩ (sample_state 2 2 true) (fun _ => 0)
      6144 none _ hres hpos rfl 1 7 (by decide : 1 < 2) (by decide)
      (show 0 ≤ sample_cm (1 * 1000 + 7) ∧ sample_cm (1 * 1000 + 7) < 256 by decide)⟩

/-- Claim C11.  For every codebook of 256 x 32 values in [0,255] and ascending reference
levels, `render_charset` returns (given 512 passes) and for every character `c < 256`
the entry `colrammap[c]` is `8 + (highdiff > 0 ? 1 : 0)`, with `highdiff` the sum a pass
computes on the final vector of `c`; it is 9 exactly when that final vector holds a value
greater than `L 3`, and 8 exactly when it holds none. -/
theorem render_charset_colram (pat : Nat → Nat → Nat → Nat) (L : Nat → Nat) (t0 : Tables)
    (mem_cb : Nat → Int) (mem_cs : Nat → Nat) (charset : Nat) (colrammap : Nat → Nat)
    (fuel : Nat)
    (hL : L 0 < L 1 ∧ L 1 < L 2 ∧ L 2 < L 3 ∧ L 3 < L 4 ∧ L 4 ≤ 255)
    (hcb : ∀ k, k < 256 * 32 → 0 ≤ mem_cb k ∧ mem_cb k ≤ 255)
    (hfuel : 512 ≤ fuel) :
    ∃ r, render_charset pat L fuel t0 mem_cb mem_cs charset colrammap = some r ∧
      ∀ c, c < 256 →
        r.2.colrammap c =
          8 + (if (char_pass pat L r.1 r.2.mem_cb (32 * c) mem_cs charset).2.1 > 0 then 1
               else 0) ∧
        (r.2.colrammap c = 9 ↔ ∃ k, k < 32 ∧ r.2.mem_cb (32 * c + k) > (L 3 : Int)) ∧
        (r.2.colrammap c = 8 ↔ ¬ ∃ k, k < 32 ∧ r.2.mem_cb (32 * c + k) > (L 3 : Int)) := by
  obtain ⟨h01, h12, h23, h34, h4⟩ := hL
  have hA : Ascending L := ⟨h12, h23, h34⟩
  obtain ⟨r, hr, ht, _, _, hrange⟩ :=
    render_charset_run pat L t0 mem_cb mem_cs charset colrammap fuel hA (by omega) hcb hfuel
  obtain ⟨_, hpost⟩ := render_charset_post pat L t0 mem_cb mem_cs charset colrammap fuel r hr
  refine ⟨r, hr, ?_⟩
  intro c hc
  have hcol := (hpost.1 c (by omega)).2.2
  simp only [Nat.zero_add] at hcol
  have hT := build_tables_ok L hA t0
  have hiff : 0 < highdiff_of L (build_tables L t0) r.2.mem_cb (32 * c) ↔
      ∃ k, k < 32 ∧ r.2.mem_cb (32 * c + k) > (L 3 : Int) := by
    rw [highdiff_pos_iff L _ hT]
    constructor
    · rintro ⟨k, hk, hv⟩
      have := cb_pix_of_inRange r.2.mem_cb (32 * c + k) (hrange _ (by omega))
      exact ⟨k, hk, by omega⟩
    · rintro ⟨k, hk, hv⟩
      have := cb_pix_of_inRange r.2.mem_cb (32 * c + k) (hrange _ (by omega))
      exact ⟨k, hk, by omega⟩
  have hv : ∀ h : Int, colram_value h = if 0 < h then 9 else 8 := by
    intro h
    unfold colram_value
    split_ifs <;> rfl
  rw [char_pass_eq, ht, hcol, ← hiff, hv]
  by_cases hp : 0 < highdiff_of L (build_tables L t0) r.2.mem_cb (32 * c)
  · simp only [gt_iff_lt, hp, if_true, not_true_eq_false, iff_false, Nat.reduceAdd,
      true_and, iff_true]
    decide
  · simp only [gt_iff_lt, hp, if_false, not_false_eq_true, iff_true, iff_false, Nat.add_zero,
      true_and, and_true]
    decide

/-- Claim C11, at the sample reference levels and the sample codebook. -/
theorem render_charset_colram_witness :
    (sample_luma 0 < sample_luma 1 ∧ sample_luma 1 < sample_luma 2 ∧
      sample_luma 2 < sample_luma 3 ∧ sample_luma 3 < sample_luma 4 ∧ sample_luma 4 ≤ 255) ∧
    (∀ k, k < 256 * 32 → 0 ≤ sample_cb k ∧ sample_cb k ≤ 255) ∧
    ∃ r, render_charset sample_pat sample_luma 512 zero_tables sample_cb (fun _ => 0) 0
        (fun _ => 0) = some r ∧
      ∀ c, c < 256 →
        r.2.colrammap c =
          8 + (if (char_pass sample_pat sample_luma r.1 r.2.mem_cb (32 * c) (fun _ => 0) 0).2.1
                 > 0 then 1 else 0) ∧
        (r.2.colrammap c = 9 ↔
          ∃ k, k < 32 ∧ r.2.mem_cb (32 * c + k) > (sample_luma 3 : Int)) ∧
        (r.2.colrammap c = 8 ↔
          ¬ ∃ k, k < 32 ∧ r.2.mem_cb (32 * c + k) > (sample_luma 3 : Int)) :=
  ⟨by decide, sample_cb_inRange,
   render_charset_colram sample_pat sample_luma zero_tables sample_cb (fun _ => 0) 0
     (fun _ => 0) 512 (by decide) sample_cb_inRange (le_refl 512)⟩

/-- Claim C12 fails in the code: a 4-color encoder (`mc_use_5col` false) whose quantizer
returns an all-white codebook (every value 255, the level `L 4`) runs its batch of one
frame, and every pixel of character 0 selects reference level 4, the fifth level; the
eight row bytes of the character are `0xFF`, four times the 2-bit code 3 that level 0
gets as well. -/
theorem four_color_selects_fifth_level :
    ∃ res, a64multi_encode_frame white_q sample_pat 512 ⟨320, 200⟩ (sample_state 1 1 false)
        (fun _ => 0) 0xc00 none = some res ∧ res.ret = 0xc00 ∧
      res.st.c.mc_use_5col = false ∧
      (∀ y x, y < 8 → x < 4 →
        selected_level sample_pat res.st.lut y x
          (cb_pix res.st.c.mc_best_cb (32 * 0 + (y * 4 + x))) = 4) ∧
      (∀ k, k < 32 → res.st.c.mc_best_cb (32 * 0 + k) = 255) ∧
      (∀ y, y < 8 → res.buf y = 255) := by
  obtain ⟨r0, _, hres⟩ := encode_batch_runs white_q sample_pat 512 ⟨320, 200⟩
    (sample_state 1 1 false) (fun _ => 0) 0xc00 none white_q_ok sample_luma_ok
    (le_refl 512) (by decide) rfl (by decide)
  have hpos : 0 < (batch_result white_q (sample_state 1 1 false) none r0).ret := by
    show (0 : Int) < ((req_size_of (sample_state 1 1 false).c none : Nat) : Int)
    decide
  obtain ⟨r, hr, hlut, hbest, _, h5, hbuf⟩ := encode_payload_charset white_q sample_pat 512
    ⟨320, 200⟩ (sample_state 1 1 false) (fun _ => 0) 0xc00 none _ hres hpos
  have hwhite : ∀ k, (quantize white_q (flushed (sample_state 1 1 false).c none)).1 k = 255 :=
    fun _ => rfl
  obtain ⟨hkeep, hsel, hrow⟩ := render_charset_top_char sample_pat sample_luma zero_tables _
    (fun _ => 0) 0 (fun _ => 0) 512 r sample_luma_ok
    (fun k hk => quantize_inRange white_q white_q_ok _ k hk) hr 0 (by omega)
    (fun k _ => by rw [hwhite]; decide)
  refine ⟨_, hres, rfl, h5, ?_, ?_, ?_⟩
  · intro y x hy hx
    rw [hlut, hbest]
    exact hsel y x hy hx
  · intro k hk
    rw [hbest, hkeep k hk, hwhite]
  · intro y hy
    rw [hbuf y (by omega)]
    have := hrow y hy
    simp only [Nat.mul_zero, Nat.add_zero, Nat.zero_add] at this
    exact this

/-- Claim C13.  Assume the dither pattern of level 0 has no entry set.  For every codebook
of 256 x 32 values in [0,255] and ascending reference levels, `render_charset` returns
(given 512 passes), and for every character `c` on its final vector: if some pixel is
rendered from level 4 then `colrammap[c]` is 9 and no pixel is rendered from level 0; if
some pixel is rendered from level 0 then `colrammap[c]` is 8 and no pixel is rendered from
level 4.  Levels 0 and 4 are the two that get the 2-bit code 3. -/
theorem render_charset_code3_consistent (pat : Nat → Nat → Nat → Nat) (L : Nat → Nat)
    (t0 : Tables) (mem_cb : Nat → Int) (mem_cs : Nat → Nat) (charset : Nat)
    (colrammap : Nat → Nat) (fuel : Nat)
    (hpat : ∀ y x, pat 0 y x = 0)
    (hL : L 0 < L 1 ∧ L 1 < L 2 ∧ L 2 < L 3 ∧ L 3 < L 4 ∧ L 4 ≤ 255)
    (hcb : ∀ k, k < 256 * 32 → 0 ≤ mem_cb k ∧ mem_cb k ≤ 255)
    (hfuel : 512 ≤ fuel) :
    ∃ r, render_charset pat L fuel t0 mem_cb mem_cs charset colrammap = some r ∧
      ∀ c, c < 256 →
        ((∃ y x, y < 8 ∧ x < 4 ∧
            selected_level pat r.1 y x (cb_pix r.2.mem_cb (32 * c + (y * 4 + x))) = 4) →
          r.2.colrammap c = 9 ∧
          ∀ y x, y < 8 → x < 4 →
            selected_level pat r.1 y x (cb_pix r.2.mem_cb (32 * c + (y * 4 + x))) ≠ 0) ∧
        ((∃ y x, y < 8 ∧ x < 4 ∧
            selected_level pat r.1 y x (cb_pix r.2.mem_cb (32 * c + (y * 4 + x))) = 0) →
          r.2.colrammap c = 8 ∧
          ∀ y x, y < 8 → x < 4 →
            selected_level pat r.1 y x (cb_pix r.2.mem_cb (32 * c + (y * 4 + x))) ≠ 4) := by
  have hLok : LumaOK L := hL
  obtain ⟨h01, h12, h23, h34, h4⟩ := hL
  have hA : Ascending L := ⟨h12, h23, h34⟩
  obtain ⟨r, hr, ht, _, _, hrange⟩ :=
    render_charset_run pat L t0 mem_cb mem_cs charset colrammap fuel hA (by omega) hcb hfuel
  obtain ⟨_, hpost⟩ := render_charset_post pat L t0 mem_cb mem_cs charset colrammap fuel r hr
  refine ⟨r, hr, ?_⟩
  intro c hc
  obtain ⟨hconv, _, hcol⟩ := hpost.1 c (by omega)
  simp only [Nat.zero_add] at hconv hcol
  have hT := build_tables_ok L hA t0
  rw [ht, hcol]
  have hhi := highdiff_pos_iff L _ hT r.2.mem_cb (32 * c)
  have hlo := lowdiff_pos_iff L _ hT r.2.mem_cb (32 * c)
  constructor
  · rintro ⟨y, x, hy, hx, hsel⟩
    have hpix := selected_level_four pat hpat L hLok t0 y x _ (cb_pix_lt _ _) hsel
    have hpos : 0 < highdiff_of L (build_tables L t0) r.2.mem_cb (32 * c) :=
      hhi.mpr ⟨y * 4 + x, by omega, hpix⟩
    constructor
    · unfold colram_value
      rw [if_pos hpos]
    · intro y' x' hy' hx' h0
      have hpix' := selected_level_zero pat L hA t0 y' x' _ (cb_pix_lt _ _) h0
      exact hconv ⟨hpos, hlo.mpr ⟨y' * 4 + x', by omega, hpix'⟩⟩
  · rintro ⟨y, x, hy, hx, hsel⟩
    have hpix := selected_level_zero pat L hA t0 y x _ (cb_pix_lt _ _) hsel
    have hpos : 0 < lowdiff_of L (build_tables L t0) r.2.mem_cb (32 * c) :=
      hlo.mpr ⟨y * 4 + x, by omega, hpix⟩
    have hnot : ¬ highdiff_of L (build_tables L t0) r.2.mem_cb (32 * c) > 0 :=
      fun hh => hconv ⟨hh, hpos⟩
    constructor
    · unfold colram_value
      rw [if_neg hnot]
    · intro y' x' hy' hx' h4
      have hpix' := selected_level_four pat hpat L hLok t0 y' x' _ (cb_pix_lt _ _) h4
      exact hnot (hhi.mpr ⟨y' * 4 + x', by omega, hpix'⟩)

/-- Claim C13, at the sample pattern table, reference levels and codebook. -/
theorem render_charset_code3_consistent_witness :
    (∀ y x, sample_pat 0 y x = 0) ∧
    (sample_luma 0 < sample_luma 1 ∧ sample_luma 1 < sample_luma 2 ∧
      sample_luma 2 < sample_luma 3 ∧ sample_luma 3 < sample_luma 4 ∧ sample_luma 4 ≤ 255) ∧
    (∀ k, k < 256 * 32 → 0 ≤ sample_cb k ∧ sample_cb k ≤ 255) ∧
    ∃ r, render_charset sample_pat sample_luma 512 zero_tables sample_cb (fun _ => 0) 0
        (fun _ => 0) = some r ∧
      ∀ c, c < 256 →
        ((∃ y x, y < 8 ∧ x < 4 ∧
            selected_level sample_pat r.1 y x (cb_pix r.2.mem_cb (32 * c + (y * 4 + x))) = 4) →
          r.2.colrammap c = 9 ∧
          ∀ y x, y < 8 → x < 4 →
            selected_level sample_pat r.1 y x (cb_pix r.2.mem_cb (32 * c + (y * 4 + x))) ≠ 0) ∧
        ((∃ y x, y < 8 ∧ x < 4 ∧
            selected_level sample_pat r.1 y x (cb_pix r.2.mem_cb (32 * c + (y * 4 + x))) = 0) →
          r.2.colrammap c = 8 ∧
          ∀ y x, y < 8 → x < 4 →
            selected_level sample_pat r.1 y x (cb_pix r.2.mem_cb (32 * c + (y * 4 + x))) ≠ 4) :=
  ⟨fun y x => if_neg (by omega), by decide, sample_cb_inRange,
   render_charset_code3_consistent sample_pat sample_luma zero_tables sample_cb (fun _ => 0) 0
     (fun _ => 0) 512 (fun y x => if_neg (by omega)) (by decide) sample_cb_inRange
     (le_refl 512)⟩

/-- Claim C14 fails: an end-of-stream call with no frame buffered and an output buffer of
capacity 0 returns `AVERROR(EINVAL)`, not 0. -/
theorem empty_flush_small_buffer_errors :
    (a64multi_encode_frame sample_q sample_pat 512 ⟨320, 200⟩ (sample_state 4 0 false)
      (fun _ => 0) 0 none).map (fun r => r.ret) = some AVERROR_EINVAL := by
  rw [encode_error _ _ _ _ _ _ _ _ (by decide)]
  rfl

/-- Claim C14 as amended.  An end-of-stream call in a state with `mc_frame_counter = 0`
computes the required size `0x800`: with a capacity of at least `0x800` it returns 0,
with a smaller one `AVERROR(EINVAL)`; in both cases the output buffer and every buffer of
the state are as before, the frame counter stays 0 and the lifetime becomes 0. -/
theorem encode_empty_flush (q : Elbg) (pat : Nat → Nat → Nat → Nat) (fuel : Nat)
    (avctx : AVCodecContext) (st : EncState) (buf : Nat → Nat) (buf_size : Nat)
    (hfc : st.c.mc_frame_counter = 0) :
    ∃ res, a64multi_encode_frame q pat fuel avctx st buf buf_size none = some res ∧
      res.ret = (if buf_size < 0x800 then AVERROR_EINVAL else 0) ∧
      res.buf = buf ∧
      res.st.c.mc_frame_counter = 0 ∧ res.st.c.mc_lifetime = 0 ∧
      res.st.c.mc_meta_charset = st.c.mc_meta_charset ∧
      res.st.c.mc_best_cb = st.c.mc_best_cb ∧ res.st.c.mc_charmap = st.c.mc_charmap ∧
      res.st.lut = st.lut := by
  have hreq : req_size_of st.c none = 0x800 := by
    unfold req_size_of flushed
    simp only [hfc, Nat.mul_zero, Nat.add_zero]
  by_cases hb : buf_size < 0x800
  · refine ⟨_, encode_error q pat fuel avctx st buf buf_size none (by omega), ?_⟩
    simp only [hb, if_true, flushed, hfc, and_self]
  · refine ⟨_, encode_idle q pat fuel avctx st buf buf_size none (by omega) ?_ ?_, ?_⟩
    · simp only [flushed, lt_self_iff_false, not_false_eq_true]
    · simp only [flushed, hfc, lt_self_iff_false, and_false, not_false_eq_true]
    · simp only [hb, if_false, flushed, hfc, and_self]

/-- Claim C14 as amended, at a sample state with lifetime 4 and a buffer of capacity 0. -/
theorem encode_empty_flush_witness :
    (sample_state 4 0 false).c.mc_frame_counter = 0 ∧
    ∃ res, a64multi_encode_frame sample_q sample_pat 512 ⟨320, 200⟩ (sample_state 4 0 false)
        (fun _ => 0) 0 none = some res ∧
      res.ret = (if 0 < 0x800 then AVERROR_EINVAL else 0) ∧
      res.buf = (fun _ => 0) ∧
      res.st.c.mc_frame_counter = 0 ∧ res.st.c.mc_lifetime = 0 ∧
      res.st.c.mc_meta_charset = (sample_state 4 0 false).c.mc_meta_charset ∧
      res.st.c.mc_best_cb = (sample_state 4 0 false).c.mc_best_cb ∧
      res.st.c.mc_charmap = (sample_state 4 0 false).c.mc_charmap ∧
      res.st.lut = (sample_state 4 0 false).lut :=
  ⟨rfl, encode_empty_flush sample_q sample_pat 512 ⟨320, 200⟩ (sample_state 4 0 false)
    (fun _ => 0) 0 rfl⟩

/-- Claim C15 fails: with the sample reference levels `0, 51, 119, 187, 255` the entry of
`index1` for the sample value 255 is 4, outside the range [0,3]. -/
theorem index1_reaches_four :
    (build_tables sample_luma zero_tables).index1 255 = 4 ∧
    ¬ (build_tables sample_luma zero_tables).index1 255 ≤ 3 := by
  have h := (build_tables_index sample_luma (by unfold Ascending; decide) zero_tables 255
    (by omega)).1
  have e : level_of sample_luma 255 = 4 := by decide
  rw [e] at h
  rw [h]
  exact ⟨rfl, by omega⟩

/-- Claim C15 as amended.  For ascending reference levels `L 0 < ... < L 4 <= 255` and
every sample value `v <= 255`, the tables built by the first loop of `render_charset`
hold: `index1[v]` is the greatest reference index `r` in 0..4 with `L r <= v`, not
clamped to 3 (it is 4 from `L 4` on), and 0 for `v < L 0`; `index2[v]` is
`min (index1[v] + 1, 4)`. -/
theorem build_tables_indices (L : Nat → Nat) (t0 : Tables) (v : Nat)
    (hL : L 0 < L 1 ∧ L 1 < L 2 ∧ L 2 < L 3 ∧ L 3 < L 4 ∧ L 4 ≤ 255) (hv : v ≤ 255) :
    (build_tables L t0).index1 v ≤ 4 ∧
    (L 0 ≤ v → L ((build_tables L t0).index1 v) ≤ v ∧
      ∀ r, r ≤ 4 → L r ≤ v → r ≤ (build_tables L t0).index1 v) ∧
    (v < L 0 → (build_tables L t0).index1 v = 0) ∧
    (L 4 ≤ v → (build_tables L t0).index1 v = 4) ∧
    (build_tables L t0).index2 v = min ((build_tables L t0).index1 v + 1) 4 := by
  obtain ⟨h01, h12, h23, h34, h4⟩ := hL
  obtain ⟨e1, e2⟩ := build_tables_index L ⟨h12, h23, h34⟩ t0 v (by omega)
  rw [e1, e2]
  refine ⟨level_of_le L v, ?_, ?_, ?_, rfl⟩
  · intro h0
    constructor
    · unfold level_of
      split_ifs <;> omega
    · intro r hr hrv
      have hr' : r = 0 ∨ r = 1 ∨ r = 2 ∨ r = 3 ∨ r = 4 := by omega
      unfold level_of
      rcases hr' with e | e | e | e | e <;> subst e <;> split_ifs <;> omega
  · intro h0
    unfold level_of
    rw [if_pos (by omega)]
  · intro h0
    unfold level_of
    split_ifs <;> omega

/-- Claim C15 as amended, at the sample reference levels and the sample value 200. -/
theorem build_tables_indices_witness :
    (sample_luma 0 < sample_luma 1 ∧ sample_luma 1 < sample_luma 2 ∧
      sample_luma 2 < sample_luma 3 ∧ sample_luma 3 < sample_luma 4 ∧ sample_luma 4 ≤ 255) ∧
    200 ≤ 255 ∧
    (build_tables sample_luma zero_tables).index1 200 ≤ 4 ∧
    (sample_luma 0 ≤ 200 →
      sample_luma ((build_tables sample_luma zero_tables).index1 200) ≤ 200 ∧
      ∀ r, r ≤ 4 → sample_luma r ≤ 200 → r ≤ (build_tables sample_luma zero_tables).index1 200) ∧
    (200 < sample_luma 0 → (build_tables sample_luma zero_tables).index1 200 = 0) ∧
    (sample_luma 4 ≤ 200 → (build_tables sample_luma zero_tables).index1 200 = 4) ∧
    (build_tables sample_luma zero_tables).index2 200 =
      min ((build_tables sample_luma zero_tables).index1 200 + 1) 4 :=
  ⟨by decide, by decide,
   build_tables_indices sample_luma zero_tables 200 (by decide) (by decide)⟩

/-- Claim C16.  For ascending reference levels `L 0 < ... < L 4 <= 255` the table `dither`
built by the first loop of `render_charset` holds: for `i < 4` and `L i <= v < L (i+1)` the
level `floor ((v - L i) * 7 / (L (i+1) - L i))`; for `L 4 <= v <= 255` the level 0; hence
level 0 at every reference level, and a level of at most 7 for every `v` in `[L 0, 255]`. -/
theorem build_tables_dither_levels (L : Nat → Nat) (t0 : Tables)
    (hL : L 0 < L 1 ∧ L 1 < L 2 ∧ L 2 < L 3 ∧ L 3 < L 4 ∧ L 4 ≤ 255) :
    (∀ i, i < 4 → ∀ v, L i ≤ v → v < L (i + 1) →
      (build_tables L t0).dither v = (v - L i) * 7 / (L (i + 1) - L i)) ∧
    (∀ v, L 4 ≤ v → v ≤ 255 → (build_tables L t0).dither v = 0) ∧
    (∀ i, i ≤ 4 → (build_tables L t0).dither (L i) = 0) ∧
    (∀ v, L 0 ≤ v → v ≤ 255 → (build_tables L t0).dither v ≤ 7) :=
  dither_table_closed L hL t0

/-- Claim C16, at the sample reference levels. -/
theorem build_tables_dither_levels_witness :
    (sample_luma 0 < sample_luma 1 ∧ sample_luma 1 < sample_luma 2 ∧
      sample_luma 2 < sample_luma 3 ∧ sample_luma 3 < sample_luma 4 ∧ sample_luma 4 ≤ 255) ∧
    (∀ i, i < 4 → ∀ v, sample_luma i ≤ v → v < sample_luma (i + 1) →
      (build_tables sample_luma zero_tables).dither v =
        (v - sample_luma i) * 7 / (sample_luma (i + 1) - sample_luma i)) ∧
    (∀ v, sample_luma 4 ≤ v → v ≤ 255 → (build_tables sample_luma zero_tables).dither v = 0) ∧
    (∀ i, i ≤ 4 → (build_tables sample_luma zero_tables).dither (sample_luma i) = 0) ∧
    (∀ v, sample_luma 0 ≤ v → v ≤ 255 → (build_tables sample_luma zero_tables).dither v ≤ 7) :=
  ⟨by decide, build_tables_dither_levels sample_luma zero_tables (by decide)⟩

/-- Claim C17.  For every codebook of 256 x 32 values in [0,255] and ascending reference
levels, `render_charset` returns (given 512 passes), and for every character `c` with
original vector `w`, `highdiff` the sum of `v - L 3` over its values `v >= L 3` and
`lowdiff` the sum of `L 1 - v` over its values `v < L 1`: if both sums are positive the
codebook finally holds `min (w k, L 3)` in every slot `k` of the character when
`lowdiff > highdiff` and `max (w k, L 1)` otherwise (the tie included); if not both are
positive it holds `w k`.  Every codebook entry behind the 256 characters is as before. -/
theorem render_charset_clamps (pat : Nat → Nat → Nat → Nat) (L : Nat → Nat) (t0 : Tables)
    (mem_cb : Nat → Int) (mem_cs : Nat → Nat) (charset : Nat) (colrammap : Nat → Nat)
    (fuel : Nat)
    (hL : L 0 < L 1 ∧ L 1 < L 2 ∧ L 2 < L 3 ∧ L 3 < L 4 ∧ L 4 ≤ 255)
    (hcb : ∀ k, k < 256 * 32 → 0 ≤ mem_cb k ∧ mem_cb k ≤ 255)
    (hfuel : 512 ≤ fuel) :
    ∃ r, render_charset pat L fuel t0 mem_cb mem_cs charset colrammap = some r ∧
      (∀ c, c < 256 → ∀ k, k < 32 →
        r.2.mem_cb (32 * c + k) =
          if high_sum L (fun i => mem_cb (32 * c + i)) > 0 ∧
              low_sum L (fun i => mem_cb (32 * c + i)) > 0 then
            if low_sum L (fun i => mem_cb (32 * c + i)) >
                high_sum L (fun i => mem_cb (32 * c + i)) then
              min (mem_cb (32 * c + k)) (L 3 : Int)
            else max (mem_cb (32 * c + k)) (L 1 : Int)
          else mem_cb (32 * c + k)) ∧
      (∀ k, 256 * 32 ≤ k → r.2.mem_cb k = mem_cb k) := by
  obtain ⟨h01, h12, h23, h34, h4⟩ := hL
  have hA : Ascending L := ⟨h12, h23, h34⟩
  obtain ⟨r, hr, _⟩ :=
    render_charset_run pat L t0 mem_cb mem_cs charset colrammap fuel hA (by omega) hcb hfuel
  obtain ⟨h1, h2⟩ := render_charset_settled pat L t0 mem_cb mem_cs charset colrammap fuel r hA
    (by omega) hcb hr
  refine ⟨r, hr, ?_, h2⟩
  intro c hc k hk
  rw [h1 c hc k hk]
  unfold settled
  rw [highdiff_of_eq_sum L _ (build_tables_ok L hA t0) mem_cb (32 * c)
      (fun i hi => hcb _ (by omega)),
    lowdiff_of_eq_sum L _ (build_tables_ok L hA t0) mem_cb (32 * c)
      (fun i hi => hcb _ (by omega)), min_comm, max_comm]

/-- Claim C17, at the sample reference levels and the sample codebook. -/
theorem render_charset_clamps_witness :
    (sample_luma 0 < sample_luma 1 ∧ sample_luma 1 < sample_luma 2 ∧
      sample_luma 2 < sample_luma 3 ∧ sample_luma 3 < sample_luma 4 ∧ sample_luma 4 ≤ 255) ∧
    (∀ k, k < 256 * 32 → 0 ≤ sample_cb k ∧ sample_cb k ≤ 255) ∧
    ∃ r, render_charset sample_pat sample_luma 512 zero_tables sample_cb (fun _ => 0) 0
        (fun _ => 0) = some r ∧
      (∀ c, c < 256 → ∀ k, k < 32 →
        r.2.mem_cb (32 * c + k) =
          if high_sum sample_luma (fun i => sample_cb (32 * c + i)) > 0 ∧
              low_sum sample_luma (fun i => sample_cb (32 * c + i)) > 0 then
            if low_sum sample_luma (fun i => sample_cb (32 * c + i)) >
                high_sum sample_luma (fun i => sample_cb (32 * c + i)) then
              min (sample_cb (32 * c + k)) (sample_luma 3 : Int)
            else max (sample_cb (32 * c + k)) (sample_luma 1 : Int)
          else sample_cb (32 * c + k)) ∧
      (∀ k, 256 * 32 ≤ k → r.2.mem_cb k = sample_cb k) :=
  ⟨by decide, sample_cb_inRange,
   render_charset_clamps sample_pat sample_luma zero_tables sample_cb (fun _ => 0) 0
     (fun _ => 0) 512 (by decide) sample_cb_inRange (le_refl 512)⟩

/-- Claim C18.  If `mc_frame_counter <= mc_lifetime` holds before a call of
`a64multi_encode_frame`, then whatever the input, the capacity and the branch taken, it
holds in the state the call leaves; a call with a frame leaves `mc_lifetime` as it was and
an end-of-stream call leaves it at most as large (it becomes `mc_frame_counter`).  The
call returns whenever the quantizer yields sample values, the reference levels are
ascending bytes and the character loop is granted 512 passes. -/
theorem encode_counter_invariant (q : Elbg) (pat : Nat → Nat → Nat → Nat) (fuel : Nat)
    (avctx : AVCodecContext) (st : EncState) (buf : Nat → Nat) (buf_size : Nat)
    (data : Option AVFrame) (hinv : 0 ≤ st.c.mc_frame_counter ∧
      st.c.mc_frame_counter ≤ st.c.mc_lifetime) :
    (∀ res, a64multi_encode_frame q pat fuel avctx st buf buf_size data = some res →
      (0 ≤ res.st.c.mc_frame_counter ∧ res.st.c.mc_frame_counter ≤ res.st.c.mc_lifetime) ∧
      (data.isSome = true → res.st.c.mc_lifetime = st.c.mc_lifetime) ∧
      (data = none → res.st.c.mc_lifetime = st.c.mc_frame_counter ∧
        res.st.c.mc_lifetime ≤ st.c.mc_lifetime)) ∧
    (ElbgOK q → LumaOK st.c.mc_luma_vals → 512 ≤ fuel →
      ∃ res, a64multi_encode_frame q pat fuel avctx st buf buf_size data = some res) := by
  constructor
  · intro res h
    obtain ⟨h1, h2⟩ := encode_counter_le q pat fuel avctx st buf buf_size data res h hinv.2
    refine ⟨⟨Nat.zero_le _, h1⟩, ?_, ?_⟩
    · intro hs
      cases data with
      | none => cases hs
      | some p => exact h2
    · intro hn
      subst hn
      exact ⟨h2, by rw [h2]; exact hinv.2⟩
  · intro hq hL hfuel
    exact encode_returns q pat fuel avctx st buf buf_size data hq hL hfuel

/-- Claim C18, at an end-of-stream call with 3 of 10 frames buffered. -/
theorem encode_counter_invariant_witness :
    (0 ≤ (sample_state 10 3 true).c.mc_frame_counter ∧
      (sample_state 10 3 true).c.mc_frame_counter ≤ (sample_state 10 3 true).c.mc_lifetime) ∧
    ((∀ res, a64multi_encode_frame sample_q sample_pat 512 ⟨320, 200⟩ (sample_state 10 3 true)
        (fun _ => 0) 0x2000 none = some res →
      (0 ≤ res.st.c.mc_frame_counter ∧ res.st.c.mc_frame_counter ≤ res.st.c.mc_lifetime) ∧
      ((none : Option AVFrame).isSome = true →
        res.st.c.mc_lifetime = (sample_state 10 3 true).c.mc_lifetime) ∧
      ((none : Option AVFrame) = none →
        res.st.c.mc_lifetime = (sample_state 10 3 true).c.mc_frame_counter ∧
        res.st.c.mc_lifetime ≤ (sample_state 10 3 true).c.mc_lifetime)) ∧
    (ElbgOK sample_q → LumaOK (sample_state 10 3 true).c.mc_luma_vals → 512 ≤ 512 →
      ∃ res, a64multi_encode_frame sample_q sample_pat 512 ⟨320, 200⟩ (sample_state 10 3 true)
        (fun _ => 0) 0x2000 none = some res)) :=
  ⟨by decide, encode_counter_invariant sample_q sample_pat 512 ⟨320, 200⟩
    (sample_state 10 3 true) (fun _ => 0) 0x2000 none (by decide)⟩

/-- Claim C19.  In a state with `mc_frame_counter = mc_lifetime >= 1` and a buffer of at
least the required size, the result of a call that carries a frame does not depend on
the frame: for any two frames the whole result (returned value, output buffer, state
left behind) is the same.  When the quantizer yields sample values, the reference levels
are ascending bytes and the character loop is granted 512 passes, the call returns the
required size, resets the frame counter to 0 and leaves the vector buffer and the
private picture as they were: the frame passed is neither extracted nor copied. -/
theorem encode_batch_ignores_frame (q : Elbg) (pat : Nat → Nat → Nat → Nat) (fuel : Nat)
    (avctx : AVCodecContext) (st : EncState) (buf : Nat → Nat) (buf_size : Nat)
    (p1 p2 : AVFrame)
    (heq : st.c.mc_frame_counter = st.c.mc_lifetime) (hpos : 1 ≤ st.c.mc_lifetime)
    (hsize : 0x800 + (0x400 + 0x400 * st.c.mc_use_5col.toNat) * st.c.mc_lifetime ≤ buf_size) :
    a64multi_encode_frame q pat fuel avctx st buf buf_size (some p1) =
      a64multi_encode_frame q pat fuel avctx st buf buf_size (some p2) ∧
    (ElbgOK q → LumaOK st.c.mc_luma_vals → 512 ≤ fuel →
      ∃ res, a64multi_encode_frame q pat fuel avctx st buf buf_size (some p1) = some res ∧
        res.ret = ((0x800 + (0x400 + 0x400 * st.c.mc_use_5col.toNat) * st.c.mc_lifetime : Nat)
          : Int) ∧
        res.st.c.mc_frame_counter = 0 ∧
        res.st.c.mc_meta_charset = st.c.mc_meta_charset ∧
        res.st.c.picture = st.c.picture ∧
        res.st.c.mc_lifetime = st.c.mc_lifetime) := by
  have hs : ∀ p : AVFrame, req_size_of st.c (some p) ≤ buf_size := fun p => hsize
  constructor
  · rw [encode_batch q pat fuel avctx st buf buf_size (some p1) (hs p1) heq hpos,
      encode_batch q pat fuel avctx st buf buf_size (some p2) (hs p2) heq hpos]
    rfl
  · intro hq hL hfuel
    obtain ⟨r, _, hr⟩ := encode_batch_runs q pat fuel avctx st buf buf_size (some p1) hq hL
      hfuel (hs p1) heq hpos
    exact ⟨_, hr, rfl, rfl, rfl, rfl, rfl⟩

/-- Claim C19, at the sample frame and the bar frame, with one frame buffered of a
lifetime of one in 4-color mode. -/
theorem encode_batch_ignores_frame_witness :
    (sample_state 1 1 false).c.mc_frame_counter = (sample_state 1 1 false).c.mc_lifetime ∧
    1 ≤ (sample_state 1 1 false).c.mc_lifetime ∧
    a64multi_encode_frame sample_q sample_pat 512 ⟨320, 200⟩ (sample_state 1 1 false)
        (fun _ => 0) 0xc00 (some sample_frame) =
      a64multi_encode_frame sample_q sample_pat 512 ⟨320, 200⟩ (sample_state 1 1 false)
        (fun _ => 0) 0xc00 (some bar_frame) ∧
    (ElbgOK sample_q → LumaOK (sample_state 1 1 false).c.mc_luma_vals → 512 ≤ 512 →
      ∃ res, a64multi_encode_frame sample_q sample_pat 512 ⟨320, 200⟩ (sample_state 1 1 false)
          (fun _ => 0) 0xc00 (some sample_frame) = some res ∧
        res.ret = ((0x800 + (0x400 + 0x400 * (sample_state 1 1 false).c.mc_use_5col.toNat) *
          (sample_state 1 1 false).c.mc_lifetime : Nat) : Int) ∧
        res.st.c.mc_frame_counter = 0 ∧
        res.st.c.mc_meta_charset = (sample_state 1 1 false).c.mc_meta_charset ∧
        res.st.c.picture = (sample_state 1 1 false).c.picture ∧
        res.st.c.mc_lifetime = (sample_state 1 1 false).c.mc_lifetime) :=
  ⟨rfl, by decide, encode_batch_ignores_frame sample_q sample_pat 512 ⟨320, 200⟩
    (sample_state 1 1 false) (fun _ => 0) 0xc00 sample_frame bar_frame rfl (by decide)
    (by decide)⟩

/-- Claim C20.  On a call that returns a positive value, with `n` the batch length and
`S` the frame block size (`0x400`, in 5-color mode `0x800`): every byte at an offset
`j >= 0x800` that lies in no screen map `[0x800 + i*S, 0x800 + i*S + 1000)`, `i < n`, and
in 5-color mode in no color map `[0x800 + i*S + 0x400, 0x800 + i*S + 0x400 + 1000)`, has
the value the caller's buffer held; in particular the bytes at block offsets 1000..1023
of every frame block and, in 5-color mode, also those at block offsets 2024..2047. -/
theorem encode_payload_frame_effect (q : Elbg) (pat : Nat → Nat → Nat → Nat) (fuel : Nat)
    (avctx : AVCodecContext) (st : EncState) (buf : Nat → Nat) (buf_size : Nat)
    (data : Option AVFrame) (res : EncodeResult)
    (h : a64multi_encode_frame q pat fuel avctx st buf buf_size data = some res)
    (hpos : 0 < res.ret) :
    (∀ j, 0x800 ≤ j →
      (∀ i a, i < res.st.c.mc_lifetime → a < 1000 →
        j ≠ 0x800 + i * (if st.c.mc_use_5col then 0x800 else 0x400) + a) →
      (st.c.mc_use_5col = true → ∀ i a, i < res.st.c.mc_lifetime → a < 1000 →
        j ≠ 0x800 + i * (if st.c.mc_use_5col then 0x800 else 0x400) + 0x400 + a) →
      res.buf j = buf j) ∧
    (∀ i g, i < res.st.c.mc_lifetime → 1000 ≤ g → g < 1024 →
      res.buf (0x800 + i * (if st.c.mc_use_5col then 0x800 else 0x400) + g) =
        buf (0x800 + i * (if st.c.mc_use_5col then 0x800 else 0x400) + g)) ∧
    (st.c.mc_use_5col = true → ∀ i g, i < res.st.c.mc_lifetime → 2024 ≤ g → g < 2048 →
      res.buf (0x800 + i * 0x800 + g) = buf (0x800 + i * 0x800 + g)) := by
  obtain ⟨m0, hP, hm0, _, _⟩ := encode_payload_layout q pat fuel avctx st buf buf_size data res
    h hpos
  obtain ⟨_, _, _, r, _, hres⟩ := encode_payload_inv q pat fuel avctx st buf buf_size data res
    h hpos
  have h5 : res.st.c.mc_use_5col = st.c.mc_use_5col := by
    rw [hres]
    exact (flushed_fields st.c data).2.1
  rw [h5] at hP
  have key : ∀ j, 0x800 ≤ j →
      (∀ i a, i < res.st.c.mc_lifetime → a < 1000 →
        j ≠ 0x800 + i * (if st.c.mc_use_5col then 0x800 else 0x400) + a) →
      (st.c.mc_use_5col = true → ∀ i a, i < res.st.c.mc_lifetime → a < 1000 →
        j ≠ 0x800 + i * (if st.c.mc_use_5col then 0x800 else 0x400) + 0x400 + a) →
      res.buf j = buf j := by
    intro j hj hs hc
    rw [hP.2.2 j hs hc]
    exact hm0 j hj
  refine ⟨key, ?_, ?_⟩
  · intro i g hi hg1 hg2
    cases hm : st.c.mc_use_5col with
    | false =>
      simp only [hm, Bool.false_eq_true, if_false] at key ⊢
      apply key _ (by omega)
      · intro i' a _ ha
        omega
      · intro hf
        cases hf
    | true =>
      simp only [hm, if_true] at key ⊢
      apply key _ (by omega)
      · intro i' a _ ha
        omega
      · intro _ i' a _ ha
        omega
  · intro hm i g hi hg1 hg2
    simp only [hm, if_true] at key
    apply key _ (by omega)
    · intro i' a _ ha
      omega
    · intro _ i' a _ ha
      omega

/-- Claim C20, at a batch of 2 frames in 5-color mode packed into a zeroed buffer. -/
theorem encode_payload_frame_effect_witness :
    ∃ res, a64multi_encode_frame sample_q sample_pat 512 ⟨320, 200⟩ (sample_state 2 2 true)
        (fun _ => 0) 6144 none = some res ∧ 0 < res.ret ∧
      (∀ j, 0x800 ≤ j →
        (∀ i a, i < res.st.c.mc_lifetime → a < 1000 →
          j ≠ 0x800 + i * (if (sample_state 2 2 true).c.mc_use_5col then 0x800 else 0x400) + a) →
        ((sample_state 2 2 true).c.mc_use_5col = true →
          ∀ i a, i < res.st.c.mc_lifetime → a < 1000 →
          j ≠ 0x800 + i * (if (sample_state 2 2 true).c.mc_use_5col then 0x800 else 0x400)
            + 0x400 + a) →
        res.buf j = (fun _ => 0) j) ∧
      (∀ i g, i < res.st.c.mc_lifetime → 1000 ≤ g → g < 1024 →
        res.buf (0x800 + i * (if (sample_state 2 2 true).c.mc_use_5col then 0x800 else 0x400) + g) =
          (fun _ => 0)
            (0x800 + i * (if (sample_state 2 2 true).c.mc_use_5col then 0x800 else 0x400) + g)) ∧
      ((sample_state 2 2 true).c.mc_use_5col = true →
        ∀ i g, i < res.st.c.mc_lifetime → 2024 ≤ g → g < 2048 →
        res.buf (0x800 + i * 0x800 + g) = (fun _ => 0) (0x800 + i * 0x800 + g)) := by
  obtain ⟨r, _, hres⟩ := encode_batch_runs sample_q sample_pat 512 ⟨320, 200⟩
    (sample_state 2 2 true) (fun _ => 0) 6144 none sample_q_ok sample_luma_ok
    (le_refl 512) (by decide) rfl (by decide)
  have hpos : 0 < (batch_result sample_q (sample_state 2 2 true) none r).ret := by
    show (0 : Int) < ((req_size_of (sample_state 2 2 true).c none : Nat) : Int)
    decide
  exact ⟨_, hres, hpos,
    encode_payload_frame_effect sample_q sample_pat 512 ⟨320, 200⟩ (sample_state 2 2 true)
      (fun _ => 0) 6144 none _ hres hpos⟩

end A64
